import Mathlib

/-!
Verification model of the `ruma-api-macros` request marshaler
(`src/ruma-api-macros/src/api/request.rs`).

The proc macro in the source compiles an endpoint description (metadata +
classified request fields) into a pair of functions on the generated request
struct: `try_into_http_request` (typed value → wire HTTP request) and
`try_from_http_request` (wire HTTP request → typed value).  This file gives a
shallow embedding of the *semantics of the generated code*, parameterized by
the endpoint description, i.e. a table-driven rendering of the per-endpoint
code the macro emits.

Modelling conventions:
* Strings are `List Char` (`Str`), byte strings are `List Nat` with each
  entry < 256.
* The externally supplied value types (spec §6: "externally defined value
  types that provide canonical string parse/format") are modelled by their
  canonical string form, with format and parse the identity on that string.
* The external codecs consumed by the generated code (serde_json,
  ruma_serde::urlencoded, percent_encoding, http's header value handling)
  are modelled concretely and executably below, faithful to the behavior the
  generated code relies on.
-/

set_option maxRecDepth 10000

abbrev Str := List Char

/-- Result type mirroring Rust's `Result`, with decidable equality. -/
inductive Res (ε α : Type) where
  | ok (a : α)
  | err (e : ε)
  deriving DecidableEq, Repr

namespace Res

def map {ε α β : Type} (f : α → β) : Res ε α → Res ε β
  | .ok a => .ok (f a)
  | .err e => .err e

def isOk {ε α : Type} : Res ε α → Bool
  | .ok _ => true
  | .err _ => false

end Res

/-! ## UTF-8 (model of `str::as_bytes` / `decode_utf8` / byte input of
`serde_json::from_slice`) -/

/-- UTF-8 encoding of a single Unicode scalar value, as bytes. -/
def utf8EncodeChar (c : Char) : List Nat :=
  let n := c.toNat
  if n < 0x80 then [n]
  else if n < 0x800 then [0xC0 + n / 64, 0x80 + n % 64]
  else if n < 0x10000 then [0xE0 + n / 4096, 0x80 + (n / 64) % 64, 0x80 + n % 64]
  else [0xF0 + n / 262144, 0x80 + (n / 4096) % 64, 0x80 + (n / 64) % 64, 0x80 + n % 64]

/-- UTF-8 encoding of a string, as bytes. -/
def utf8Encode (s : Str) : List Nat := s.flatMap utf8EncodeChar

/-- Whether a byte is a UTF-8 continuation byte. -/
def isCont (b : Nat) : Bool := 0x80 ≤ b && b < 0xC0

/-- Continuation of a 2-byte UTF-8 sequence. -/
def utf8Cont1 (b0 : Nat) : List Nat → Option (Char × List Nat)
  | b1 :: rest =>
    if isCont b1 then some (Char.ofNat ((b0 - 0xC0) * 64 + (b1 - 0x80)), rest) else none
  | [] => none

/-- Continuation of a 3-byte UTF-8 sequence (rejects surrogates and
overlong forms). -/
def utf8Cont2 (b0 : Nat) : List Nat → Option (Char × List Nat)
  | b1 :: b2 :: rest =>
    let n := (b0 - 0xE0) * 4096 + (b1 - 0x80) * 64 + (b2 - 0x80)
    if isCont b1 && isCont b2 && decide (0x800 ≤ n) && decide (¬ (0xD800 ≤ n ∧ n < 0xE000)) then
      some (Char.ofNat n, rest)
    else none
  | _ => none

/-- Continuation of a 4-byte UTF-8 sequence. -/
def utf8Cont3 (b0 : Nat) : List Nat → Option (Char × List Nat)
  | b1 :: b2 :: b3 :: rest =>
    let n := (b0 - 0xF0) * 262144 + (b1 - 0x80) * 4096 + (b2 - 0x80) * 64 + (b3 - 0x80)
    if isCont b1 && isCont b2 && isCont b3 && decide (0x10000 ≤ n) && decide (n < 0x110000) then
      some (Char.ofNat n, rest)
    else none
  | _ => none

/-- Decode one UTF-8 scalar from the front of a byte list. -/
def utf8Step : List Nat → Option (Char × List Nat)
  | [] => none
  | b0 :: rest =>
    if b0 < 0x80 then some (Char.ofNat b0, rest)
    else if b0 < 0xC2 then none
    else if b0 < 0xE0 then utf8Cont1 b0 rest
    else if b0 < 0xF0 then utf8Cont2 b0 rest
    else if b0 < 0xF5 then utf8Cont3 b0 rest
    else none

/-- Fuel-driven UTF-8 decoding loop. -/
def utf8DecodeF : Nat → List Nat → Option Str
  | _, [] => some []
  | 0, _ :: _ => none
  | fuel + 1, b0 :: rest =>
    match utf8Step (b0 :: rest) with
    | none => none
    | some (c, rest1) => (utf8DecodeF fuel rest1).map (c :: ·)

/-- Strict UTF-8 decoding of a byte list, `none` on invalid input; a
sufficient fuel is the byte count since every scalar consumes at least one
byte. -/
def utf8Decode (l : List Nat) : Option Str := utf8DecodeF l.length l

theorem char_toNat_lt (c : Char) : c.toNat < 0x110000 := by
  rcases c.valid with h | ⟨_, h⟩
  · exact Nat.lt_trans h (by norm_num)
  · exact h

theorem char_toNat_not_surrogate (c : Char) : ¬ (0xD800 ≤ c.toNat ∧ c.toNat < 0xE000) := by
  have he : c.toNat = c.val.toNat := rfl
  rw [he]
  rcases c.valid with h | ⟨h, _⟩
  · omega
  · have h2 : 0xDFFF < c.val.toNat := h
    omega

theorem toNat_ofNat_valid (n : Nat) (h : n.isValidChar) : (Char.ofNat n).toNat = n := by
  rw [Char.ofNat, dif_pos h]
  simp [Char.ofNatAux, Char.toNat, UInt32.toNat, BitVec.toNat_ofNatLt]

/-- Decoding one scalar from the front of an encoded character recovers it. -/
theorem utf8Step_encodeChar (c : Char) (l : List Nat) :
    utf8Step (utf8EncodeChar c ++ l) = some (c, l) := by
  have hlt := char_toNat_lt c
  have hsur := char_toNat_not_surrogate c
  unfold utf8EncodeChar
  by_cases h1 : c.toNat < 0x80
  · simp only [if_pos h1, List.cons_append, List.nil_append, utf8Step]
    rw [Char.ofNat_toNat]
  · by_cases h2 : c.toNat < 0x800
    · simp only [if_neg h1, if_pos h2, List.cons_append, List.nil_append, utf8Step]
      rw [if_neg (by omega), if_neg (by omega), if_pos (by omega)]
      simp only [utf8Cont1]
      have hc : isCont (0x80 + c.toNat % 64) = true := by
        simp only [isCont, Bool.and_eq_true, decide_eq_true_eq]
        omega
      rw [if_pos hc]
      have : (0xC0 + c.toNat / 64 - 0xC0) * 64 + (0x80 + c.toNat % 64 - 0x80) = c.toNat := by
        omega
      rw [this, Char.ofNat_toNat]
    · by_cases h3 : c.toNat < 0x10000
      · simp only [if_neg h1, if_neg h2, if_pos h3, List.cons_append, List.nil_append, utf8Step]
        rw [if_neg (by omega), if_neg (by omega), if_neg (by omega), if_pos (by omega)]
        simp only [utf8Cont2]
        have hre : (0xE0 + c.toNat / 4096 - 0xE0) * 4096 + (0x80 + c.toNat / 64 % 64 - 0x80) * 64
            + (0x80 + c.toNat % 64 - 0x80) = c.toNat := by omega
        rw [hre]
        have hcond : (isCont (0x80 + c.toNat / 64 % 64) && isCont (0x80 + c.toNat % 64)
            && decide (0x800 ≤ c.toNat)
            && decide (¬ (0xD800 ≤ c.toNat ∧ c.toNat < 0xE000))) = true := by
          simp only [isCont, Bool.and_eq_true, decide_eq_true_eq]
          exact ⟨⟨⟨by omega, by omega⟩, by omega⟩, hsur⟩
        rw [if_pos hcond, Char.ofNat_toNat]
      · simp only [if_neg h1, if_neg h2, if_neg h3, List.cons_append, List.nil_append, utf8Step]
        rw [if_neg (by omega), if_neg (by omega), if_neg (by omega), if_neg (by omega),
          if_pos (by omega)]
        simp only [utf8Cont3]
        have hre : (0xF0 + c.toNat / 262144 - 0xF0) * 262144
            + (0x80 + c.toNat / 4096 % 64 - 0x80) * 4096
            + (0x80 + c.toNat / 64 % 64 - 0x80) * 64 + (0x80 + c.toNat % 64 - 0x80) = c.toNat := by
          omega
        rw [hre]
        have hcond : (isCont (0x80 + c.toNat / 4096 % 64) && isCont (0x80 + c.toNat / 64 % 64)
            && isCont (0x80 + c.toNat % 64) && decide (0x10000 ≤ c.toNat)
            && decide (c.toNat < 0x110000)) = true := by
          simp only [isCont, Bool.and_eq_true, decide_eq_true_eq]
          exact ⟨⟨⟨⟨by omega, by omega⟩, by omega⟩, by omega⟩, hlt⟩
        rw [if_pos hcond, Char.ofNat_toNat]

theorem utf8EncodeChar_length_pos (c : Char) : 0 < (utf8EncodeChar c).length := by
  simp only [utf8EncodeChar]
  split
  · simp
  split
  · simp
  split <;> simp

/-- With enough fuel, decoding an encoded string gives it back. -/
theorem utf8DecodeF_utf8Encode (s : Str) :
    ∀ fuel, (utf8Encode s).length ≤ fuel → utf8DecodeF fuel (utf8Encode s) = some s := by
  induction s with
  | nil => intro fuel _; cases fuel <;> rfl
  | cons c cs ih =>
    intro fuel hfuel
    have hs : utf8Encode (c :: cs) = utf8EncodeChar c ++ utf8Encode cs := rfl
    rw [hs] at hfuel ⊢
    have hpos := utf8EncodeChar_length_pos c
    have hlen : (utf8EncodeChar c ++ utf8Encode cs).length
        = (utf8EncodeChar c).length + (utf8Encode cs).length := List.length_append _ _
    obtain ⟨fuel', rfl⟩ : ∃ fuel', fuel = fuel' + 1 := by
      cases fuel with
      | zero => omega
      | succ n => exact ⟨n, rfl⟩
    obtain ⟨b0, rest, hb⟩ : ∃ b0 rest, utf8EncodeChar c ++ utf8Encode cs = b0 :: rest := by
      cases hcc : utf8EncodeChar c with
      | nil => rw [hcc] at hpos; simp at hpos
      | cons x xs => exact ⟨x, xs ++ utf8Encode cs, by simp [hcc]⟩
    rw [hb]
    show (match utf8Step (b0 :: rest) with
      | none => none
      | some (c, rest1) => (utf8DecodeF fuel' rest1).map (c :: ·)) = _
    rw [← hb, utf8Step_encodeChar]
    show (utf8DecodeF fuel' (utf8Encode cs)).map (c :: ·) = _
    have : (utf8Encode cs).length ≤ fuel' := by omega
    rw [ih fuel' this]
    rfl

/-- UTF-8 round-trip: decoding an encoded string gives it back. -/
theorem utf8Decode_utf8Encode (s : Str) : utf8Decode (utf8Encode s) = some s :=
  utf8DecodeF_utf8Encode s _ (Nat.le_refl _)

theorem utf8EncodeChar_ascii (c : Char) (h : c.toNat < 0x80) :
    utf8EncodeChar c = [c.toNat] := by
  simp [utf8EncodeChar, h]

/-- Encoding a list of ASCII bytes seen as characters gives back the bytes. -/
theorem utf8Encode_map_ofNat_ascii (bs : List Nat) (h : ∀ b ∈ bs, b < 0x80) :
    utf8Encode (bs.map Char.ofNat) = bs := by
  induction bs with
  | nil => rfl
  | cons b rest ih =>
    have hb : b < 0x80 := h b (by simp)
    have hv : (Char.ofNat b).toNat = b := toNat_ofNat_valid b (Or.inl (by omega))
    show utf8EncodeChar (Char.ofNat b) ++ utf8Encode (rest.map Char.ofNat) = _
    rw [utf8EncodeChar_ascii _ (by rw [hv]; exact hb), hv,
      ih (fun x hx => h x (by simp [hx]))]
    rfl

/-- A byte list that is entirely ASCII always UTF-8-decodes, to those bytes
read as characters. -/
theorem utf8DecodeF_ascii (bs : List Nat) :
    ∀ fuel, bs.length ≤ fuel → (∀ b ∈ bs, b < 0x80) →
      utf8DecodeF fuel bs = some (bs.map Char.ofNat) := by
  induction bs with
  | nil => intro fuel _ _; cases fuel <;> rfl
  | cons b rest ih =>
    intro fuel hfuel h
    have hb : b < 0x80 := h b (by simp)
    obtain ⟨fuel', rfl⟩ : ∃ fuel', fuel = fuel' + 1 := by
      cases fuel with
      | zero => simp at hfuel
      | succ n => exact ⟨n, rfl⟩
    show (match utf8Step (b :: rest) with
      | none => none
      | some (c, rest1) => (utf8DecodeF fuel' rest1).map (c :: ·)) = _
    have hstep : utf8Step (b :: rest) = some (Char.ofNat b, rest) := by
      simp only [utf8Step, if_pos hb]
    rw [hstep]
    show (utf8DecodeF fuel' rest).map (Char.ofNat b :: ·) = _
    have : rest.length ≤ fuel' := by simp at hfuel; omega
    rw [ih fuel' this (fun x hx => h x (by simp [hx]))]
    rfl

theorem utf8Decode_ascii (bs : List Nat) (h : ∀ b ∈ bs, b < 0x80) :
    utf8Decode bs = some (bs.map Char.ofNat) :=
  utf8DecodeF_ascii bs _ (Nat.le_refl _) h

/-! ## Percent-encoding (model of the `percent_encoding` crate with the
`NON_ALPHANUMERIC` set, used for path segments) and the
form-urlencoding byte escape (model of `ruma_serde::urlencoded`) -/

def isAlphaNumByte (b : Nat) : Bool :=
  (48 ≤ b && b ≤ 57) || (65 ≤ b && b ≤ 90) || (97 ≤ b && b ≤ 122)

/-- Upper-case hex digit byte for a value < 16. -/
def hexDigitByte (d : Nat) : Nat := if d < 10 then 48 + d else 55 + d

def isHexDigitByte (b : Nat) : Bool :=
  (48 ≤ b && b ≤ 57) || (65 ≤ b && b ≤ 70) || (97 ≤ b && b ≤ 102)

def hexVal (b : Nat) : Nat := if b ≤ 57 then b - 48 else if b ≤ 70 then b - 55 else b - 87

/-- `utf8_percent_encode(_, NON_ALPHANUMERIC)` on one byte: every byte
outside `[A-Za-z0-9]` becomes `%XX`. -/
def percentEncodeByte (b : Nat) : List Nat :=
  if isAlphaNumByte b then [b] else [37, hexDigitByte (b / 16), hexDigitByte (b % 16)]

def percentEncode (bs : List Nat) : List Nat := bs.flatMap percentEncodeByte

/-- One `%XX` triple after a `%` byte, if well formed. -/
def pctTriple : List Nat → Option (Nat × List Nat)
  | b1 :: b2 :: rest =>
    if isHexDigitByte b1 && isHexDigitByte b2 then
      some (hexVal b1 * 16 + hexVal b2, rest)
    else none
  | _ => none

/-- One step of `percent_decode`: a well-formed `%XX` collapses to a byte,
anything else passes through. -/
def percentStep : List Nat → Option (Nat × List Nat)
  | [] => none
  | b :: rest =>
    if b = 37 then some ((pctTriple rest).getD (37, rest)) else some (b, rest)

/-- One step of form-urlencoded byte decoding: like percent decoding but
`+` decodes to a space. -/
def formStep : List Nat → Option (Nat × List Nat)
  | [] => none
  | b :: rest =>
    if b = 43 then some (32, rest)
    else if b = 37 then some ((pctTriple rest).getD (37, rest)) else some (b, rest)

/-- Fuel-driven transducer loop over a byte list; each step of `step` must
consume at least one byte, so the list length is sufficient fuel. -/
def stepLoop (step : List Nat → Option (Nat × List Nat)) : Nat → List Nat → List Nat
  | _, [] => []
  | 0, l => l
  | fuel + 1, b :: rest =>
    match step (b :: rest) with
    | none => b :: rest
    | some (v, rest1) => v :: stepLoop step fuel rest1

def percentDecode (l : List Nat) : List Nat := stepLoop percentStep l.length l

def formUnescBytes (l : List Nat) : List Nat := stepLoop formStep l.length l

theorem hexVal_hexDigitByte (d : Nat) (h : d < 16) : hexVal (hexDigitByte d) = d := by
  simp only [hexDigitByte, hexVal]
  by_cases h10 : d < 10
  · rw [if_pos h10, if_pos (by omega)]
    omega
  · rw [if_neg h10, if_neg (by omega), if_pos (by omega)]
    omega

theorem isHexDigitByte_hexDigitByte (d : Nat) (h : d < 16) :
    isHexDigitByte (hexDigitByte d) = true := by
  by_cases h10 : d < 10
  · have h1 : hexDigitByte d = 48 + d := if_pos h10
    rw [h1]
    simp only [isHexDigitByte, Bool.or_eq_true, Bool.and_eq_true, decide_eq_true_eq]
    omega
  · have h1 : hexDigitByte d = 55 + d := if_neg h10
    rw [h1]
    simp only [isHexDigitByte, Bool.or_eq_true, Bool.and_eq_true, decide_eq_true_eq]
    omega

theorem pctTriple_encoded (b : Nat) (h : b < 256) (l : List Nat) :
    pctTriple (hexDigitByte (b / 16) :: hexDigitByte (b % 16) :: l) = some (b, l) := by
  simp only [pctTriple]
  rw [if_pos (by
    simp only [Bool.and_eq_true]
    exact ⟨isHexDigitByte_hexDigitByte _ (by omega), isHexDigitByte_hexDigitByte _ (by omega)⟩)]
  rw [hexVal_hexDigitByte _ (by omega), hexVal_hexDigitByte _ (by omega)]
  have : b / 16 * 16 + b % 16 = b := by omega
  rw [this]

theorem isAlphaNumByte_ne_37 (b : Nat) (h : isAlphaNumByte b = true) : b ≠ 37 := by
  simp only [isAlphaNumByte, Bool.or_eq_true, Bool.and_eq_true, decide_eq_true_eq] at h
  omega

/-- `percent_decode` undoes one percent-encoded byte at the front. -/
theorem percentStep_encodeByte (b : Nat) (h : b < 256) (l : List Nat) :
    percentStep (percentEncodeByte b ++ l) = some (b, l) := by
  simp only [percentEncodeByte]
  by_cases ha : isAlphaNumByte b
  · rw [if_pos ha]
    simp only [List.cons_append, List.nil_append, percentStep]
    rw [if_neg (isAlphaNumByte_ne_37 b ha)]
  · rw [if_neg ha]
    simp only [List.cons_append, List.nil_append, percentStep, if_true]
    rw [pctTriple_encoded b h l]
    rfl

/-- Generic fuel-sufficiency round-trip for `stepLoop`. -/
theorem stepLoop_roundtrip (step : List Nat → Option (Nat × List Nat))
    (encB : Nat → List Nat) (P : Nat → Prop)
    (hstep : ∀ b, P b → ∀ l, step (encB b ++ l) = some (b, l))
    (hpos : ∀ b, P b → 0 < (encB b).length) :
    ∀ (bs : List Nat), (∀ b ∈ bs, P b) →
      ∀ fuel, (bs.flatMap encB).length ≤ fuel → stepLoop step fuel (bs.flatMap encB) = bs := by
  intro bs
  induction bs with
  | nil =>
    intro _ fuel _
    cases fuel <;> rfl
  | cons b rest ih =>
    intro hP fuel hfuel
    have hb : P b := hP b (by simp)
    have hflat : (b :: rest).flatMap encB = encB b ++ rest.flatMap encB := by simp
    rw [hflat] at hfuel ⊢
    have hpos' := hpos b hb
    obtain ⟨fuel', rfl⟩ : ∃ fuel', fuel = fuel' + 1 := by
      rw [List.length_append] at hfuel
      cases fuel with
      | zero => omega
      | succ n => exact ⟨n, rfl⟩
    obtain ⟨b0, r0, hb0⟩ : ∃ b0 r0, encB b ++ rest.flatMap encB = b0 :: r0 := by
      cases hcc : encB b with
      | nil => rw [hcc] at hpos'; simp at hpos'
      | cons x xs => exact ⟨x, xs ++ rest.flatMap encB, by simp [hcc]⟩
    rw [hb0]
    show (match step (b0 :: r0) with
      | none => b0 :: r0
      | some (v, rest1) => v :: stepLoop step fuel' rest1) = _
    rw [← hb0, hstep b hb]
    show b :: stepLoop step fuel' (rest.flatMap encB) = _
    have hle : (rest.flatMap encB).length ≤ fuel' := by
      rw [List.length_append] at hfuel
      omega
    rw [ih (fun x hx => hP x (by simp [hx])) fuel' hle]

theorem percentEncodeByte_length_pos (b : Nat) : 0 < (percentEncodeByte b).length := by
  simp only [percentEncodeByte]
  split <;> simp

/-- Percent-encoding round-trip on bytes. -/
theorem percentDecode_percentEncode (bs : List Nat) (h : ∀ b ∈ bs, b < 256) :
    percentDecode (percentEncode bs) = bs := by
  have := stepLoop_roundtrip percentStep percentEncodeByte (fun b => b < 256)
    (fun b hb l => percentStep_encodeByte b hb l)
    (fun b _ => percentEncodeByte_length_pos b)
    bs h (bs.flatMap percentEncodeByte).length (Nat.le_refl _)
  exact this

theorem percentEncodeByte_ascii (b : Nat) (hb : b < 256) :
    ∀ x ∈ percentEncodeByte b, x < 0x80 := by
  intro x hx
  simp only [percentEncodeByte] at hx
  by_cases ha : isAlphaNumByte b
  · rw [if_pos ha] at hx
    simp only [List.mem_singleton] at hx
    subst hx
    simp only [isAlphaNumByte, Bool.or_eq_true, Bool.and_eq_true, decide_eq_true_eq] at ha
    omega
  · rw [if_neg ha] at hx
    simp only [List.mem_cons, List.not_mem_nil, or_false] at hx
    rcases hx with rfl | rfl | rfl
    · omega
    · simp only [hexDigitByte]
      split <;> omega
    · simp only [hexDigitByte]
      split <;> omega

theorem percentEncodeByte_no_slash (b : Nat) : 47 ∉ percentEncodeByte b := by
  intro hx
  simp only [percentEncodeByte] at hx
  by_cases ha : isAlphaNumByte b
  · rw [if_pos ha] at hx
    simp only [List.mem_singleton] at hx
    simp only [isAlphaNumByte, Bool.or_eq_true, Bool.and_eq_true, decide_eq_true_eq] at ha
    omega
  · rw [if_neg ha] at hx
    simp only [List.mem_cons, List.not_mem_nil, or_false] at hx
    rcases hx with h | h | h
    · omega
    · simp only [hexDigitByte] at h
      split at h <;> omega
    · simp only [hexDigitByte] at h
      split at h <;> omega

/-! ## Splitting and joining on a separator character (model of
`str::split('/')` on paths and of the `k=v&k2=v2` query syntax) -/

/-- Prepend a character to the first piece of a split result. -/
def consHead (c : Char) : List Str → List Str
  | [] => [[c]]
  | s :: ss => (c :: s) :: ss

/-- Split a character list on a separator; mirrors `str::split`, always
returning at least one (possibly empty) piece. -/
def splitOnChar (sep : Char) : Str → List Str
  | [] => [[]]
  | c :: rest =>
    if c = sep then [] :: splitOnChar sep rest
    else consHead c (splitOnChar sep rest)

/-- Join pieces with a separator; inverse of `splitOnChar` on
separator-free pieces. -/
def joinSep (sep : Char) : List Str → Str
  | [] => []
  | [s] => s
  | s :: ss => s ++ sep :: joinSep sep ss

theorem splitOnChar_no_sep (sep : Char) (s : Str) (h : sep ∉ s) :
    splitOnChar sep s = [s] := by
  induction s with
  | nil => rfl
  | cons c rest ih =>
    have hc : c ≠ sep := fun hcc => h (by simp [hcc])
    simp only [splitOnChar, if_neg hc, ih (fun hm => h (by simp [hm])), consHead]

theorem splitOnChar_append_sep (sep : Char) (s : Str) (h : sep ∉ s) (l : Str) :
    splitOnChar sep (s ++ sep :: l) = s :: splitOnChar sep l := by
  induction s with
  | nil => simp [splitOnChar]
  | cons c rest ih =>
    have hc : c ≠ sep := fun hcc => h (by simp [hcc])
    show splitOnChar sep (c :: (rest ++ sep :: l)) = _
    simp only [splitOnChar]
    rw [if_neg hc, ih (fun hm => h (by simp [hm]))]
    rfl

/-- Round-trip: splitting a join of separator-free pieces recovers them. -/
theorem splitOnChar_joinSep (sep : Char) (ss : List Str) (hne : ss ≠ [])
    (h : ∀ s ∈ ss, sep ∉ s) : splitOnChar sep (joinSep sep ss) = ss := by
  induction ss with
  | nil => exact absurd rfl hne
  | cons s rest ih =>
    cases rest with
    | nil => exact splitOnChar_no_sep sep s (h s (by simp))
    | cons s2 rest2 =>
      show splitOnChar sep (s ++ sep :: joinSep sep (s2 :: rest2)) = _
      rw [splitOnChar_append_sep sep s (h s (by simp)) _]
      rw [ih (by simp) (fun x hx => h x (by simp [hx]))]

/-- Splitting then rejoining is the identity. -/
theorem splitOnChar_mem_no_sep (sep : Char) (s : Str) :
    ∀ t ∈ splitOnChar sep s, sep ∉ t := by
  induction s with
  | nil =>
    intro t ht
    simp only [splitOnChar, List.mem_singleton] at ht
    subst ht
    simp
  | cons c rest ih =>
    intro t ht
    simp only [splitOnChar] at ht
    by_cases hc : c = sep
    · rw [if_pos hc] at ht
      rcases List.mem_cons.mp ht with rfl | hmem
      · simp
      · exact ih t hmem
    · rw [if_neg hc] at ht
      rcases hsp : splitOnChar sep rest with _ | ⟨s0, ss0⟩
      · rw [hsp] at ht
        simp only [consHead, List.mem_singleton] at ht
        subst ht
        intro hmem
        simp only [List.mem_singleton] at hmem
        exact hc hmem.symm
      · rw [hsp] at ht
        simp only [consHead, List.mem_cons] at ht
        rcases ht with rfl | hmem
        · intro hmem2
          rcases List.mem_cons.mp hmem2 with hcc | hmem3
          · exact hc hcc.symm
          · exact ih s0 (by rw [hsp]; simp) hmem3
        · exact ih t (by rw [hsp]; simp [hmem])

/-! ## Form-urlencoded escape (byte level) -/

def isFormSafeByte (b : Nat) : Bool :=
  isAlphaNumByte b || b = 42 || b = 45 || b = 46 || b = 95

/-- `form_urlencoded` byte escaping: space becomes `+`, bytes in
`[A-Za-z0-9*-._]` are kept, everything else becomes `%XX`. -/
def formEscByte (b : Nat) : List Nat :=
  if b = 32 then [43]
  else if isFormSafeByte b then [b]
  else [37, hexDigitByte (b / 16), hexDigitByte (b % 16)]

theorem formStep_escByte (b : Nat) (h : b < 256) (l : List Nat) :
    formStep (formEscByte b ++ l) = some (b, l) := by
  simp only [formEscByte]
  by_cases h32 : b = 32
  · rw [if_pos h32]
    simp only [List.cons_append, List.nil_append, formStep, if_true]
    rw [h32]
  · rw [if_neg h32]
    by_cases hsafe : isFormSafeByte b
    · rw [if_pos hsafe]
      simp only [List.cons_append, List.nil_append, formStep]
      have h43 : b ≠ 43 := by
        simp only [isFormSafeByte, isAlphaNumByte, Bool.or_eq_true, Bool.and_eq_true,
          decide_eq_true_eq] at hsafe
        omega
      have h37 : b ≠ 37 := by
        simp only [isFormSafeByte, isAlphaNumByte, Bool.or_eq_true, Bool.and_eq_true,
          decide_eq_true_eq] at hsafe
        omega
      rw [if_neg h43, if_neg h37]
    · rw [if_neg hsafe]
      simp only [List.cons_append, List.nil_append, formStep, if_true]
      rw [if_neg (by omega), pctTriple_encoded b h l]
      rfl

theorem formEscByte_length_pos (b : Nat) : 0 < (formEscByte b).length := by
  simp only [formEscByte]
  split
  · simp
  split <;> simp

/-- Form-unescape round-trip on bytes. -/
theorem formUnescBytes_formEsc (bs : List Nat) (h : ∀ b ∈ bs, b < 256) :
    formUnescBytes (bs.flatMap formEscByte) = bs :=
  stepLoop_roundtrip formStep formEscByte (fun b => b < 256)
    (fun b hb l => formStep_escByte b hb l)
    (fun b _ => formEscByte_length_pos b)
    bs h (bs.flatMap formEscByte).length (Nat.le_refl _)

theorem formEscByte_ascii (b : Nat) (hb : b < 256) : ∀ x ∈ formEscByte b, x < 0x80 := by
  intro x hx
  simp only [formEscByte] at hx
  by_cases h32 : b = 32
  · rw [if_pos h32] at hx
    simp only [List.mem_singleton] at hx
    omega
  · rw [if_neg h32] at hx
    by_cases hsafe : isFormSafeByte b
    · rw [if_pos hsafe] at hx
      simp only [List.mem_singleton] at hx
      subst hx
      simp only [isFormSafeByte, isAlphaNumByte, Bool.or_eq_true, Bool.and_eq_true,
        decide_eq_true_eq] at hsafe
      omega
    · rw [if_neg hsafe] at hx
      simp only [List.mem_cons, List.not_mem_nil, or_false] at hx
      rcases hx with rfl | rfl | rfl
      · omega
      · simp only [hexDigitByte]
        split <;> omega
      · simp only [hexDigitByte]
        split <;> omega

/-- The form escape never emits the bytes of the structural characters
`&` (38) and `=` (61). -/
theorem formEscByte_no_amp_eq (b x : Nat) (hx : x ∈ formEscByte b) : x ≠ 38 ∧ x ≠ 61 := by
  simp only [formEscByte] at hx
  by_cases h32 : b = 32
  · rw [if_pos h32] at hx
    simp only [List.mem_singleton] at hx
    omega
  · rw [if_neg h32] at hx
    by_cases hsafe : isFormSafeByte b
    · rw [if_pos hsafe] at hx
      simp only [List.mem_singleton] at hx
      subst hx
      simp only [isFormSafeByte, isAlphaNumByte, Bool.or_eq_true, Bool.and_eq_true,
        decide_eq_true_eq] at hsafe
      omega
    · rw [if_neg hsafe] at hx
      simp only [List.mem_cons, List.not_mem_nil, or_false] at hx
      rcases hx with rfl | rfl | rfl
      · omega
      · constructor <;> (simp only [hexDigitByte]; split <;> omega)
      · constructor <;> (simp only [hexDigitByte]; split <;> omega)

/-! ## String-level form codec (model of `ruma_serde::urlencoded`) -/

theorem utf8EncodeChar_lt_256 (c : Char) : ∀ b ∈ utf8EncodeChar c, b < 256 := by
  intro b hb
  have hlt := char_toNat_lt c
  simp only [utf8EncodeChar] at hb
  by_cases h1 : c.toNat < 0x80
  · rw [if_pos h1] at hb
    simp only [List.mem_singleton] at hb
    omega
  · rw [if_neg h1] at hb
    by_cases h2 : c.toNat < 0x800
    · rw [if_pos h2] at hb
      simp only [List.mem_cons, List.not_mem_nil, or_false] at hb
      rcases hb with rfl | rfl <;> omega
    · rw [if_neg h2] at hb
      by_cases h3 : c.toNat < 0x10000
      · rw [if_pos h3] at hb
        simp only [List.mem_cons, List.not_mem_nil, or_false] at hb
        rcases hb with rfl | rfl | rfl <;> omega
      · rw [if_neg h3] at hb
        simp only [List.mem_cons, List.not_mem_nil, or_false] at hb
        rcases hb with rfl | rfl | rfl | rfl <;> omega

theorem utf8Encode_lt_256 (s : Str) : ∀ b ∈ utf8Encode s, b < 256 := by
  intro b hb
  simp only [utf8Encode, List.mem_flatMap] at hb
  obtain ⟨c, _, hc⟩ := hb
  exact utf8EncodeChar_lt_256 c b hc

theorem mem_map_ofNat_toNat (bs : List Nat) (h : ∀ b ∈ bs, b < 0x80) (c : Char)
    (hc : c ∈ bs.map Char.ofNat) : c.toNat ∈ bs := by
  simp only [List.mem_map] at hc
  obtain ⟨b, hb, rfl⟩ := hc
  rw [toNat_ofNat_valid b (Or.inl (by have := h b hb; omega))]
  exact hb

/-- `form_urlencoded` escaping of a string: escape the UTF-8 bytes, then
view the (all-ASCII) result as characters. -/
def formEscStr (s : Str) : Str := ((utf8Encode s).flatMap formEscByte).map Char.ofNat

/-- `form_urlencoded` unescaping of a string: unescape the UTF-8 bytes and
re-decode; `none` models a deserialization error on invalid UTF-8. -/
def formUnescStr (s : Str) : Option Str := utf8Decode (formUnescBytes (utf8Encode s))

theorem formEscStr_bytes_ascii (s : Str) :
    ∀ b ∈ (utf8Encode s).flatMap formEscByte, b < 0x80 := by
  intro b hb
  simp only [List.mem_flatMap] at hb
  obtain ⟨b0, hb0, hbb⟩ := hb
  exact formEscByte_ascii b0 (utf8Encode_lt_256 s b0 hb0) b hbb

/-- Form escape round-trip on strings. -/
theorem formUnescStr_formEscStr (s : Str) : formUnescStr (formEscStr s) = some s := by
  unfold formUnescStr formEscStr
  rw [utf8Encode_map_ofNat_ascii _ (formEscStr_bytes_ascii s),
    formUnescBytes_formEsc _ (utf8Encode_lt_256 s), utf8Decode_utf8Encode]

/-- The escaped form of a string contains neither `&` nor `=`. -/
theorem formEscStr_no_amp_eq (s : Str) (c : Char) (hc : c ∈ formEscStr s) :
    c ≠ '&' ∧ c ≠ '=' := by
  have htn := mem_map_ofNat_toNat _ (formEscStr_bytes_ascii s) c hc
  simp only [List.mem_flatMap] at htn
  obtain ⟨b0, _, hbb⟩ := htn
  have := formEscByte_no_amp_eq b0 c.toNat hbb
  constructor
  · intro hcc
    subst hcc
    exact this.1 rfl
  · intro hcc
    subst hcc
    exact this.2 rfl

/-- Split at the first `=`, the key/value division of one form pair; a
pair without `=` is a key with empty value. -/
def splitFirstEq : Str → (Str × Str)
  | [] => ([], [])
  | c :: rest =>
    if c = '=' then ([], rest)
    else (c :: (splitFirstEq rest).1, (splitFirstEq rest).2)

theorem splitFirstEq_append (a : Str) (ha : '=' ∉ a) (b : Str) :
    splitFirstEq (a ++ '=' :: b) = (a, b) := by
  induction a with
  | nil => simp [splitFirstEq]
  | cons c rest ih =>
    have hc : c ≠ '=' := fun hcc => ha (by simp [hcc])
    show splitFirstEq (c :: (rest ++ '=' :: b)) = _
    simp only [splitFirstEq]
    rw [if_neg hc, ih (fun hm => ha (by simp [hm]))]

/-- Option-valued traversal of a list. -/
def optTraverse {α β : Type} (f : α → Option β) : List α → Option (List β)
  | [] => some []
  | a :: as =>
    match f a with
    | none => none
    | some b => (optTraverse f as).map (b :: ·)

theorem optTraverse_congr {α β : Type} (f : α → Option β) (g : α → β) (l : List α)
    (h : ∀ a ∈ l, f a = some (g a)) : optTraverse f l = some (l.map g) := by
  induction l with
  | nil => rfl
  | cons a as ih =>
    show (match f a with
      | none => none
      | some b => (optTraverse f as).map (b :: ·)) = _
    rw [h a (by simp), ih (fun x hx => h x (by simp [hx]))]
    rfl

theorem optTraverse_map {α β γ : Type} (f : β → Option γ) (m : α → β) (g : α → γ)
    (l : List α) (h : ∀ a ∈ l, f (m a) = some (g a)) :
    optTraverse f (l.map m) = some (l.map g) := by
  induction l with
  | nil => rfl
  | cons a as ih =>
    show (match f (m a) with
      | none => none
      | some b => (optTraverse f (as.map m)).map (b :: ·)) = _
    rw [h a (by simp), ih (fun x hx => h x (by simp [hx]))]
    rfl

/-- Decode one `k=v` form piece. -/
def formPiece (p : Str) : Option (Str × Str) :=
  (formUnescStr (splitFirstEq p).1).bind
    (fun k => (formUnescStr (splitFirstEq p).2).map (fun v => (k, v)))

/-- Parse a form-urlencoded query string into its ordered key-value pairs
(model of `ruma_serde::urlencoded::from_str` at the sequence level);
an empty input is the empty sequence. -/
def formDecodePairs (q : Str) : Option (List (Str × Str)) :=
  if q = [] then some [] else optTraverse formPiece (splitOnChar '&' q)

/-- Render ordered key-value pairs as a form-urlencoded string (model of
`ruma_serde::urlencoded::to_string` at the sequence level). -/
def formEncodePairs (kvs : List (Str × Str)) : Str :=
  joinSep '&' (kvs.map fun kv => formEscStr kv.1 ++ '=' :: formEscStr kv.2)

theorem formPiece_encoded (k v : Str) :
    formPiece (formEscStr k ++ '=' :: formEscStr v) = some (k, v) := by
  unfold formPiece
  rw [splitFirstEq_append _ (fun hm => (formEscStr_no_amp_eq k '=' hm).2 rfl) _]
  simp only [formUnescStr_formEscStr]
  rfl

/-- Form-urlencoded round-trip at the pair-sequence level. -/
theorem formDecodePairs_formEncodePairs (kvs : List (Str × Str)) :
    formDecodePairs (formEncodePairs kvs) = some kvs := by
  cases kvs with
  | nil => rfl
  | cons kv rest =>
    unfold formDecodePairs formEncodePairs
    have hpieces : ∀ p ∈ ((kv :: rest).map fun kv => formEscStr kv.1 ++ '=' :: formEscStr kv.2),
        '&' ∉ p := by
      intro p hp hmem
      simp only [List.mem_map] at hp
      obtain ⟨kv0, _, rfl⟩ := hp
      rcases List.mem_append.mp hmem with hm | hm
      · exact (formEscStr_no_amp_eq kv0.1 '&' hm).1 rfl
      · rcases List.mem_cons.mp hm with hm2 | hm2
        · exact absurd hm2 (by decide)
        · exact (formEscStr_no_amp_eq kv0.2 '&' hm2).1 rfl
    have hne : joinSep '&' ((kv :: rest).map fun kv => formEscStr kv.1 ++ '=' :: formEscStr kv.2)
        ≠ [] := by
      cases rest with
      | nil =>
        show formEscStr kv.1 ++ '=' :: formEscStr kv.2 ≠ []
        simp
      | cons kv2 rest2 =>
        show (formEscStr kv.1 ++ '=' :: formEscStr kv.2) ++ '&' :: _ ≠ []
        simp
    rw [if_neg hne, splitOnChar_joinSep '&' _ (by simp) hpieces,
      optTraverse_map formPiece (fun kv => formEscStr kv.1 ++ '=' :: formEscStr kv.2) id _ (by
        intro kv0 _
        exact formPiece_encoded kv0.1 kv0.2)]
    simp

/-! ## JSON codec (model of `serde_json`), restricted to the shapes the
generated `RequestBody` structs use: flat objects whose members are strings
or null, and bare strings for newtype bodies.  (In the model all field
values are canonical strings, so nested JSON does not arise.) -/

/-- A JSON value inside a request-body object: a string or null. -/
inductive JVal where
  | s (v : Str)
  | null
  deriving DecidableEq, Repr

/-- A JSON document as produced/consumed for a request body: an object of
string/null members, or a bare string (newtype body). -/
inductive JBody where
  | obj (ms : List (Str × JVal))
  | str (v : Str)
  deriving DecidableEq, Repr

/-- JSON string escaping (the two escapes the round-trip relies on;
serde_json additionally escapes control characters, which does not affect
any claim proved here). -/
def jEscChar (c : Char) : Str :=
  if c = '"' then ['\\', '"'] else if c = '\\' then ['\\', '\\'] else [c]

def jStrLit (s : Str) : Str := '"' :: s.flatMap jEscChar ++ ['"']

def jValPrint : JVal → Str
  | .s v => jStrLit v
  | .null => ['n', 'u', 'l', 'l']

def jMember (m : Str × JVal) : Str := jStrLit m.1 ++ ':' :: jValPrint m.2

/-- Compact JSON printing, as `serde_json::to_vec` produces. -/
def jBodyPrint : JBody → Str
  | .obj ms => '{' :: (joinSep ',' (ms.map jMember) ++ ['}'])
  | .str v => jStrLit v

/-- One unescape step after a backslash. -/
def jUnesc : Str → Option (Char × Str)
  | e :: rest => if e = '"' ∨ e = '\\' then some (e, rest) else none
  | [] => none

/-- Parse the body of a JSON string literal up to the closing quote. -/
def jParseStrBody : Nat → Str → Option (Str × Str)
  | _, [] => none
  | 0, _ :: _ => none
  | fuel + 1, c :: rest =>
    if c = '"' then some ([], rest)
    else if c = '\\' then
      (jUnesc rest).bind fun p =>
        (jParseStrBody fuel p.2).map fun q => (p.1 :: q.1, q.2)
    else (jParseStrBody fuel rest).map fun q => (c :: q.1, q.2)

/-- Parse a quoted JSON string literal. -/
def jParseStrLit (fuel : Nat) : Str → Option (Str × Str)
  | c :: rest => if c = '"' then jParseStrBody fuel rest else none
  | [] => none

def parseNullTail : Str → Option Str
  | 'u' :: 'l' :: 'l' :: rest => some rest
  | _ => none

/-- Parse a member value: a string literal or `null`. -/
def jParseVal (fuel : Nat) : Str → Option (JVal × Str)
  | [] => none
  | c :: rest =>
    if c = '"' then (jParseStrBody fuel rest).map fun p => (JVal.s p.1, p.2)
    else if c = 'n' then (parseNullTail rest).map fun r => (JVal.null, r)
    else none

def expectColon : Str → Option Str
  | ':' :: r => some r
  | _ => none

/-- After a member: `,` continues the object, `}` ends it. -/
def jTerminator : Str → Option (Bool × Str)
  | ',' :: r => some (true, r)
  | '}' :: r => some (false, r)
  | _ => none


theorem jParseStrBody_escaped (s : Str) :
    ∀ fuel rest, (s.flatMap jEscChar).length + 1 ≤ fuel →
      jParseStrBody fuel (s.flatMap jEscChar ++ '"' :: rest) = some (s, rest) := by
  induction s with
  | nil =>
    intro fuel rest hfuel
    obtain ⟨f, rfl⟩ : ∃ f, fuel = f + 1 := by
      cases fuel with
      | zero => simp at hfuel
      | succ n => exact ⟨n, rfl⟩
    show jParseStrBody (f + 1) ('"' :: rest) = some ([], rest)
    simp [jParseStrBody]
  | cons c s' ih =>
    intro fuel rest hfuel
    have hflat : (c :: s').flatMap jEscChar = jEscChar c ++ s'.flatMap jEscChar := by simp
    rw [hflat] at hfuel ⊢
    by_cases hq : c = '"'
    · subst hq
      have hesc : jEscChar '"' = ['\\', '"'] := rfl
      rw [hesc] at hfuel ⊢
      obtain ⟨f, rfl⟩ : ∃ f, fuel = f + 1 := by
        cases fuel with
        | zero => simp at hfuel
        | succ n => exact ⟨n, rfl⟩
      show jParseStrBody (f + 1)
        ('\\' :: ('"' :: (s'.flatMap jEscChar ++ '"' :: rest))) = _
      simp only [jParseStrBody, if_neg (by decide : ¬ ('\\' = '"')), if_pos rfl]
      have hu : jUnesc ('"' :: (s'.flatMap jEscChar ++ '"' :: rest))
          = some ('"', s'.flatMap jEscChar ++ '"' :: rest) := by
        simp [jUnesc]
      rw [hu]
      simp only [Option.some_bind]
      rw [ih f rest (by
        simp only [List.length_append, List.length_cons] at hfuel
        omega)]
      rfl
    · by_cases hb : c = '\\'
      · subst hb
        have hesc : jEscChar '\\' = ['\\', '\\'] := rfl
        rw [hesc] at hfuel ⊢
        obtain ⟨f, rfl⟩ : ∃ f, fuel = f + 1 := by
          cases fuel with
          | zero => simp at hfuel
          | succ n => exact ⟨n, rfl⟩
        show jParseStrBody (f + 1)
          ('\\' :: ('\\' :: (s'.flatMap jEscChar ++ '"' :: rest))) = _
        simp only [jParseStrBody, if_neg (by decide : ¬ ('\\' = '"')), if_pos rfl]
        have hu : jUnesc ('\\' :: (s'.flatMap jEscChar ++ '"' :: rest))
            = some ('\\', s'.flatMap jEscChar ++ '"' :: rest) := by
          simp [jUnesc]
        rw [hu]
        simp only [Option.some_bind]
        rw [ih f rest (by
          simp only [List.length_append, List.length_cons] at hfuel
          omega)]
        rfl
      · have hesc : jEscChar c = [c] := by
          simp [jEscChar, hq, hb]
        rw [hesc] at hfuel ⊢
        obtain ⟨f, rfl⟩ : ∃ f, fuel = f + 1 := by
          cases fuel with
          | zero => simp at hfuel
          | succ n => exact ⟨n, rfl⟩
        show jParseStrBody (f + 1) (c :: (s'.flatMap jEscChar ++ '"' :: rest)) = _
        simp only [jParseStrBody, if_neg hq, if_neg hb]
        rw [ih f rest (by
          simp only [List.length_append, List.length_cons] at hfuel
          omega)]
        rfl

theorem jStrLit_length (s : Str) : (jStrLit s).length = (s.flatMap jEscChar).length + 2 := by
  simp [jStrLit]

theorem jParseStrLit_encoded (s : Str) (fuel : Nat) (rest : Str)
    (hfuel : (jStrLit s).length ≤ fuel + 1) :
    jParseStrLit fuel (jStrLit s ++ rest) = some (s, rest) := by
  show jParseStrLit fuel ('"' :: (s.flatMap jEscChar ++ ['"'] ++ rest)) = _
  simp only [jParseStrLit, if_pos rfl]
  rw [jStrLit_length] at hfuel
  rw [List.append_assoc, List.singleton_append]
  exact jParseStrBody_escaped s fuel rest (by omega)

theorem jParseVal_encoded (v : JVal) (fuel : Nat) (rest : Str)
    (hfuel : (jValPrint v).length ≤ fuel) :
    jParseVal fuel (jValPrint v ++ rest) = some (v, rest) := by
  cases v with
  | s s0 =>
    show jParseVal fuel ('"' :: (s0.flatMap jEscChar ++ ['"'] ++ rest)) = _
    simp only [jParseVal, if_pos rfl, List.append_assoc, List.singleton_append]
    rw [jParseStrBody_escaped s0 fuel rest (by
      have := jStrLit_length s0
      simp only [jValPrint] at hfuel
      omega)]
    rfl
  | null =>
    show jParseVal fuel ('n' :: ('u' :: 'l' :: 'l' :: rest)) = _
    simp only [jParseVal, if_neg (by decide : ¬ ('n' = '"')), if_pos rfl]
    rfl

theorem jMember_length_pos (m : Str × JVal) : 0 < (jMember m).length := by
  simp only [jMember, jStrLit]
  simp

/-- Parse one `"key":value` member together with its terminator (`,` or
`}`). -/
def jParseMember1 (l : Str) : Option ((Str × JVal) × Bool × Str) :=
  (jParseStrLit l.length l).bind fun pk =>
  (expectColon pk.2).bind fun r2 =>
  (jParseVal r2.length r2).bind fun pv =>
  (jTerminator pv.2).map fun t => ((pk.1, pv.1), t.1, t.2)

/-- Parse one or more `"key":value` members followed by `}`; the fuel
bounds the number of members. -/
def jParseMembers : Nat → Str → Option (List (Str × JVal) × Str)
  | 0, _ => none
  | fuel + 1, l =>
    (jParseMember1 l).bind fun r =>
      if r.2.1 then (jParseMembers fuel r.2.2).map fun pm => (r.1 :: pm.1, pm.2)
      else some ([r.1], r.2.2)

/-- Parse the inside of an object after `{`. -/
def jParseAfterBrace (rest : Str) : Option JBody :=
  if rest = ['}'] then some (JBody.obj [])
  else (jParseMembers rest.length rest).bind fun pm =>
    if pm.2 = [] then some (JBody.obj pm.1) else none

/-- Parse a complete JSON body document (model of
`serde_json::from_slice` at the document level; trailing input is an
error, as `from_slice` requires the input to be fully consumed). -/
def jParse : Str → Option JBody
  | [] => none
  | c :: rest =>
    if c = '{' then jParseAfterBrace rest
    else
      (jParseVal (c :: rest).length (c :: rest)).bind fun pv =>
        if pv.2 = [] then
          (match pv.1 with
            | JVal.s v => some (JBody.str v)
            | JVal.null => none)
        else none

theorem jParseMember1_encoded (m : Str × JVal) (term : Char) (b : Bool)
    (hterm : (term = ',' ∧ b = true) ∨ (term = '}' ∧ b = false)) (tail : Str) :
    jParseMember1 (jMember m ++ term :: tail) = some (m, b, tail) := by
  unfold jParseMember1
  have hm : jMember m ++ term :: tail
      = jStrLit m.1 ++ (':' :: (jValPrint m.2 ++ term :: tail)) := by
    simp [jMember]
  rw [hm]
  rw [jParseStrLit_encoded m.1 _ _ (by
    simp only [List.length_append]
    omega)]
  simp only [Option.some_bind]
  have hcolon : expectColon (':' :: (jValPrint m.2 ++ term :: tail))
      = some (jValPrint m.2 ++ term :: tail) := rfl
  rw [hcolon]
  simp only [Option.some_bind]
  rw [jParseVal_encoded m.2 _ (term :: tail) (by
    simp only [List.length_append, List.length_cons]
    omega)]
  simp only [Option.some_bind]
  rcases hterm with ⟨rfl, rfl⟩ | ⟨rfl, rfl⟩
  · rfl
  · rfl

/-- Parsing the printed members of a non-empty object recovers them. -/
theorem jParseMembers_encoded (ms : List (Str × JVal)) (hne : ms ≠ []) :
    ∀ fuel rest, ms.length ≤ fuel →
      jParseMembers fuel (joinSep ',' (ms.map jMember) ++ '}' :: rest) = some (ms, rest) := by
  induction ms with
  | nil => exact absurd rfl hne
  | cons m ms' ih =>
    intro fuel rest hfuel
    obtain ⟨f, rfl⟩ : ∃ f, fuel = f + 1 := by
      cases fuel with
      | zero => simp at hfuel
      | succ n => exact ⟨n, rfl⟩
    cases ms' with
    | nil =>
      show jParseMembers (f + 1) (jMember m ++ '}' :: rest) = _
      show (jParseMember1 (jMember m ++ '}' :: rest)).bind _ = _
      rw [jParseMember1_encoded m '}' false (Or.inr ⟨rfl, rfl⟩) rest]
      rfl
    | cons m2 ms2 =>
      show jParseMembers (f + 1)
        ((jMember m ++ ',' :: joinSep ',' ((m2 :: ms2).map jMember)) ++ '}' :: rest) = _
      show (jParseMember1 _).bind _ = _
      have hassoc : (jMember m ++ ',' :: joinSep ',' ((m2 :: ms2).map jMember)) ++ '}' :: rest
          = jMember m ++ ',' :: (joinSep ',' ((m2 :: ms2).map jMember) ++ '}' :: rest) := by
        simp
      rw [hassoc, jParseMember1_encoded m ',' true (Or.inl ⟨rfl, rfl⟩) _]
      simp only [Option.some_bind, if_pos rfl]
      rw [ih (by simp) f rest (by
        simp only [List.length_cons] at hfuel ⊢
        omega)]
      rfl

theorem joinSep_members_length (ms : List (Str × JVal)) :
    ms.length ≤ (joinSep ',' (ms.map jMember)).length + 1 := by
  induction ms with
  | nil => simp
  | cons m ms' ih =>
    cases ms' with
    | nil =>
      show 1 ≤ (jMember m).length + 1
      omega
    | cons m2 ms2 =>
      show (m2 :: ms2).length + 1
          ≤ (jMember m ++ ',' :: joinSep ',' ((m2 :: ms2).map jMember)).length + 1
      have hp := jMember_length_pos m
      simp only [List.length_append, List.length_cons] at *
      omega

/-- JSON round-trip at the document level. -/
theorem jParse_jBodyPrint (j : JBody) : jParse (jBodyPrint j) = some j := by
  cases j with
  | str v =>
    show jParse ('"' :: (v.flatMap jEscChar ++ ['"'])) = _
    simp only [jParse, if_neg (by decide : ¬ ('"' = '{'))]
    have hval : '"' :: (v.flatMap jEscChar ++ ['"']) = jValPrint (JVal.s v) ++ [] := by
      simp [jValPrint, jStrLit]
    rw [hval, jParseVal_encoded (JVal.s v) _ [] (by simp)]
    rfl
  | obj ms =>
    cases ms with
    | nil => rfl
    | cons m ms' =>
      show jParse ('{' :: (joinSep ',' ((m :: ms').map jMember) ++ ['}'])) = _
      simp only [jParse, if_pos rfl, jParseAfterBrace]
      have hp : 0 < (joinSep ',' ((m :: ms').map jMember)).length := by
        cases ms' with
        | nil => exact jMember_length_pos m
        | cons m2 ms2 =>
          show 0 < (jMember m ++ ',' :: joinSep ',' ((m2 :: ms2).map jMember)).length
          simp only [List.length_append, List.length_cons]
          omega
      have hne : joinSep ',' ((m :: ms').map jMember) ++ ['}'] ≠ ['}'] := by
        intro hcc
        have hlen := congrArg List.length hcc
        simp only [List.length_append, List.length_cons, List.length_nil] at hlen
        omega
      rw [if_neg hne]
      have hsplit : joinSep ',' ((m :: ms').map jMember) ++ ['}']
          = joinSep ',' ((m :: ms').map jMember) ++ '}' :: [] := rfl
      rw [hsplit, jParseMembers_encoded (m :: ms') (by simp) _ [] (by
        have := joinSep_members_length (m :: ms')
        simp only [List.length_append, List.length_cons, List.length_nil] at this ⊢
        omega)]
      rfl

/-! ## The request marshaler model

`RequestField`, the endpoint metadata, and the two generated functions
`try_into_http_request` / `try_from_http_request`, embedded as functions
parameterized by the endpoint description.  Each helper carries the name of
the code-generation helper in `request.rs` whose emitted code it models. -/

/-- The classification of request fields (`RequestField` in the source). -/
inductive RequestField where
  | body (name : Str) (opt : Bool)
  | header (name : Str) (hname : Str) (opt : Bool)
  | newtypeBody (name : Str)
  | newtypeRawBody (name : Str)
  | path (name : Str)
  | query (name : Str) (opt : Bool)
  | queryMap (name : Str)
  deriving DecidableEq, Repr

/-- The declared field identifier. -/
def fieldName : RequestField → Str
  | .body n _ => n
  | .header n _ _ => n
  | .newtypeBody n => n
  | .newtypeRawBody n => n
  | .path n => n
  | .query n _ => n
  | .queryMap n => n

def RequestField.isBody : RequestField → Bool
  | .body _ _ => true
  | _ => false

def RequestField.isHeader : RequestField → Bool
  | .header _ _ _ => true
  | _ => false

def RequestField.isNewtypeBody : RequestField → Bool
  | .newtypeBody _ => true
  | _ => false

def RequestField.isNewtypeRawBody : RequestField → Bool
  | .newtypeRawBody _ => true
  | _ => false

def RequestField.isPath : RequestField → Bool
  | .path _ => true
  | _ => false

def RequestField.isQuery : RequestField → Bool
  | .query _ _ => true
  | _ => false

def RequestField.isQueryMap : RequestField → Bool
  | .queryMap _ => true
  | _ => false

/-- An endpoint description: the `Metadata` fields the request side uses
(method, path template, authentication scheme) plus the classified request
fields in declaration order. -/
structure Endpoint where
  method : Str
  path : Str
  authentication : Str
  fields : List RequestField
  deriving DecidableEq, Repr

/-- `Request::has_body_fields`. -/
def has_body_fields (E : Endpoint) : Bool := E.fields.any RequestField.isBody

/-- `Request::has_header_fields`. -/
def has_header_fields (E : Endpoint) : Bool := E.fields.any RequestField.isHeader

/-- `Request::has_path_fields`. -/
def has_path_fields (E : Endpoint) : Bool := E.fields.any RequestField.isPath

/-- `Request::has_query_fields`. -/
def has_query_fields (E : Endpoint) : Bool := E.fields.any RequestField.isQuery

/-- `Request::path_field_count`. -/
def path_field_count (E : Endpoint) : Nat :=
  (E.fields.filter RequestField.isPath).length

/-- `Request::newtype_body_field`. -/
def newtype_body_field (E : Endpoint) : Option RequestField :=
  E.fields.find? RequestField.isNewtypeBody

/-- `Request::newtype_raw_body_field`. -/
def newtype_raw_body_field (E : Endpoint) : Option RequestField :=
  E.fields.find? RequestField.isNewtypeRawBody

/-- `Request::query_map_field`. -/
def query_map_field (E : Endpoint) : Option RequestField :=
  E.fields.find? RequestField.isQueryMap

/-- The value of one request field.  External value types are represented
by their canonical string form (spec §6); `Option`-typed fields by
`optStr`, the raw-body field by its bytes, a query-map field by its
key-value sequence. -/
inductive Value where
  | str (s : Str)
  | optStr (o : Option Str)
  | bytes (bs : List Nat)
  | pairs (kvs : List (Str × Str))
  deriving DecidableEq, Repr

/-- A typed request: one value per declared field, in declaration order. -/
abbrev Req := List Value

def Value.asStr : Value → Str
  | .str s => s
  | _ => []

def Value.asOptStr : Value → Option Str
  | .optStr o => o
  | _ => none

def Value.asBytes : Value → List Nat
  | .bytes bs => bs
  | _ => []

def Value.asPairs : Value → List (Str × Str)
  | .pairs kvs => kvs
  | _ => []

/-- Field access `self.#field_name` on the request struct: the value of
the first field with the given name (Rust forbids duplicate field names;
an absent name would not compile, the default is never reached for
well-formed endpoints). -/
def fieldValue : List (RequestField × Value) → Str → Value
  | [], _ => .str []
  | (f, v) :: rest, n => if fieldName f = n then v else fieldValue rest n

def getField (E : Endpoint) (R : Req) (n : Str) : Value :=
  fieldValue (E.fields.zip R) n

/-- The wire-level HTTP request.  The source builds a single URI string
`format!("{}{}{}", base_url, path, query)`; since percent-encoding escapes
`?` and `#` in path segments, URI parsing splits that string back into
exactly these components, which the model therefore keeps separate
(`query = none` models a URI without `?`, as consumed by
`request.uri().query()`). -/
structure WireRequest where
  method : Str
  path : Str
  query : Option Str
  headers : List (Str × List Nat)
  body : List Nat
  deriving DecidableEq, Repr

/-- `ruma_api::error::IntoHttpError` (the cases reachable in the
generated request-encode path). -/
inductive IntoHttpError where
  | http
  | needsAuthentication
  deriving DecidableEq, Repr

/-- The deserialization problems wrapped into
`RequestDeserializationError` by `try_deserialize!`. -/
inductive DeserializationError where
  | missingHeader (name : Str)
  | headerToStr
  | json
  | urlencoded
  | pathSegment
  deriving DecidableEq, Repr

/-- `ruma_api::error::FromHttpRequestError`; `panicked` models the
out-of-bounds `path_segments[i]` indexing panic of the generated code. -/
inductive FromHttpRequestError where
  | methodMismatch (expected received : Str)
  | deserialization (e : DeserializationError)
  | panicked
  deriving DecidableEq, Repr

def Res.bind {ε α β : Type} : Res ε α → (α → Res ε β) → Res ε β
  | .ok a, f => f a
  | .err e, _ => .err e

/-! ### Header map operations (model of `http::HeaderMap`) -/

/-- `HeaderMap::get`: the first value under a name. -/
def getHeader : List (Str × List Nat) → Str → Option (List Nat)
  | [], _ => none
  | (k, v) :: rest, n => if k = n then some v else getHeader rest n

def removeHeader (hs : List (Str × List Nat)) (n : Str) : List (Str × List Nat) :=
  hs.filter (fun p => decide (p.1 ≠ n))

/-- `HeaderMap::insert`: replaces any existing entry under the name. -/
def insertHeader (hs : List (Str × List Nat)) (n : Str) (v : List Nat) :
    List (Str × List Nat) :=
  removeHeader hs n ++ [(n, v)]

/-- `http::request::Builder::header`: appends an entry. -/
def appendHeader (hs : List (Str × List Nat)) (n : Str) (v : List Nat) :
    List (Str × List Nat) :=
  hs ++ [(n, v)]

/-- A byte acceptable to `http::HeaderValue::from_str`. -/
def isValidHeaderByte (b : Nat) : Bool := b == 9 || (32 ≤ b && b != 127)

/-- `http::HeaderValue::from_str`: the value's UTF-8 bytes, if every byte
is a legal header byte. -/
def headerValueFromStr (s : Str) : Option (List Nat) :=
  if (utf8Encode s).all isValidHeaderByte then some (utf8Encode s) else none

/-- A visible-ASCII byte as accepted by `http::HeaderValue::to_str`. -/
def isVisibleAsciiByte (b : Nat) : Bool := (32 ≤ b && b < 127) || b == 9

/-- `http::HeaderValue::to_str`: yields a string only when every byte is
visible ASCII (in particular, any non-UTF-8 byte sequence is rejected). -/
def headerValueToStr (bs : List Nat) : Option Str :=
  if bs.all isVisibleAsciiByte then some (bs.map Char.ofNat) else none

/-! ### Encoding (`OutgoingRequest::try_into_http_request`) -/

/-- The path template split at `/`, after the leading slash (asserted at
macro time). -/
def tplSegments (path : Str) : List Str := splitOnChar '/' (path.drop 1)

/-- Rendering of one template segment: a `:name` placeholder becomes
`utf8_percent_encode(&self.name.to_string(), NON_ALPHANUMERIC)`, a static
segment passes through. -/
def renderPathSeg (E : Endpoint) (R : Req) (seg : Str) : Str :=
  if seg.head? = some ':' then
    (percentEncode (utf8Encode ((getField E R (seg.drop 1)).asStr))).map Char.ofNat
  else seg

/-- The `request_path_string` expression of `path_string_and_parse`:
with path fields, the `format!` call built by the find/replace loop over
the template (equivalent, under that loop's own assertions that every `:`
starts a segment, to per-segment substitution); without path fields, the
template verbatim (`metadata.path.to_owned()`). -/
def request_path_string (E : Endpoint) (R : Req) : Str :=
  if has_path_fields E then
    '/' :: joinSep '/' ((tplSegments E.path).map (renderPathSeg E R))
  else E.path

/-- One `(name, value)` pair per discrete query field, skipping absent
optional values, as `serde` serializes the generated `RequestQuery`
struct. -/
def optPairList (n : Str) : Option Str → List (Str × Str)
  | some s => [(n, s)]
  | none => []

def queryPairsOf : List (RequestField × Value) → List (Str × Str)
  | [] => []
  | (RequestField.query n false, v) :: rest => (n, v.asStr) :: queryPairsOf rest
  | (RequestField.query n true, v) :: rest => optPairList n v.asOptStr ++ queryPairsOf rest
  | _ :: rest => queryPairsOf rest

/-- `Request::build_query_string`: a query-map field serializes its pair
sequence; otherwise discrete query fields serialize as one struct; with
neither there is no `?` at all. -/
def build_query_string (E : Endpoint) (R : Req) : Option Str :=
  match query_map_field E with
  | some f => some (formEncodePairs ((getField E R (fieldName f)).asPairs))
  | none =>
    if has_query_fields E then some (formEncodePairs (queryPairsOf (E.fields.zip R)))
    else none

def resOfHv (o : Option (List Nat)) : Res IntoHttpError (List Nat) :=
  match o with
  | some bs => .ok bs
  | none => .err .http

/-- The bytes a header field contributes: an optional field inserts only
a present value, a required field always inserts. -/
def headerInsertion (opt : Bool) (v : Value) : Res IntoHttpError (Option (List Nat)) :=
  if opt then
    match v.asOptStr with
    | none => .ok none
    | some s => (resOfHv (headerValueFromStr s)).map some
  else (resOfHv (headerValueFromStr v.asStr)).map some

/-- The field part of `header_kvs`: each header field inserts its value
(in declaration order) into the header map. -/
def header_kvs_fields : List (RequestField × Value) → List (Str × List Nat) →
    Res IntoHttpError (List (Str × List Nat))
  | [], hs => .ok hs
  | (RequestField.header _ hname opt, v) :: rest, hs =>
    match headerInsertion opt v with
    | .err e => .err e
    | .ok none => header_kvs_fields rest hs
    | .ok (some bs) => header_kvs_fields rest (insertHeader hs hname bs)
  | _ :: rest, hs => header_kvs_fields rest hs

/-- The authentication part of `header_kvs`: for `AccessToken`
authentication, `Authorization: Bearer <token>` is inserted, and a missing
token is the hard error `IntoHttpError::NeedsAuthentication`. -/
def header_kvs_auth (E : Endpoint) (access_token : Option Str)
    (hs : List (Str × List Nat)) : Res IntoHttpError (List (Str × List Nat)) :=
  if E.authentication = "AccessToken".data then
    match access_token with
    | none => .err .needsAuthentication
    | some t =>
      (resOfHv (headerValueFromStr ("Bearer ".data ++ t))).map
        (insertHeader hs "authorization".data)
  else .ok hs

def optJVal : Option Str → JVal
  | some s => .s s
  | none => .null

/-- The members of the serialized `RequestBody` struct: one per body
field in declaration order; an absent optional value serializes as
`null`. -/
def bodyMembers : List (RequestField × Value) → List (Str × JVal)
  | [] => []
  | (RequestField.body n false, v) :: rest => (n, JVal.s v.asStr) :: bodyMembers rest
  | (RequestField.body n true, v) :: rest => (n, optJVal v.asOptStr) :: bodyMembers rest
  | _ :: rest => bodyMembers rest

/-- The `request_body` expression: raw-body bytes verbatim; else the
JSON serialization of the `RequestBody` struct (newtype: the bare inner
value); else an empty body. -/
def request_body (E : Endpoint) (R : Req) : List Nat :=
  match newtype_raw_body_field E with
  | some f => (getField E R (fieldName f)).asBytes
  | none =>
    if has_body_fields E || (newtype_body_field E).isSome then
      match newtype_body_field E with
      | some f => utf8Encode (jBodyPrint (JBody.str ((getField E R (fieldName f)).asStr)))
      | none => utf8Encode (jBodyPrint (JBody.obj (bodyMembers (E.fields.zip R))))
    else []

/-- `OutgoingRequest::try_into_http_request` (the `base_url` prefix of the
URI is outside the wire model).  Evaluation order follows the generated
code: the URI (path and query) is formatted first, the builder attaches
`Content-Type: application/json`, then the field headers are inserted in
declaration order, then the authentication header, then the body. -/
def try_into_http_request (E : Endpoint) (R : Req) (access_token : Option Str) :
    Res IntoHttpError WireRequest :=
  (header_kvs_fields (E.fields.zip R)
      (appendHeader [] "content-type".data (utf8Encode "application/json".data))).bind
    fun hs1 =>
  (header_kvs_auth E access_token hs1).bind fun hs2 =>
  .ok { method := E.method
        path := request_path_string E R
        query := build_query_string E R
        headers := hs2
        body := request_body E R }

/-! ### Decoding (`IncomingRequest::try_from_http_request`) -/

/-- `extract_request_path`:
`request.uri().path()[1..].split('/')` (the `[1..]` strips the leading
`/`, a one-byte character, so it is `drop 1` on characters). -/
def extract_path_segments (w : WireRequest) : List Str :=
  splitOnChar '/' (w.path.drop 1)

/-- Decoding of one path segment: percent-decode the segment bytes,
require UTF-8, then parse via the value type's canonical parser
(identity on the canonical string in this model). -/
def decodePathSeg (seg : Str) : Res FromHttpRequestError Str :=
  match utf8Decode (percentDecode (utf8Encode seg)) with
  | some s => .ok s
  | none => .err (.deserialization .pathSegment)

def resOfSeg (o : Option Str) : Res FromHttpRequestError Str :=
  match o with
  | some s => .ok s
  | none => .err .panicked

/-- The `parse_request_path` initializers: for each template segment
(indexed) that starts with `:`, bind the field *named by the placeholder*
to the decoded incoming segment at the same index
(`path_segments[i]` panics when out of bounds). -/
def pathAssignsLoop (segs : List Str) : List (Nat × Str) →
    Res FromHttpRequestError (List (Str × Value))
  | [] => .ok []
  | (i, seg) :: rest =>
    if seg.head? = some ':' then
      (resOfSeg (segs.get? i)).bind fun s =>
      (decodePathSeg s).bind fun v =>
      (pathAssignsLoop segs rest).map fun as => (seg.drop 1, Value.str v) :: as
    else pathAssignsLoop segs rest

def parse_request_path (E : Endpoint) (w : WireRequest) :
    Res FromHttpRequestError (List (Str × Value)) :=
  if has_path_fields E then pathAssignsLoop (extract_path_segments w) (tplSegments E.path).enum
  else .ok []

def lookupPair : List (Str × Str) → Str → Option Str
  | [], _ => none
  | (k, v) :: rest, n => if k = n then some v else lookupPair rest n

def resOfForm (o : Option (List (Str × Str))) :
    Res FromHttpRequestError (List (Str × Str)) :=
  match o with
  | some kvs => .ok kvs
  | none => .err (.deserialization .urlencoded)

def resOfQueryLookup (o : Option Str) : Res FromHttpRequestError Str :=
  match o with
  | some s => .ok s
  | none => .err (.deserialization .urlencoded)

/-- Deserializing the `RequestQuery` struct from the decoded pair
sequence: a required field must be present, an optional field reads its
presence. -/
def queryStructAssigns : List RequestField → List (Str × Str) →
    Res FromHttpRequestError (List (Str × Value))
  | [], _ => .ok []
  | RequestField.query n false :: rest, kvs =>
    (resOfQueryLookup (lookupPair kvs n)).bind fun s =>
    (queryStructAssigns rest kvs).map fun as => (n, Value.str s) :: as
  | RequestField.query n true :: rest, kvs =>
    (queryStructAssigns rest kvs).map fun as => (n, Value.optStr (lookupPair kvs n)) :: as
  | _ :: rest, kvs => queryStructAssigns rest kvs

/-- `extract_request_query` plus the `parse_request_query` initializers:
the query string (`""` when the URI has no query, per `unwrap_or("")`)
form-decodes either into the single query-map field or into the
`RequestQuery` struct. -/
def parse_request_query (E : Endpoint) (w : WireRequest) :
    Res FromHttpRequestError (List (Str × Value)) :=
  match query_map_field E with
  | some f =>
    (resOfForm (formDecodePairs (w.query.getD []))).map fun kvs =>
      [(fieldName f, Value.pairs kvs)]
  | none =>
    if has_query_fields E then
      (resOfForm (formDecodePairs (w.query.getD []))).bind fun kvs =>
        queryStructAssigns E.fields kvs
    else .ok []

def resOfToStr (o : Option Str) : Res FromHttpRequestError Str :=
  match o with
  | some s => .ok s
  | none => .err (.deserialization .headerToStr)

/-- One header field at decode time (`parse_request_headers`, one
initializer): look the header up by name; a present value must pass
`to_str`; a missing header is `None` for an optional field and the error
`HeaderDeserializationError::MissingHeader(name)` for a required one. -/
def parse_header_field (headers : List (Str × List Nat)) (hname : Str) (opt : Bool) :
    Res FromHttpRequestError Value :=
  match getHeader headers hname with
  | some bs =>
    (resOfToStr (headerValueToStr bs)).map fun s =>
      if opt then Value.optStr (some s) else Value.str s
  | none =>
    if opt then .ok (Value.optStr none)
    else .err (.deserialization (.missingHeader hname))

def parse_request_headers : List RequestField → List (Str × List Nat) →
    Res FromHttpRequestError (List (Str × Value))
  | [], _ => .ok []
  | RequestField.header n hname opt :: rest, headers =>
    (parse_header_field headers hname opt).bind fun v =>
    (parse_request_headers rest headers).map fun as => (n, v) :: as
  | _ :: rest, headers => parse_request_headers rest headers

def jParseBytes (bs : List Nat) : Option JBody := (utf8Decode bs).bind jParse

def resOfJson {α : Type} (o : Option α) : Res FromHttpRequestError α :=
  match o with
  | some j => .ok j
  | none => .err (.deserialization .json)

def lookupJ : List (Str × JVal) → Str → Option JVal
  | [], _ => none
  | (k, v) :: rest, n => if k = n then some v else lookupJ rest n

/-- A required (string-modelled) body field: present string only. -/
def resOfBodyStr (o : Option JVal) : Res FromHttpRequestError Str :=
  match o with
  | some (JVal.s v) => .ok v
  | some JVal.null => .err (.deserialization .json)
  | none => .err (.deserialization .json)

/-- An optional body field: absent or `null` is `None`. -/
def optOfJ (o : Option JVal) : Option Str :=
  match o with
  | some (JVal.s v) => some v
  | some JVal.null => none
  | none => none

/-- Deserializing the `RequestBody` struct fields from the parsed JSON
object (unknown members are ignored, as serde does by default). -/
def bodyFieldsAssigns : List RequestField → List (Str × JVal) →
    Res FromHttpRequestError (List (Str × Value))
  | [], _ => .ok []
  | RequestField.body n false :: rest, ms =>
    (resOfBodyStr (lookupJ ms n)).bind fun s =>
    (bodyFieldsAssigns rest ms).map fun as => (n, Value.str s) :: as
  | RequestField.body n true :: rest, ms =>
    (bodyFieldsAssigns rest ms).map fun as => (n, Value.optStr (optOfJ (lookupJ ms n))) :: as
  | _ :: rest, ms => bodyFieldsAssigns rest ms

/-- A newtype body: the whole JSON document is the field's value. -/
def newtypeBodyRead (n : Str) : JBody → Res FromHttpRequestError (List (Str × Value))
  | JBody.str v => .ok [(n, Value.str v)]
  | JBody.obj _ => .err (.deserialization .json)

def bodyObjOf : JBody → Res FromHttpRequestError (List (Str × JVal))
  | JBody.obj ms => .ok ms
  | JBody.str _ => .err (.deserialization .json)

/-- `extract_request_body`: only when body or newtype-body fields exist;
a zero-length body is replaced by `{}` before `serde_json::from_slice`
deserializes the `RequestBody` struct. -/
def extract_request_body (E : Endpoint) (bodyBytes : List Nat) :
    Res FromHttpRequestError (List (Str × Value)) :=
  if has_body_fields E || (newtype_body_field E).isSome then
    (resOfJson (jParseBytes
        (if bodyBytes = [] then utf8Encode ['{', '}'] else bodyBytes))).bind
      fun j =>
        match newtype_body_field E with
        | some f => newtypeBodyRead (fieldName f) j
        | none => (bodyObjOf j).bind fun ms => bodyFieldsAssigns E.fields ms
  else .ok []

/-- The `parse_request_body` initializer for a raw-body field:
`request.into_body()`, the wire bytes verbatim with no parsing. -/
def parse_request_body_raw (E : Endpoint) (w : WireRequest) : List (Str × Value) :=
  match newtype_raw_body_field E with
  | some f => [(fieldName f, Value.bytes w.body)]
  | none => []

def lookupV : List (Str × Value) → Str → Option Value
  | [], _ => none
  | (k, v) :: rest, n => if k = n then some v else lookupV rest n

/-- The final `Self { ... }` struct literal: each declared field receives
the value assigned to its name (named initializers). -/
def assembleReq (E : Endpoint) (A : List (Str × Value)) : Req :=
  E.fields.map fun f => (lookupV A (fieldName f)).getD (Value.str [])

/-- `IncomingRequest::try_from_http_request`.  The method is verified
first; then the query string, the body, the path segments and the headers
are processed as in the generated code, and the typed request is
assembled by field name. -/
def try_from_http_request (E : Endpoint) (w : WireRequest) :
    Res FromHttpRequestError Req :=
  if w.method ≠ E.method then
    .err (.methodMismatch E.method w.method)
  else
    (parse_request_query E w).bind fun queryAssigns =>
    (extract_request_body E w.body).bind fun bodyAssigns =>
    (parse_request_path E w).bind fun pathAssigns =>
    (parse_request_headers E.fields w.headers).bind fun headerAssigns =>
    .ok (assembleReq E
      (pathAssigns ++ queryAssigns ++ headerAssigns ++ bodyAssigns
        ++ parse_request_body_raw E w))

/-! ### Macro-expansion-time validation (the asserts of
`path_string_and_parse`) -/

/-- Every `:` in the template is immediately preceded by `/` (the
`assert_eq!` inside the placeholder loop). -/
def colonsAfterSlash : Str → Bool
  | c1 :: c2 :: rest => (!(c2 = ':') || c1 = '/') && colonsAfterSlash (c2 :: rest)
  | _ => true

/-- The assertions `path_string_and_parse` runs while the macro expands —
i.e. at endpoint definition time.  They run only when at least one Path
field is declared; with no Path fields the template is used verbatim and
nothing is checked. -/
def path_string_and_parse_asserts (E : Endpoint) : Bool :=
  if has_path_fields E then
    (E.path.head? = some '/') && (E.path.count ':' = path_field_count E)
      && colonsAfterSlash E.path
  else true

/-- The number of `:` placeholders in the template, as counted by the
macro's cardinality assert. -/
def placeholderCount (E : Endpoint) : Nat := E.path.count ':'

/-! ### Validity envelope for the round-trip -/

/-- Placeholder names in template order. -/
def placeholders (E : Endpoint) : List Str :=
  (tplSegments E.path).filterMap fun seg =>
    if seg.head? = some ':' then some (seg.drop 1) else none

/-- Path field names in declaration order. -/
def path_field_names (E : Endpoint) : List Str :=
  (E.fields.filter RequestField.isPath).map fieldName

/-- Header names of a field list, in declaration order. -/
def headerNamesOf : List RequestField → List Str
  | [] => []
  | RequestField.header _ hname _ :: rest => hname :: headerNamesOf rest
  | _ :: rest => headerNamesOf rest

/-- Header names of the declared header fields. -/
def header_names (E : Endpoint) : List Str := headerNamesOf E.fields

/-- Structural well-formedness of an endpoint: what the macro expansion,
the field classifier (in `api.rs`) and the Rust compiler together
guarantee about endpoints that build, plus absence of collision between
declared header fields and the headers the encoder synthesizes itself. -/
def wfEndpoint (E : Endpoint) : Prop :=
  (E.fields.map fieldName).Nodup
  ∧ (header_names E).Nodup
  ∧ "content-type".data ∉ header_names E
  ∧ (E.authentication = "AccessToken".data → "authorization".data ∉ header_names E)
  ∧ path_string_and_parse_asserts E = true
  ∧ (placeholders E).Perm (path_field_names E)
  ∧ (∀ g ∈ E.fields, g.isNewtypeBody = true → newtype_body_field E = some g)
  ∧ (∀ g ∈ E.fields, g.isNewtypeRawBody = true → newtype_raw_body_field E = some g)
  ∧ ¬((newtype_body_field E).isSome ∧ (newtype_raw_body_field E).isSome)
  ∧ ¬((newtype_raw_body_field E).isSome ∧ has_body_fields E = true)
  ∧ ¬((newtype_body_field E).isSome ∧ has_body_fields E = true)
  ∧ (∀ g ∈ E.fields, g.isQueryMap = true → query_map_field E = some g)
  ∧ ¬((query_map_field E).isSome ∧ has_query_fields E = true)

/-- A header value that survives the wire: `HeaderValue::from_str`
accepts it and `to_str` yields it back (visible ASCII or tab). -/
def headerSafeStr (s : Str) : Bool :=
  s.all fun c => (32 ≤ c.toNat && c.toNat < 127) || c.toNat == 9

/-- The value shape required by each field kind. -/
def fieldMatches : RequestField → Value → Bool
  | .body _ false, .str _ => true
  | .body _ true, .optStr _ => true
  | .header _ _ false, .str _ => true
  | .header _ _ true, .optStr _ => true
  | .newtypeBody _, .str _ => true
  | .newtypeRawBody _, .bytes _ => true
  | .path _, .str _ => true
  | .query _ false, .str _ => true
  | .query _ true, .optStr _ => true
  | .queryMap _, .pairs _ => true
  | _, _ => false

def headerSafeValue : RequestField → Value → Bool
  | .header _ _ false, .str s => headerSafeStr s
  | .header _ _ true, .optStr (some s) => headerSafeStr s
  | _, _ => true

/-- A valid typed request for an endpoint: one value per field, of the
field's shape, with header values that survive the wire. -/
def validReq (E : Endpoint) (R : Req) : Prop :=
  R.length = E.fields.length
  ∧ ∀ p ∈ E.fields.zip R, fieldMatches p.1 p.2 = true ∧ headerSafeValue p.1 p.2 = true

/-! ## Generic lookup lemmas -/

/-- Strict `orElse` on options. -/
def orElseO {α : Type} : Option α → Option α → Option α
  | some a, _ => some a
  | none, b => b

theorem lookupV_append (A B : List (Str × Value)) (n : Str) :
    lookupV (A ++ B) n = orElseO (lookupV A n) (lookupV B n) := by
  induction A with
  | nil => rfl
  | cons p rest ih =>
    obtain ⟨k, v⟩ := p
    show lookupV ((k, v) :: (rest ++ B)) n = _
    by_cases hk : k = n
    · simp only [lookupV, if_pos hk]
      rfl
    · simp only [lookupV, if_neg hk]
      exact ih

/-- In a pair list whose values are determined by their keys, lookup of
any present key is determined. -/
theorem lookupV_determined (A : List (Str × Value)) (g : Str → Value)
    (hdet : ∀ p ∈ A, p.2 = g p.1) (n : Str) (hmem : n ∈ A.map Prod.fst) :
    lookupV A n = some (g n) := by
  induction A with
  | nil => simp at hmem
  | cons p rest ih =>
    obtain ⟨k, v⟩ := p
    by_cases hk : k = n
    · subst hk
      have hv : v = g k := hdet (k, v) (by simp)
      show lookupV ((k, v) :: rest) k = _
      simp [lookupV, hv]
    · show lookupV ((k, v) :: rest) n = _
      simp only [lookupV, if_neg hk]
      refine ih (fun q hq => hdet q (by simp [hq])) ?_
      simp only [List.map_cons, List.mem_cons] at hmem
      rcases hmem with rfl | hmem
      · exact absurd rfl hk
      · exact hmem

theorem lookupV_not_mem (A : List (Str × Value)) (n : Str)
    (hmem : n ∉ A.map Prod.fst) : lookupV A n = none := by
  induction A with
  | nil => rfl
  | cons p rest ih =>
    obtain ⟨k, v⟩ := p
    show lookupV ((k, v) :: rest) n = _
    by_cases hk : k = n
    · subst hk
      exact absurd (List.mem_map_of_mem Prod.fst (List.mem_cons_self _ _)) hmem
    · simp only [lookupV, if_neg hk]
      exact ih (fun hm => hmem (by simp [hm]))

/-- `self.name` on the zipped fields: with distinct field names, each
field reads its own value. -/
theorem fieldValue_self (fs : List RequestField) (R : Req)
    (hnd : (fs.map fieldName).Nodup) (f : RequestField) (v : Value)
    (hmem : (f, v) ∈ fs.zip R) : fieldValue (fs.zip R) (fieldName f) = v := by
  induction fs generalizing R with
  | nil => exact absurd hmem (by simp)
  | cons f0 rest ih =>
    cases R with
    | nil => exact absurd hmem (by simp)
    | cons v0 R' =>
      simp only [List.zip_cons_cons, List.mem_cons] at hmem
      rcases hmem with heq | hmem
      · rw [Prod.mk.injEq] at heq
        obtain ⟨h1, h2⟩ := heq
        subst h1
        subst h2
        show fieldValue ((f, v) :: rest.zip R') (fieldName f) = v
        simp [fieldValue]
      · show fieldValue ((f0, v0) :: rest.zip R') (fieldName f) = v
        have hnd2 : (rest.map fieldName).Nodup := by
          simp only [List.map_cons, List.nodup_cons] at hnd
          exact hnd.2
        have hne : fieldName f0 ≠ fieldName f := by
          simp only [List.map_cons, List.nodup_cons] at hnd
          intro hcc
          apply hnd.1
          rw [hcc]
          exact List.mem_map_of_mem fieldName (List.of_mem_zip hmem).1
        simp only [fieldValue, if_neg hne]
        exact ih R' hnd2 hmem

/-! ## Header map lemmas -/

theorem getHeader_append (hs hs' : List (Str × List Nat)) (n : Str) :
    getHeader (hs ++ hs') n = orElseO (getHeader hs n) (getHeader hs' n) := by
  induction hs with
  | nil => rfl
  | cons p rest ih =>
    obtain ⟨k, v⟩ := p
    show getHeader ((k, v) :: (rest ++ hs')) n = _
    by_cases hk : k = n
    · simp only [getHeader, if_pos hk]
      rfl
    · simp only [getHeader, if_neg hk]
      exact ih

theorem getHeader_removeHeader_self (hs : List (Str × List Nat)) (n : Str) :
    getHeader (removeHeader hs n) n = none := by
  induction hs with
  | nil => rfl
  | cons p rest ih =>
    obtain ⟨k, v⟩ := p
    by_cases hk : k = n
    · subst hk
      show getHeader (List.filter _ ((k, v) :: rest)) k = _
      rw [List.filter_cons_of_neg (by simp)]
      exact ih
    · show getHeader (List.filter _ ((k, v) :: rest)) n = _
      rw [List.filter_cons_of_pos (by simp [hk])]
      show getHeader ((k, v) :: removeHeader rest n) n = _
      simp only [getHeader, if_neg hk]
      exact ih

theorem getHeader_removeHeader_other (hs : List (Str × List Nat)) (n m : Str)
    (hne : m ≠ n) : getHeader (removeHeader hs n) m = getHeader hs m := by
  induction hs with
  | nil => rfl
  | cons p rest ih =>
    obtain ⟨k, v⟩ := p
    by_cases hk : k = n
    · subst hk
      show getHeader (List.filter _ ((k, v) :: rest)) m = getHeader ((k, v) :: rest) m
      rw [List.filter_cons_of_neg (by simp)]
      show getHeader (removeHeader rest k) m = _
      rw [ih]
      have hkm : k ≠ m := fun hcc => hne (hcc ▸ rfl)
      show getHeader rest m = getHeader ((k, v) :: rest) m
      simp only [getHeader, if_neg hkm]
    · show getHeader (List.filter _ ((k, v) :: rest)) m = getHeader ((k, v) :: rest) m
      rw [List.filter_cons_of_pos (by simp [hk])]
      show getHeader ((k, v) :: removeHeader rest n) m = _
      by_cases hkm : k = m
      · simp only [getHeader, if_pos hkm]
      · simp only [getHeader, if_neg hkm]
        exact ih

theorem getHeader_insertHeader_self (hs : List (Str × List Nat)) (n : Str) (v : List Nat) :
    getHeader (insertHeader hs n v) n = some v := by
  unfold insertHeader
  rw [getHeader_append, getHeader_removeHeader_self]
  show orElseO none (getHeader [(n, v)] n) = _
  simp [orElseO, getHeader]

theorem getHeader_insertHeader_other (hs : List (Str × List Nat)) (n m : Str)
    (v : List Nat) (hne : m ≠ n) :
    getHeader (insertHeader hs n v) m = getHeader hs m := by
  unfold insertHeader
  rw [getHeader_append, getHeader_removeHeader_other hs n m hne]
  have h2 : getHeader [(n, v)] m = none := by
    have hnm : n ≠ m := fun hcc => hne hcc.symm
    show (if n = m then some v else getHeader [] m) = none
    rw [if_neg hnm]
    rfl
  rw [h2]
  cases getHeader hs m <;> rfl

/-! ## Encode-side header characterization -/

/-- The bytes a header field contributes under its name (`none` for an
absent optional value). -/
def encHV (opt : Bool) (v : Value) : Option (List Nat) :=
  if opt then (v.asOptStr).map utf8Encode else some (utf8Encode v.asStr)

theorem headerSafe_bytes (s : Str) (hs : headerSafeStr s = true) :
    ∀ b ∈ utf8Encode s, (32 ≤ b ∧ b < 127) ∨ b = 9 := by
  intro b hb
  simp only [utf8Encode, List.mem_flatMap] at hb
  obtain ⟨c, hc, hbc⟩ := hb
  simp only [headerSafeStr, List.all_eq_true] at hs
  have := hs c hc
  simp only [Bool.or_eq_true, Bool.and_eq_true, decide_eq_true_eq, beq_iff_eq] at this
  have hlt : c.toNat < 0x80 := by omega
  rw [utf8EncodeChar_ascii c hlt] at hbc
  simp only [List.mem_singleton] at hbc
  subst hbc
  omega

theorem headerSafe_fromStr (s : Str) (hs : headerSafeStr s = true) :
    headerValueFromStr s = some (utf8Encode s) := by
  unfold headerValueFromStr
  rw [if_pos ?_]
  rw [List.all_eq_true]
  intro b hb
  have := headerSafe_bytes s hs b hb
  simp only [isValidHeaderByte, Bool.or_eq_true, Bool.and_eq_true, decide_eq_true_eq,
    beq_iff_eq, bne_iff_ne, ne_eq]
  omega

theorem headerSafe_toStr (s : Str) (hs : headerSafeStr s = true) :
    headerValueToStr (utf8Encode s) = some s := by
  unfold headerValueToStr
  rw [if_pos ?_]
  · have hascii : ∀ c ∈ s, c.toNat < 0x80 := by
      intro c hc
      simp only [headerSafeStr, List.all_eq_true] at hs
      have := hs c hc
      simp only [Bool.or_eq_true, Bool.and_eq_true, decide_eq_true_eq, beq_iff_eq] at this
      omega
    congr 1
    induction s with
    | nil => rfl
    | cons c rest ih =>
      have hc : c.toNat < 0x80 := hascii c (by simp)
      show ((utf8EncodeChar c ++ utf8Encode rest).map Char.ofNat) = c :: rest
      rw [utf8EncodeChar_ascii c hc]
      simp only [List.cons_append, List.nil_append, List.map_cons, Char.ofNat_toNat]
      rw [ih (by
        simp only [headerSafeStr, List.all_eq_true] at hs ⊢
        intro x hx
        exact hs x (by simp [hx])) (by
        intro x hx
        exact hascii x (by simp [hx]))]
  · rw [List.all_eq_true]
    intro b hb
    have := headerSafe_bytes s hs b hb
    simp only [isVisibleAsciiByte, Bool.or_eq_true, Bool.and_eq_true, decide_eq_true_eq,
      beq_iff_eq]
    omega

/-- Names selected by header fields are in `headerNamesOf`. -/
theorem mem_headerNamesOf (fs : List RequestField) (n hname : Str) (opt : Bool)
    (hmem : RequestField.header n hname opt ∈ fs) : hname ∈ headerNamesOf fs := by
  induction fs with
  | nil => simp at hmem
  | cons f rest ih =>
    rcases List.mem_cons.mp hmem with rfl | hmem2
    · show hname ∈ hname :: headerNamesOf rest
      simp
    · cases f with
      | header n2 h2 o2 =>
        show hname ∈ h2 :: headerNamesOf rest
        simp only [List.mem_cons]
        exact Or.inr (ih hmem2)
      | body n2 o2 => exact ih hmem2
      | newtypeBody n2 => exact ih hmem2
      | newtypeRawBody n2 => exact ih hmem2
      | path n2 => exact ih hmem2
      | query n2 o2 => exact ih hmem2
      | queryMap n2 => exact ih hmem2

/-- `headerNamesOf` over the zipped list agrees with the field list. -/
theorem headerNamesOf_zip_names (fs : List RequestField) (R : Req)
    (hlen : R.length = fs.length) :
    (fs.zip R).map Prod.fst = fs := by
  exact List.map_fst_zip fs R (by omega)

theorem headerInsertion_ok (n hname : Str) (opt : Bool) (v : Value)
    (hm : fieldMatches (RequestField.header n hname opt) v = true)
    (hsafe : headerSafeValue (RequestField.header n hname opt) v = true) :
    headerInsertion opt v = .ok (encHV opt v) := by
  cases opt with
  | false =>
    cases v with
    | str s =>
      have hss : headerSafeStr s = true := hsafe
      show (resOfHv (headerValueFromStr s)).map some = _
      rw [headerSafe_fromStr s hss]
      rfl
    | optStr o => simp [fieldMatches] at hm
    | bytes bs => simp [fieldMatches] at hm
    | pairs kvs => simp [fieldMatches] at hm
  | true =>
    cases v with
    | optStr o =>
      cases o with
      | none => rfl
      | some s =>
        have hss : headerSafeStr s = true := hsafe
        show (resOfHv (headerValueFromStr s)).map some = _
        rw [headerSafe_fromStr s hss]
        rfl
    | str s => simp [fieldMatches] at hm
    | bytes bs => simp [fieldMatches] at hm
    | pairs kvs => simp [fieldMatches] at hm

/-- Full characterization of the field part of `header_kvs`: it succeeds
on valid values, carries unrelated names through unchanged, and leaves
each header field's bytes under its name. -/
theorem header_kvs_fields_spec (zl : List (RequestField × Value)) :
    ∀ hs : List (Str × List Nat),
      (∀ p ∈ zl, fieldMatches p.1 p.2 = true ∧ headerSafeValue p.1 p.2 = true) →
      (headerNamesOf (zl.map Prod.fst)).Nodup →
      ∃ hs', header_kvs_fields zl hs = .ok hs'
        ∧ (∀ m, m ∉ headerNamesOf (zl.map Prod.fst) → getHeader hs' m = getHeader hs m)
        ∧ (∀ n hname opt v, (RequestField.header n hname opt, v) ∈ zl →
            getHeader hs' hname = orElseO (encHV opt v) (getHeader hs hname)) := by
  induction zl with
  | nil =>
    intro hs _ _
    exact ⟨hs, rfl, fun m _ => rfl, fun n hname opt v hmem => absurd hmem (by simp)⟩
  | cons p rest ih =>
    obtain ⟨f, v⟩ := p
    intro hs hvalid hnd
    have hvhead := hvalid (f, v) (by simp)
    have hvrest : ∀ p ∈ rest, fieldMatches p.1 p.2 = true ∧ headerSafeValue p.1 p.2 = true :=
      fun p hp => hvalid p (by simp [hp])
    cases f with
    | header n hname opt =>
      have hnames : headerNamesOf (((RequestField.header n hname opt, v) :: rest).map Prod.fst)
          = hname :: headerNamesOf (rest.map Prod.fst) := rfl
      rw [hnames] at hnd
      have hnd1 : hname ∉ headerNamesOf (rest.map Prod.fst) := (List.nodup_cons.mp hnd).1
      have hnd2 : (headerNamesOf (rest.map Prod.fst)).Nodup := (List.nodup_cons.mp hnd).2
      have hins : headerInsertion opt v = .ok (encHV opt v) :=
        headerInsertion_ok n hname opt v hvhead.1 hvhead.2
      cases henc : encHV opt v with
      | some bs =>
        have hstep : header_kvs_fields ((RequestField.header n hname opt, v) :: rest) hs
            = header_kvs_fields rest (insertHeader hs hname bs) := by
          show (match headerInsertion opt v with
            | Res.err e => Res.err e
            | Res.ok none => header_kvs_fields rest hs
            | Res.ok (some bs) => header_kvs_fields rest (insertHeader hs hname bs)) = _
          rw [hins, henc]
        obtain ⟨hs', hok, hp1, hp2⟩ := ih (insertHeader hs hname bs) hvrest hnd2
        refine ⟨hs', by rw [hstep]; exact hok, ?_, ?_⟩
        · intro m hm
          rw [hnames] at hm
          have hmne : m ≠ hname := fun hcc => hm (by simp [hcc])
          have hmrest : m ∉ headerNamesOf (rest.map Prod.fst) := fun hcc => hm (by simp [hcc])
          rw [hp1 m hmrest, getHeader_insertHeader_other hs hname m bs hmne]
        · intro n2 h2 o2 v2 hmem
          rcases List.mem_cons.mp hmem with heq | hmem2
          · injection heq with heqf heqv
            injection heqf with e1 e2 e3
            rw [e2, e3, heqv]
            rw [hp1 hname hnd1, getHeader_insertHeader_self, henc]
            rfl
          · have hh2 : h2 ∈ headerNamesOf (rest.map Prod.fst) :=
              mem_headerNamesOf _ n2 h2 o2 (List.mem_map_of_mem Prod.fst hmem2)
            have hne : h2 ≠ hname := fun hcc => hnd1 (hcc ▸ hh2)
            rw [hp2 n2 h2 o2 v2 hmem2, getHeader_insertHeader_other hs hname h2 bs hne]
      | none =>
        have hstep : header_kvs_fields ((RequestField.header n hname opt, v) :: rest) hs
            = header_kvs_fields rest hs := by
          show (match headerInsertion opt v with
            | Res.err e => Res.err e
            | Res.ok none => header_kvs_fields rest hs
            | Res.ok (some bs) => header_kvs_fields rest (insertHeader hs hname bs)) = _
          rw [hins, henc]
        obtain ⟨hs', hok, hp1, hp2⟩ := ih hs hvrest hnd2
        refine ⟨hs', by rw [hstep]; exact hok, ?_, ?_⟩
        · intro m hm
          rw [hnames] at hm
          exact hp1 m (fun hcc => hm (by simp [hcc]))
        · intro n2 h2 o2 v2 hmem
          rcases List.mem_cons.mp hmem with heq | hmem2
          · injection heq with heqf heqv
            injection heqf with e1 e2 e3
            rw [e2, e3, heqv]
            rw [hp1 hname hnd1, henc]
            rfl
          · exact hp2 n2 h2 o2 v2 hmem2
    | body n2 o2 =>
      obtain ⟨hs', hok, hp1, hp2⟩ := ih hs hvrest hnd
      exact ⟨hs', hok, hp1, fun n3 h3 o3 v3 hmem => hp2 n3 h3 o3 v3 (by
        rcases List.mem_cons.mp hmem with heq | h
        · exact absurd heq (by simp)
        · exact h)⟩
    | newtypeBody n2 =>
      obtain ⟨hs', hok, hp1, hp2⟩ := ih hs hvrest hnd
      exact ⟨hs', hok, hp1, fun n3 h3 o3 v3 hmem => hp2 n3 h3 o3 v3 (by
        rcases List.mem_cons.mp hmem with heq | h
        · exact absurd heq (by simp)
        · exact h)⟩
    | newtypeRawBody n2 =>
      obtain ⟨hs', hok, hp1, hp2⟩ := ih hs hvrest hnd
      exact ⟨hs', hok, hp1, fun n3 h3 o3 v3 hmem => hp2 n3 h3 o3 v3 (by
        rcases List.mem_cons.mp hmem with heq | h
        · exact absurd heq (by simp)
        · exact h)⟩
    | path n2 =>
      obtain ⟨hs', hok, hp1, hp2⟩ := ih hs hvrest hnd
      exact ⟨hs', hok, hp1, fun n3 h3 o3 v3 hmem => hp2 n3 h3 o3 v3 (by
        rcases List.mem_cons.mp hmem with heq | h
        · exact absurd heq (by simp)
        · exact h)⟩
    | query n2 o2 =>
      obtain ⟨hs', hok, hp1, hp2⟩ := ih hs hvrest hnd
      exact ⟨hs', hok, hp1, fun n3 h3 o3 v3 hmem => hp2 n3 h3 o3 v3 (by
        rcases List.mem_cons.mp hmem with heq | h
        · exact absurd heq (by simp)
        · exact h)⟩
    | queryMap n2 =>
      obtain ⟨hs', hok, hp1, hp2⟩ := ih hs hvrest hnd
      exact ⟨hs', hok, hp1, fun n3 h3 o3 v3 hmem => hp2 n3 h3 o3 v3 (by
        rcases List.mem_cons.mp hmem with heq | h
        · exact absurd heq (by simp)
        · exact h)⟩

/-! ## Decode-side header read-off -/

/-- The header assignments the decoder should produce: each header field
bound to its original value. -/
def headerAssignsZ : List (RequestField × Value) → List (Str × Value)
  | [] => []
  | (RequestField.header n _ _, v) :: rest => (n, v) :: headerAssignsZ rest
  | _ :: rest => headerAssignsZ rest

theorem parse_header_field_ok (headers : List (Str × List Nat)) (n hname : Str)
    (opt : Bool) (v : Value)
    (hm : fieldMatches (RequestField.header n hname opt) v = true)
    (hsafe : headerSafeValue (RequestField.header n hname opt) v = true)
    (hget : getHeader headers hname = encHV opt v) :
    parse_header_field headers hname opt = .ok v := by
  cases opt with
  | false =>
    cases v with
    | str s =>
      have hss : headerSafeStr s = true := hsafe
      have henc : encHV false (Value.str s) = some (utf8Encode s) := rfl
      rw [henc] at hget
      unfold parse_header_field
      rw [hget]
      show (resOfToStr (headerValueToStr (utf8Encode s))).map
        (fun s => if false = true then Value.optStr (some s) else Value.str s) = _
      rw [headerSafe_toStr s hss]
      rfl
    | optStr o => simp [fieldMatches] at hm
    | bytes bs => simp [fieldMatches] at hm
    | pairs kvs => simp [fieldMatches] at hm
  | true =>
    cases v with
    | optStr o =>
      cases o with
      | none =>
        have henc : encHV true (Value.optStr none) = none := rfl
        rw [henc] at hget
        unfold parse_header_field
        rw [hget]
        rfl
      | some s =>
        have hss : headerSafeStr s = true := hsafe
        have henc : encHV true (Value.optStr (some s)) = some (utf8Encode s) := rfl
        rw [henc] at hget
        unfold parse_header_field
        rw [hget]
        show (resOfToStr (headerValueToStr (utf8Encode s))).map
          (fun s => if true = true then Value.optStr (some s) else Value.str s) = _
        rw [headerSafe_toStr s hss]
        rfl
    | str s => simp [fieldMatches] at hm
    | bytes bs => simp [fieldMatches] at hm
    | pairs kvs => simp [fieldMatches] at hm

theorem parse_request_headers_spec (zl : List (RequestField × Value))
    (headers : List (Str × List Nat))
    (hvalid : ∀ p ∈ zl, fieldMatches p.1 p.2 = true ∧ headerSafeValue p.1 p.2 = true)
    (hget : ∀ n hname opt v, (RequestField.header n hname opt, v) ∈ zl →
        getHeader headers hname = encHV opt v) :
    parse_request_headers (zl.map Prod.fst) headers = .ok (headerAssignsZ zl) := by
  induction zl with
  | nil => rfl
  | cons p rest ih =>
    obtain ⟨f, v⟩ := p
    have hvrest : ∀ p ∈ rest, fieldMatches p.1 p.2 = true ∧ headerSafeValue p.1 p.2 = true :=
      fun p hp => hvalid p (by simp [hp])
    have hgrest : ∀ n hname opt v, (RequestField.header n hname opt, v) ∈ rest →
        getHeader headers hname = encHV opt v :=
      fun n hname opt v hmem => hget n hname opt v (by simp [hmem])
    cases f with
    | header n hname opt =>
      have hvhead := hvalid (RequestField.header n hname opt, v) (by simp)
      have hph : parse_header_field headers hname opt = .ok v :=
        parse_header_field_ok headers n hname opt v hvhead.1 hvhead.2
          (hget n hname opt v (by simp))
      show (parse_header_field headers hname opt).bind _ = _
      rw [hph]
      show (parse_request_headers (rest.map Prod.fst) headers).map _ = _
      rw [ih hvrest hgrest]
      rfl
    | body n2 o2 => exact ih hvrest hgrest
    | newtypeBody n2 => exact ih hvrest hgrest
    | newtypeRawBody n2 => exact ih hvrest hgrest
    | path n2 => exact ih hvrest hgrest
    | query n2 o2 => exact ih hvrest hgrest
    | queryMap n2 => exact ih hvrest hgrest

/-! ## Decode-side query read-off -/

def queryAssignsZ : List (RequestField × Value) → List (Str × Value)
  | [] => []
  | (RequestField.query n _, v) :: rest => (n, v) :: queryAssignsZ rest
  | _ :: rest => queryAssignsZ rest

def queryNamesZ : List (RequestField × Value) → List Str
  | [] => []
  | (RequestField.query n _, _) :: rest => n :: queryNamesZ rest
  | _ :: rest => queryNamesZ rest

theorem lookupPair_append (A B : List (Str × Str)) (n : Str) :
    lookupPair (A ++ B) n = orElseO (lookupPair A n) (lookupPair B n) := by
  induction A with
  | nil => rfl
  | cons p rest ih =>
    obtain ⟨k, v⟩ := p
    show lookupPair ((k, v) :: (rest ++ B)) n = _
    by_cases hk : k = n
    · simp only [lookupPair, if_pos hk]
      rfl
    · simp only [lookupPair, if_neg hk]
      exact ih

theorem lookupPair_not_mem (A : List (Str × Str)) (n : Str)
    (hmem : n ∉ A.map Prod.fst) : lookupPair A n = none := by
  induction A with
  | nil => rfl
  | cons p rest ih =>
    obtain ⟨k, v⟩ := p
    show lookupPair ((k, v) :: rest) n = _
    by_cases hk : k = n
    · exact absurd (by simp [hk]) hmem
    · simp only [lookupPair, if_neg hk]
      exact ih (fun hm => hmem (by simp [hm]))

theorem queryPairsOf_keys (zl : List (RequestField × Value)) :
    ∀ k ∈ (queryPairsOf zl).map Prod.fst, k ∈ queryNamesZ zl := by
  induction zl with
  | nil => intro k hk; exact absurd hk (by simp [queryPairsOf])
  | cons p rest ih =>
    obtain ⟨f, v⟩ := p
    intro k hk
    cases f with
    | query n opt =>
      cases opt with
      | false =>
        have : queryPairsOf ((RequestField.query n false, v) :: rest)
            = (n, v.asStr) :: queryPairsOf rest := rfl
        rw [this] at hk
        simp only [List.map_cons, List.mem_cons] at hk
        show k ∈ n :: queryNamesZ rest
        rcases hk with rfl | hk
        · simp
        · simp only [List.mem_cons]
          exact Or.inr (ih k hk)
      | true =>
        have : queryPairsOf ((RequestField.query n true, v) :: rest)
            = optPairList n v.asOptStr ++ queryPairsOf rest := rfl
        rw [this] at hk
        simp only [List.map_append, List.mem_append] at hk
        show k ∈ n :: queryNamesZ rest
        rcases hk with hk | hk
        · cases ho : v.asOptStr with
          | none => rw [ho] at hk; simp [optPairList] at hk
          | some s =>
            rw [ho] at hk
            simp only [optPairList, List.map_cons, List.map_nil, List.mem_singleton] at hk
            simp [hk]
        · simp only [List.mem_cons]
          exact Or.inr (ih k hk)
    | body n2 o2 => exact ih k hk
    | header n2 h2 o2 => exact ih k hk
    | newtypeBody n2 => exact ih k hk
    | newtypeRawBody n2 => exact ih k hk
    | path n2 => exact ih k hk
    | queryMap n2 => exact ih k hk

theorem lookupPair_queryPairsOf_not_mem (zl : List (RequestField × Value)) (n : Str)
    (h : n ∉ queryNamesZ zl) : lookupPair (queryPairsOf zl) n = none :=
  lookupPair_not_mem _ n (fun hm => h (queryPairsOf_keys zl n hm))

/-- Deserializing the `RequestQuery` struct from the form pairs produced
by serializing it recovers every query field's value, also in the
presence of unrelated pairs already consumed (`pre`). -/
theorem queryStructAssigns_spec (zl : List (RequestField × Value)) :
    ∀ pre : List (Str × Str),
      (∀ p ∈ zl, fieldMatches p.1 p.2 = true) →
      (queryNamesZ zl).Nodup →
      (∀ m ∈ queryNamesZ zl, lookupPair pre m = none) →
      queryStructAssigns (zl.map Prod.fst) (pre ++ queryPairsOf zl) = .ok (queryAssignsZ zl) := by
  induction zl with
  | nil => intro pre _ _ _; rfl
  | cons p rest ih =>
    obtain ⟨f, v⟩ := p
    intro pre hvalid hnd hpre
    have hvrest : ∀ p ∈ rest, fieldMatches p.1 p.2 = true :=
      fun p hp => hvalid p (by simp [hp])
    cases f with
    | query n opt =>
      have hnames : queryNamesZ ((RequestField.query n opt, v) :: rest)
          = n :: queryNamesZ rest := by cases opt <;> rfl
      rw [hnames] at hnd hpre
      have hnd1 : n ∉ queryNamesZ rest := (List.nodup_cons.mp hnd).1
      have hnd2 : (queryNamesZ rest).Nodup := (List.nodup_cons.mp hnd).2
      have hpren : lookupPair pre n = none := hpre n (by simp)
      cases opt with
      | false =>
        cases v with
        | str s =>
          have hpairs : queryPairsOf ((RequestField.query n false, Value.str s) :: rest)
              = (n, s) :: queryPairsOf rest := rfl
          rw [hpairs]
          have hlook : lookupPair (pre ++ (n, s) :: queryPairsOf rest) n = some s := by
            rw [lookupPair_append, hpren]
            show lookupPair ((n, s) :: queryPairsOf rest) n = _
            simp [lookupPair]
          show (resOfQueryLookup (lookupPair (pre ++ (n, s) :: queryPairsOf rest) n)).bind _ = _
          rw [hlook]
          show (queryStructAssigns (rest.map Prod.fst)
            (pre ++ (n, s) :: queryPairsOf rest)).map _ = _
          have hassoc : pre ++ (n, s) :: queryPairsOf rest
              = (pre ++ [(n, s)]) ++ queryPairsOf rest := by simp
          rw [hassoc, ih (pre ++ [(n, s)]) hvrest hnd2 (by
            intro m hm
            rw [lookupPair_append, hpre m (by simp [hm])]
            have hmn : n ≠ m := fun hcc => hnd1 (hcc ▸ hm)
            show lookupPair [(n, s)] m = _
            simp only [lookupPair, if_neg hmn])]
          rfl
        | optStr o => simp [fieldMatches] at hvalid
        | bytes bs => simp [fieldMatches] at hvalid
        | pairs kvs => simp [fieldMatches] at hvalid
      | true =>
        cases v with
        | optStr o =>
          have hpairs : queryPairsOf ((RequestField.query n true, Value.optStr o) :: rest)
              = optPairList n o ++ queryPairsOf rest := rfl
          rw [hpairs]
          have hlook : lookupPair (pre ++ (optPairList n o ++ queryPairsOf rest)) n = o := by
            rw [lookupPair_append, hpren]
            show lookupPair (optPairList n o ++ queryPairsOf rest) n = o
            rw [lookupPair_append, lookupPair_queryPairsOf_not_mem rest n hnd1]
            cases o with
            | none => rfl
            | some s => simp [optPairList, lookupPair, orElseO]
          show (queryStructAssigns (rest.map Prod.fst)
            (pre ++ (optPairList n o ++ queryPairsOf rest))).map _ = _
          have hassoc : pre ++ (optPairList n o ++ queryPairsOf rest)
              = (pre ++ optPairList n o) ++ queryPairsOf rest := by simp
          rw [hassoc, ih (pre ++ optPairList n o) hvrest hnd2 (by
            intro m hm
            rw [lookupPair_append, hpre m (by simp [hm])]
            have hmn : n ≠ m := fun hcc => hnd1 (hcc ▸ hm)
            show lookupPair (optPairList n o) m = _
            cases o with
            | none => rfl
            | some s =>
              simp only [optPairList, lookupPair, if_neg hmn])]
          show Res.ok ((n, Value.optStr (lookupPair
            ((pre ++ optPairList n o) ++ queryPairsOf rest) n)) :: queryAssignsZ rest) = _
          rw [← hassoc, hlook]
          rfl
        | str s => simp [fieldMatches] at hvalid
        | bytes bs => simp [fieldMatches] at hvalid
        | pairs kvs => simp [fieldMatches] at hvalid
    | body n2 o2 => exact ih pre hvrest hnd hpre
    | header n2 h2 o2 => exact ih pre hvrest hnd hpre
    | newtypeBody n2 => exact ih pre hvrest hnd hpre
    | newtypeRawBody n2 => exact ih pre hvrest hnd hpre
    | path n2 => exact ih pre hvrest hnd hpre
    | queryMap n2 => exact ih pre hvrest hnd hpre

/-! ## Decode-side body read-off -/

def bodyAssignsZ : List (RequestField × Value) → List (Str × Value)
  | [] => []
  | (RequestField.body n _, v) :: rest => (n, v) :: bodyAssignsZ rest
  | _ :: rest => bodyAssignsZ rest

def bodyNamesZ : List (RequestField × Value) → List Str
  | [] => []
  | (RequestField.body n _, _) :: rest => n :: bodyNamesZ rest
  | _ :: rest => bodyNamesZ rest

theorem lookupJ_append (A B : List (Str × JVal)) (n : Str) :
    lookupJ (A ++ B) n = orElseO (lookupJ A n) (lookupJ B n) := by
  induction A with
  | nil => rfl
  | cons p rest ih =>
    obtain ⟨k, v⟩ := p
    show lookupJ ((k, v) :: (rest ++ B)) n = _
    by_cases hk : k = n
    · simp only [lookupJ, if_pos hk]
      rfl
    · simp only [lookupJ, if_neg hk]
      exact ih

theorem lookupJ_not_mem (A : List (Str × JVal)) (n : Str)
    (hmem : n ∉ A.map Prod.fst) : lookupJ A n = none := by
  induction A with
  | nil => rfl
  | cons p rest ih =>
    obtain ⟨k, v⟩ := p
    show lookupJ ((k, v) :: rest) n = _
    by_cases hk : k = n
    · subst hk
      exact absurd (List.mem_map_of_mem Prod.fst (List.mem_cons_self _ _)) hmem
    · simp only [lookupJ, if_neg hk]
      exact ih (fun hm => hmem (by simp [hm]))

theorem bodyMembers_keys (zl : List (RequestField × Value)) :
    (bodyMembers zl).map Prod.fst = bodyNamesZ zl := by
  induction zl with
  | nil => rfl
  | cons p rest ih =>
    obtain ⟨f, v⟩ := p
    cases f with
    | body n opt =>
      cases opt with
      | false =>
        show ((n, JVal.s v.asStr) :: bodyMembers rest).map Prod.fst = n :: bodyNamesZ rest
        simp only [List.map_cons]
        rw [ih]
      | true =>
        show ((n, optJVal v.asOptStr) :: bodyMembers rest).map Prod.fst = n :: bodyNamesZ rest
        simp only [List.map_cons]
        rw [ih]
    | header n2 h2 o2 => exact ih
    | newtypeBody n2 => exact ih
    | newtypeRawBody n2 => exact ih
    | path n2 => exact ih
    | query n2 o2 => exact ih
    | queryMap n2 => exact ih

theorem lookupJ_bodyMembers_not_mem (zl : List (RequestField × Value)) (n : Str)
    (h : n ∉ bodyNamesZ zl) : lookupJ (bodyMembers zl) n = none :=
  lookupJ_not_mem _ n (by rw [bodyMembers_keys]; exact h)

/-- Deserializing the `RequestBody` struct from its serialized members
recovers every body field's value. -/
theorem bodyFieldsAssigns_spec (zl : List (RequestField × Value)) :
    ∀ pre : List (Str × JVal),
      (∀ p ∈ zl, fieldMatches p.1 p.2 = true) →
      (bodyNamesZ zl).Nodup →
      (∀ m ∈ bodyNamesZ zl, lookupJ pre m = none) →
      bodyFieldsAssigns (zl.map Prod.fst) (pre ++ bodyMembers zl) = .ok (bodyAssignsZ zl) := by
  induction zl with
  | nil => intro pre _ _ _; rfl
  | cons p rest ih =>
    obtain ⟨f, v⟩ := p
    intro pre hvalid hnd hpre
    have hvrest : ∀ p ∈ rest, fieldMatches p.1 p.2 = true :=
      fun p hp => hvalid p (by simp [hp])
    cases f with
    | body n opt =>
      have hnames : bodyNamesZ ((RequestField.body n opt, v) :: rest)
          = n :: bodyNamesZ rest := rfl
      rw [hnames] at hnd hpre
      have hnd1 : n ∉ bodyNamesZ rest := (List.nodup_cons.mp hnd).1
      have hnd2 : (bodyNamesZ rest).Nodup := (List.nodup_cons.mp hnd).2
      have hpren : lookupJ pre n = none := hpre n (by simp)
      cases opt with
      | false =>
        cases v with
        | str s =>
          have hms : bodyMembers ((RequestField.body n false, Value.str s) :: rest)
              = (n, JVal.s s) :: bodyMembers rest := rfl
          rw [hms]
          have hlook : lookupJ (pre ++ (n, JVal.s s) :: bodyMembers rest) n
              = some (JVal.s s) := by
            rw [lookupJ_append, hpren]
            show lookupJ ((n, JVal.s s) :: bodyMembers rest) n = _
            simp [lookupJ]
          show (resOfBodyStr (lookupJ (pre ++ (n, JVal.s s) :: bodyMembers rest) n)).bind _ = _
          rw [hlook]
          show (bodyFieldsAssigns (rest.map Prod.fst)
            (pre ++ (n, JVal.s s) :: bodyMembers rest)).map _ = _
          have hassoc : pre ++ (n, JVal.s s) :: bodyMembers rest
              = (pre ++ [(n, JVal.s s)]) ++ bodyMembers rest := by simp
          rw [hassoc, ih (pre ++ [(n, JVal.s s)]) hvrest hnd2 (by
            intro m hm
            rw [lookupJ_append, hpre m (by simp [hm])]
            have hmn : n ≠ m := fun hcc => hnd1 (hcc ▸ hm)
            show lookupJ [(n, JVal.s s)] m = _
            simp only [lookupJ, if_neg hmn])]
          rfl
        | optStr o => simp [fieldMatches] at hvalid
        | bytes bs => simp [fieldMatches] at hvalid
        | pairs kvs => simp [fieldMatches] at hvalid
      | true =>
        cases v with
        | optStr o =>
          have hms : bodyMembers ((RequestField.body n true, Value.optStr o) :: rest)
              = (n, optJVal o) :: bodyMembers rest := rfl
          rw [hms]
          have hlook : lookupJ (pre ++ (n, optJVal o) :: bodyMembers rest) n
              = some (optJVal o) := by
            rw [lookupJ_append, hpren]
            show lookupJ ((n, optJVal o) :: bodyMembers rest) n = _
            simp [lookupJ]
          show (bodyFieldsAssigns (rest.map Prod.fst)
            (pre ++ (n, optJVal o) :: bodyMembers rest)).map _ = _
          have hassoc : pre ++ (n, optJVal o) :: bodyMembers rest
              = (pre ++ [(n, optJVal o)]) ++ bodyMembers rest := by simp
          rw [hassoc, ih (pre ++ [(n, optJVal o)]) hvrest hnd2 (by
            intro m hm
            rw [lookupJ_append, hpre m (by simp [hm])]
            have hmn : n ≠ m := fun hcc => hnd1 (hcc ▸ hm)
            show lookupJ [(n, optJVal o)] m = _
            simp only [lookupJ, if_neg hmn])]
          show Res.ok ((n, Value.optStr (optOfJ (lookupJ
            ((pre ++ [(n, optJVal o)]) ++ bodyMembers rest) n))) :: bodyAssignsZ rest) = _
          rw [← hassoc, hlook]
          cases o <;> rfl
        | str s => simp [fieldMatches] at hvalid
        | bytes bs => simp [fieldMatches] at hvalid
        | pairs kvs => simp [fieldMatches] at hvalid
    | header n2 h2 o2 => exact ih pre hvrest hnd hpre
    | newtypeBody n2 => exact ih pre hvrest hnd hpre
    | newtypeRawBody n2 => exact ih pre hvrest hnd hpre
    | path n2 => exact ih pre hvrest hnd hpre
    | query n2 o2 => exact ih pre hvrest hnd hpre
    | queryMap n2 => exact ih pre hvrest hnd hpre

/-! ## Decode-side path read-off -/

theorem decodePathSeg_enc (s : Str) :
    decodePathSeg ((percentEncode (utf8Encode s)).map Char.ofNat) = .ok s := by
  unfold decodePathSeg
  have hascii : ∀ b ∈ percentEncode (utf8Encode s), b < 0x80 := by
    intro b hb
    simp only [percentEncode, List.mem_flatMap] at hb
    obtain ⟨b0, hb0, hbb⟩ := hb
    exact percentEncodeByte_ascii b0 (utf8Encode_lt_256 s b0 hb0) b hbb
  rw [utf8Encode_map_ofNat_ascii _ hascii,
    percentDecode_percentEncode _ (utf8Encode_lt_256 s), utf8Decode_utf8Encode]

theorem splitOnChar_ne_nil (sep : Char) (s : Str) : splitOnChar sep s ≠ [] := by
  cases s with
  | nil => simp [splitOnChar]
  | cons c rest =>
    show (if c = sep then [] :: splitOnChar sep rest
      else consHead c (splitOnChar sep rest)) ≠ []
    by_cases hc : c = sep
    · rw [if_pos hc]
      simp
    · rw [if_neg hc]
      cases splitOnChar sep rest with
      | nil => simp [consHead]
      | cons s0 ss0 => simp [consHead]

theorem percentEncode_no_slash (bs : List Nat) : 47 ∉ percentEncode bs := by
  intro hmem
  simp only [percentEncode, List.mem_flatMap] at hmem
  obtain ⟨b, _, hb⟩ := hmem
  exact percentEncodeByte_no_slash b hb

/-- A rendered placeholder segment contains no `/`. -/
theorem renderSeg_no_slash (s : Str) :
    '/' ∉ (percentEncode (utf8Encode s)).map Char.ofNat := by
  intro hmem
  have hascii : ∀ b ∈ percentEncode (utf8Encode s), b < 0x80 := by
    intro b hb
    simp only [percentEncode, List.mem_flatMap] at hb
    obtain ⟨b0, hb0, hbb⟩ := hb
    exact percentEncodeByte_ascii b0 (utf8Encode_lt_256 s b0 hb0) b hbb
  have h47 := mem_map_ofNat_toNat _ hascii '/' hmem
  have : Char.toNat '/' = 47 := rfl
  rw [this] at h47
  exact percentEncode_no_slash (utf8Encode s) h47

/-- The generic read-off for `parse_request_path`'s placeholder loop. -/
theorem pathAssignsLoop_spec (segs : List Str) (g : Str → Str) :
    ∀ (tpl : List Str) (k : Nat),
      (∀ j seg, tpl.get? j = some seg → seg.head? = some ':' →
        segs.get? (k + j) = some ((percentEncode (utf8Encode (g seg))).map Char.ofNat)) →
      pathAssignsLoop segs (List.enumFrom k tpl)
        = .ok (tpl.filterMap fun seg =>
            if seg.head? = some ':' then some (seg.drop 1, Value.str (g seg)) else none) := by
  intro tpl
  induction tpl with
  | nil => intro k _; rfl
  | cons seg tpl' ih =>
    intro k hyp
    show pathAssignsLoop segs ((k, seg) :: List.enumFrom (k + 1) tpl') = _
    by_cases hph : seg.head? = some ':'
    · have hget : segs.get? k = some ((percentEncode (utf8Encode (g seg))).map Char.ofNat) := by
        have := hyp 0 seg (by simp) hph
        rw [Nat.add_zero] at this
        exact this
      show (if seg.head? = some ':' then
          (resOfSeg (segs.get? k)).bind fun s =>
          (decodePathSeg s).bind fun v =>
          (pathAssignsLoop segs (List.enumFrom (k + 1) tpl')).map
            fun as => (seg.drop 1, Value.str v) :: as
        else pathAssignsLoop segs (List.enumFrom (k + 1) tpl')) = _
      rw [if_pos hph, hget]
      show (decodePathSeg ((percentEncode (utf8Encode (g seg))).map Char.ofNat)).bind _ = _
      rw [decodePathSeg_enc]
      show (pathAssignsLoop segs (List.enumFrom (k + 1) tpl')).map _ = _
      rw [ih (k + 1) (by
        intro j seg2 hj hph2
        have := hyp (j + 1) seg2 (by simpa using hj) hph2
        have harith : k + (j + 1) = k + 1 + j := by omega
        rw [harith] at this
        exact this)]
      simp only [Res.map]
      have hfm : (List.filterMap (fun seg =>
          if List.head? seg = some ':' then some (List.drop 1 seg, Value.str (g seg)) else none)
          (seg :: tpl'))
          = (List.drop 1 seg, Value.str (g seg)) :: List.filterMap (fun seg =>
            if List.head? seg = some ':' then some (List.drop 1 seg, Value.str (g seg)) else none)
            tpl' := by
        rw [List.filterMap_cons, if_pos hph]
      rw [hfm]
    · show (if seg.head? = some ':' then
          (resOfSeg (segs.get? k)).bind fun s =>
          (decodePathSeg s).bind fun v =>
          (pathAssignsLoop segs (List.enumFrom (k + 1) tpl')).map
            fun as => (seg.drop 1, Value.str v) :: as
        else pathAssignsLoop segs (List.enumFrom (k + 1) tpl')) = _
      rw [if_neg hph]
      rw [ih (k + 1) (by
        intro j seg2 hj hph2
        have := hyp (j + 1) seg2 (by simpa using hj) hph2
        have harith : k + (j + 1) = k + 1 + j := by omega
        rw [harith] at this
        exact this)]
      have hfm : (List.filterMap (fun seg =>
          if List.head? seg = some ':' then some (List.drop 1 seg, Value.str (g seg)) else none)
          (seg :: tpl'))
          = List.filterMap (fun seg =>
            if List.head? seg = some ':' then some (List.drop 1 seg, Value.str (g seg)) else none)
            tpl' := by
        rw [List.filterMap_cons, if_neg hph]
      rw [hfm]

/-! ## Miscellaneous support lemmas -/

theorem utf8Encode_ne_nil (c : Char) (s : Str) : utf8Encode (c :: s) ≠ [] := by
  show utf8EncodeChar c ++ utf8Encode s ≠ []
  have := utf8EncodeChar_length_pos c
  intro hcc
  have := congrArg List.length hcc
  simp only [List.length_append, List.length_nil] at this
  omega

theorem mem_zip_of_mem_left (fs : List RequestField) (R : Req) (f : RequestField)
    (hmem : f ∈ fs) (hlen : R.length = fs.length) : ∃ v, (f, v) ∈ fs.zip R := by
  induction fs generalizing R with
  | nil => simp at hmem
  | cons f0 rest ih =>
    cases R with
    | nil => simp at hlen
    | cons v0 R' =>
      rcases List.mem_cons.mp hmem with rfl | hmem2
      · exact ⟨v0, by simp⟩
      · obtain ⟨v, hv⟩ := ih R' hmem2 (by simpa using hlen)
        exact ⟨v, by simp [hv]⟩

/-- Keys of the path assignments are the placeholder names. -/
theorem pathAssign_keys (g : Str → Str) (l : List Str) :
    ((l.filterMap fun seg =>
        if seg.head? = some ':' then some (seg.drop 1, Value.str (g seg)) else none).map
      Prod.fst)
      = l.filterMap fun seg => if seg.head? = some ':' then some (seg.drop 1) else none := by
  induction l with
  | nil => rfl
  | cons seg rest ih =>
    by_cases hph : seg.head? = some ':'
    · rw [List.filterMap_cons, List.filterMap_cons, if_pos hph, if_pos hph]
      show ((seg.drop 1, Value.str (g seg)) :: _).map Prod.fst = _
      simp only [List.map_cons]
      rw [ih]
    · rw [List.filterMap_cons, List.filterMap_cons, if_neg hph, if_neg hph]
      exact ih

/-- Entries of the Z-assignments come from the zipped fields. -/
theorem mem_headerAssignsZ (zl : List (RequestField × Value)) (k : Str) (v : Value)
    (hmem : (k, v) ∈ headerAssignsZ zl) :
    ∃ f, (f, v) ∈ zl ∧ fieldName f = k ∧ f.isHeader = true := by
  induction zl with
  | nil => simp [headerAssignsZ] at hmem
  | cons p rest ih =>
    obtain ⟨f0, v0⟩ := p
    cases f0 with
    | header n hname opt =>
      have : headerAssignsZ ((RequestField.header n hname opt, v0) :: rest)
          = (n, v0) :: headerAssignsZ rest := rfl
      rw [this] at hmem
      rcases List.mem_cons.mp hmem with heq | hmem2
      · injection heq with h1 h2
        exact ⟨RequestField.header n hname opt, by simp [← h1, ← h2], by simp [← h1, fieldName],
          rfl⟩
      · obtain ⟨f, hf, hn, hh⟩ := ih hmem2
        exact ⟨f, by simp [hf], hn, hh⟩
    | body n o =>
      obtain ⟨f, hf, hn, hh⟩ := ih hmem
      exact ⟨f, by simp [hf], hn, hh⟩
    | newtypeBody n =>
      obtain ⟨f, hf, hn, hh⟩ := ih hmem
      exact ⟨f, by simp [hf], hn, hh⟩
    | newtypeRawBody n =>
      obtain ⟨f, hf, hn, hh⟩ := ih hmem
      exact ⟨f, by simp [hf], hn, hh⟩
    | path n =>
      obtain ⟨f, hf, hn, hh⟩ := ih hmem
      exact ⟨f, by simp [hf], hn, hh⟩
    | query n o =>
      obtain ⟨f, hf, hn, hh⟩ := ih hmem
      exact ⟨f, by simp [hf], hn, hh⟩
    | queryMap n =>
      obtain ⟨f, hf, hn, hh⟩ := ih hmem
      exact ⟨f, by simp [hf], hn, hh⟩

theorem mem_queryAssignsZ (zl : List (RequestField × Value)) (k : Str) (v : Value)
    (hmem : (k, v) ∈ queryAssignsZ zl) :
    ∃ f, (f, v) ∈ zl ∧ fieldName f = k ∧ f.isQuery = true := by
  induction zl with
  | nil => simp [queryAssignsZ] at hmem
  | cons p rest ih =>
    obtain ⟨f0, v0⟩ := p
    cases f0 with
    | query n o =>
      have : queryAssignsZ ((RequestField.query n o, v0) :: rest)
          = (n, v0) :: queryAssignsZ rest := rfl
      rw [this] at hmem
      rcases List.mem_cons.mp hmem with heq | hmem2
      · injection heq with h1 h2
        exact ⟨RequestField.query n o, by simp [← h1, ← h2], by simp [← h1, fieldName], rfl⟩
      · obtain ⟨f, hf, hn, hh⟩ := ih hmem2
        exact ⟨f, by simp [hf], hn, hh⟩
    | header n h o =>
      obtain ⟨f, hf, hn, hh⟩ := ih hmem
      exact ⟨f, by simp [hf], hn, hh⟩
    | body n o =>
      obtain ⟨f, hf, hn, hh⟩ := ih hmem
      exact ⟨f, by simp [hf], hn, hh⟩
    | newtypeBody n =>
      obtain ⟨f, hf, hn, hh⟩ := ih hmem
      exact ⟨f, by simp [hf], hn, hh⟩
    | newtypeRawBody n =>
      obtain ⟨f, hf, hn, hh⟩ := ih hmem
      exact ⟨f, by simp [hf], hn, hh⟩
    | path n =>
      obtain ⟨f, hf, hn, hh⟩ := ih hmem
      exact ⟨f, by simp [hf], hn, hh⟩
    | queryMap n =>
      obtain ⟨f, hf, hn, hh⟩ := ih hmem
      exact ⟨f, by simp [hf], hn, hh⟩

theorem mem_bodyAssignsZ (zl : List (RequestField × Value)) (k : Str) (v : Value)
    (hmem : (k, v) ∈ bodyAssignsZ zl) :
    ∃ f, (f, v) ∈ zl ∧ fieldName f = k ∧ f.isBody = true := by
  induction zl with
  | nil => simp [bodyAssignsZ] at hmem
  | cons p rest ih =>
    obtain ⟨f0, v0⟩ := p
    cases f0 with
    | body n o =>
      have : bodyAssignsZ ((RequestField.body n o, v0) :: rest)
          = (n, v0) :: bodyAssignsZ rest := rfl
      rw [this] at hmem
      rcases List.mem_cons.mp hmem with heq | hmem2
      · injection heq with h1 h2
        exact ⟨RequestField.body n o, by simp [← h1, ← h2], by simp [← h1, fieldName], rfl⟩
      · obtain ⟨f, hf, hn, hh⟩ := ih hmem2
        exact ⟨f, by simp [hf], hn, hh⟩
    | header n h o =>
      obtain ⟨f, hf, hn, hh⟩ := ih hmem
      exact ⟨f, by simp [hf], hn, hh⟩
    | query n o =>
      obtain ⟨f, hf, hn, hh⟩ := ih hmem
      exact ⟨f, by simp [hf], hn, hh⟩
    | newtypeBody n =>
      obtain ⟨f, hf, hn, hh⟩ := ih hmem
      exact ⟨f, by simp [hf], hn, hh⟩
    | newtypeRawBody n =>
      obtain ⟨f, hf, hn, hh⟩ := ih hmem
      exact ⟨f, by simp [hf], hn, hh⟩
    | path n =>
      obtain ⟨f, hf, hn, hh⟩ := ih hmem
      exact ⟨f, by simp [hf], hn, hh⟩
    | queryMap n =>
      obtain ⟨f, hf, hn, hh⟩ := ih hmem
      exact ⟨f, by simp [hf], hn, hh⟩

/-- Each header field's name is a key of the header assignments. -/
theorem headerAssignsZ_key_of_mem (zl : List (RequestField × Value)) (n hname : Str)
    (opt : Bool) (v : Value) (hmem : (RequestField.header n hname opt, v) ∈ zl) :
    n ∈ (headerAssignsZ zl).map Prod.fst := by
  induction zl with
  | nil => exact absurd hmem (List.not_mem_nil _)
  | cons p rest ih =>
    obtain ⟨f0, v0⟩ := p
    rcases List.mem_cons.mp hmem with heq | hmem2
    · injection heq with h1 h2
      subst h1
      show n ∈ ((n, v0) :: headerAssignsZ rest).map Prod.fst
      exact List.mem_map_of_mem Prod.fst (List.mem_cons_self _ _)
    · cases f0 with
      | header n2 h2 o2 =>
        show n ∈ ((n2, v0) :: headerAssignsZ rest).map Prod.fst
        simp only [List.map_cons, List.mem_cons]
        exact Or.inr (ih hmem2)
      | body n2 o2 => exact ih hmem2
      | newtypeBody n2 => exact ih hmem2
      | newtypeRawBody n2 => exact ih hmem2
      | path n2 => exact ih hmem2
      | query n2 o2 => exact ih hmem2
      | queryMap n2 => exact ih hmem2

theorem queryAssignsZ_key_of_mem (zl : List (RequestField × Value)) (n : Str)
    (opt : Bool) (v : Value) (hmem : (RequestField.query n opt, v) ∈ zl) :
    n ∈ (queryAssignsZ zl).map Prod.fst := by
  induction zl with
  | nil => exact absurd hmem (List.not_mem_nil _)
  | cons p rest ih =>
    obtain ⟨f0, v0⟩ := p
    rcases List.mem_cons.mp hmem with heq | hmem2
    · injection heq with h1 h2
      subst h1
      show n ∈ ((n, v0) :: queryAssignsZ rest).map Prod.fst
      exact List.mem_map_of_mem Prod.fst (List.mem_cons_self _ _)
    · cases f0 with
      | query n2 o2 =>
        show n ∈ ((n2, v0) :: queryAssignsZ rest).map Prod.fst
        simp only [List.map_cons, List.mem_cons]
        exact Or.inr (ih hmem2)
      | header n2 h2 o2 => exact ih hmem2
      | body n2 o2 => exact ih hmem2
      | newtypeBody n2 => exact ih hmem2
      | newtypeRawBody n2 => exact ih hmem2
      | path n2 => exact ih hmem2
      | queryMap n2 => exact ih hmem2

theorem bodyAssignsZ_key_of_mem (zl : List (RequestField × Value)) (n : Str)
    (opt : Bool) (v : Value) (hmem : (RequestField.body n opt, v) ∈ zl) :
    n ∈ (bodyAssignsZ zl).map Prod.fst := by
  induction zl with
  | nil => exact absurd hmem (List.not_mem_nil _)
  | cons p rest ih =>
    obtain ⟨f0, v0⟩ := p
    rcases List.mem_cons.mp hmem with heq | hmem2
    · injection heq with h1 h2
      subst h1
      show n ∈ ((n, v0) :: bodyAssignsZ rest).map Prod.fst
      exact List.mem_map_of_mem Prod.fst (List.mem_cons_self _ _)
    · cases f0 with
      | body n2 o2 =>
        show n ∈ ((n2, v0) :: bodyAssignsZ rest).map Prod.fst
        simp only [List.map_cons, List.mem_cons]
        exact Or.inr (ih hmem2)
      | header n2 h2 o2 => exact ih hmem2
      | query n2 o2 => exact ih hmem2
      | newtypeBody n2 => exact ih hmem2
      | newtypeRawBody n2 => exact ih hmem2
      | path n2 => exact ih hmem2
      | queryMap n2 => exact ih hmem2

/-- The query names of the zipped fields form a sublist of all field
names (hence inherit distinctness). -/
theorem queryNamesZ_sublist (zl : List (RequestField × Value)) :
    (queryNamesZ zl).Sublist (zl.map (fun p => fieldName p.1)) := by
  induction zl with
  | nil => simp [queryNamesZ]
  | cons p rest ih =>
    obtain ⟨f, v⟩ := p
    cases f with
    | query n o =>
      show (n :: queryNamesZ rest).Sublist (n :: rest.map (fun p => fieldName p.1))
      exact List.Sublist.cons₂ n ih
    | header n h o => exact List.Sublist.cons _ ih
    | body n o => exact List.Sublist.cons _ ih
    | newtypeBody n => exact List.Sublist.cons _ ih
    | newtypeRawBody n => exact List.Sublist.cons _ ih
    | path n => exact List.Sublist.cons _ ih
    | queryMap n => exact List.Sublist.cons _ ih

theorem bodyNamesZ_sublist (zl : List (RequestField × Value)) :
    (bodyNamesZ zl).Sublist (zl.map (fun p => fieldName p.1)) := by
  induction zl with
  | nil => simp [bodyNamesZ]
  | cons p rest ih =>
    obtain ⟨f, v⟩ := p
    cases f with
    | body n o =>
      show (n :: bodyNamesZ rest).Sublist (n :: rest.map (fun p => fieldName p.1))
      exact List.Sublist.cons₂ n ih
    | header n h o => exact List.Sublist.cons _ ih
    | query n o => exact List.Sublist.cons _ ih
    | newtypeBody n => exact List.Sublist.cons _ ih
    | newtypeRawBody n => exact List.Sublist.cons _ ih
    | path n => exact List.Sublist.cons _ ih
    | queryMap n => exact List.Sublist.cons _ ih

theorem path_field_names_sublist (E : Endpoint) :
    (path_field_names E).Sublist (E.fields.map fieldName) := by
  unfold path_field_names
  exact List.Sublist.map fieldName (List.filter_sublist E.fields)

/-- With distinct field names, the assembled request equals the original
when every field's assignment is its own value. -/
theorem map_getField_self (fs : List RequestField) (R : Req)
    (hnd : (fs.map fieldName).Nodup) (hlen : R.length = fs.length) :
    fs.map (fun f => fieldValue (fs.zip R) (fieldName f)) = R := by
  induction fs generalizing R with
  | nil =>
    cases R with
    | nil => rfl
    | cons v R' => simp at hlen
  | cons f0 rest ih =>
    cases R with
    | nil => simp at hlen
    | cons v0 R' =>
      have hnd1 : fieldName f0 ∉ rest.map fieldName := by
        simp only [List.map_cons, List.nodup_cons] at hnd
        exact hnd.1
      have hnd2 : (rest.map fieldName).Nodup := by
        simp only [List.map_cons, List.nodup_cons] at hnd
        exact hnd.2
      have hlen' : R'.length = rest.length := by simpa using hlen
      show (fun f => fieldValue ((f0, v0) :: rest.zip R') (fieldName f)) f0
          :: rest.map (fun f => fieldValue ((f0, v0) :: rest.zip R') (fieldName f)) = v0 :: R'
      congr 1
      · simp [fieldValue]
      · have hcong : ∀ f ∈ rest,
            fieldValue ((f0, v0) :: rest.zip R') (fieldName f)
              = fieldValue (rest.zip R') (fieldName f) := by
          intro f hf
          have hne : fieldName f0 ≠ fieldName f :=
            fun hcc => hnd1 (hcc ▸ List.mem_map_of_mem fieldName hf)
          simp only [fieldValue, if_neg hne]
        rw [List.map_congr_left hcong]
        exact ih R' hnd2 hlen'

/-- Decoding the rendered path recovers the placeholder assignments. -/
theorem parse_request_path_spec (E : Endpoint) (R : Req) (w : WireRequest)
    (hpf : has_path_fields E = true)
    (hwpath : w.path = request_path_string E R) :
    parse_request_path E w
      = .ok ((tplSegments E.path).filterMap fun seg =>
          if seg.head? = some ':' then
            some (seg.drop 1, Value.str ((getField E R (seg.drop 1)).asStr))
          else none) := by
  unfold parse_request_path
  rw [if_pos hpf]
  have hsegs : extract_path_segments w
      = (tplSegments E.path).map (renderPathSeg E R) := by
    unfold extract_path_segments
    rw [hwpath]
    unfold request_path_string
    rw [if_pos hpf]
    show splitOnChar '/'
      (joinSep '/' ((tplSegments E.path).map (renderPathSeg E R))) = _
    apply splitOnChar_joinSep
    · intro hcc
      exact splitOnChar_ne_nil '/' (E.path.drop 1) (List.map_eq_nil_iff.mp hcc)
    · intro t ht
      obtain ⟨seg, hseg, rfl⟩ := List.mem_map.mp ht
      by_cases hph : seg.head? = some ':'
      · unfold renderPathSeg
        rw [if_pos hph]
        exact renderSeg_no_slash _
      · unfold renderPathSeg
        rw [if_neg hph]
        exact splitOnChar_mem_no_sep '/' (E.path.drop 1) seg hseg
  rw [hsegs]
  have henum : (tplSegments E.path).enum = List.enumFrom 0 (tplSegments E.path) := rfl
  rw [henum]
  exact pathAssignsLoop_spec ((tplSegments E.path).map (renderPathSeg E R))
    (fun seg => (getField E R (seg.drop 1)).asStr) (tplSegments E.path) 0 (by
      intro j seg hj hph
      rw [Nat.zero_add, List.get?_map, hj]
      show some (renderPathSeg E R seg) = _
      unfold renderPathSeg
      rw [if_pos hph])

/-! ## Shape and uniqueness support lemmas -/

theorem orElseO_none {α : Type} (x : Option α) : orElseO x none = x := by
  cases x <;> rfl

theorem isPath_shape (f : RequestField) (h : f.isPath = true) :
    ∃ n, f = RequestField.path n := by
  cases f with
  | path n => exact ⟨n, rfl⟩
  | body n o => exact Bool.noConfusion h
  | header n hn o => exact Bool.noConfusion h
  | newtypeBody n => exact Bool.noConfusion h
  | newtypeRawBody n => exact Bool.noConfusion h
  | query n o => exact Bool.noConfusion h
  | queryMap n => exact Bool.noConfusion h

theorem isQuery_shape (f : RequestField) (h : f.isQuery = true) :
    ∃ n opt, f = RequestField.query n opt := by
  cases f with
  | query n o => exact ⟨n, o, rfl⟩
  | body n o => exact Bool.noConfusion h
  | header n hn o => exact Bool.noConfusion h
  | newtypeBody n => exact Bool.noConfusion h
  | newtypeRawBody n => exact Bool.noConfusion h
  | path n => exact Bool.noConfusion h
  | queryMap n => exact Bool.noConfusion h

theorem isHeader_shape (f : RequestField) (h : f.isHeader = true) :
    ∃ n hname opt, f = RequestField.header n hname opt := by
  cases f with
  | header n hn o => exact ⟨n, hn, o, rfl⟩
  | body n o => exact Bool.noConfusion h
  | query n o => exact Bool.noConfusion h
  | newtypeBody n => exact Bool.noConfusion h
  | newtypeRawBody n => exact Bool.noConfusion h
  | path n => exact Bool.noConfusion h
  | queryMap n => exact Bool.noConfusion h

theorem isBody_shape (f : RequestField) (h : f.isBody = true) :
    ∃ n opt, f = RequestField.body n opt := by
  cases f with
  | body n o => exact ⟨n, o, rfl⟩
  | header n hn o => exact Bool.noConfusion h
  | query n o => exact Bool.noConfusion h
  | newtypeBody n => exact Bool.noConfusion h
  | newtypeRawBody n => exact Bool.noConfusion h
  | path n => exact Bool.noConfusion h
  | queryMap n => exact Bool.noConfusion h

theorem isNewtypeBody_shape (f : RequestField) (h : f.isNewtypeBody = true) :
    ∃ n, f = RequestField.newtypeBody n := by
  cases f with
  | newtypeBody n => exact ⟨n, rfl⟩
  | body n o => exact Bool.noConfusion h
  | header n hn o => exact Bool.noConfusion h
  | query n o => exact Bool.noConfusion h
  | newtypeRawBody n => exact Bool.noConfusion h
  | path n => exact Bool.noConfusion h
  | queryMap n => exact Bool.noConfusion h

theorem isNewtypeRawBody_shape (f : RequestField) (h : f.isNewtypeRawBody = true) :
    ∃ n, f = RequestField.newtypeRawBody n := by
  cases f with
  | newtypeRawBody n => exact ⟨n, rfl⟩
  | body n o => exact Bool.noConfusion h
  | header n hn o => exact Bool.noConfusion h
  | query n o => exact Bool.noConfusion h
  | newtypeBody n => exact Bool.noConfusion h
  | path n => exact Bool.noConfusion h
  | queryMap n => exact Bool.noConfusion h

theorem isQueryMap_shape (f : RequestField) (h : f.isQueryMap = true) :
    ∃ n, f = RequestField.queryMap n := by
  cases f with
  | queryMap n => exact ⟨n, rfl⟩
  | body n o => exact Bool.noConfusion h
  | header n hn o => exact Bool.noConfusion h
  | query n o => exact Bool.noConfusion h
  | newtypeBody n => exact Bool.noConfusion h
  | newtypeRawBody n => exact Bool.noConfusion h
  | path n => exact Bool.noConfusion h

theorem fieldMatches_path (n : Str) (v : Value)
    (h : fieldMatches (RequestField.path n) v = true) : ∃ s, v = Value.str s := by
  cases v with
  | str s => exact ⟨s, rfl⟩
  | optStr o => exact Bool.noConfusion h
  | bytes bs => exact Bool.noConfusion h
  | pairs kvs => exact Bool.noConfusion h

theorem fieldMatches_queryMap (n : Str) (v : Value)
    (h : fieldMatches (RequestField.queryMap n) v = true) : ∃ kvs, v = Value.pairs kvs := by
  cases v with
  | pairs kvs => exact ⟨kvs, rfl⟩
  | optStr o => exact Bool.noConfusion h
  | bytes bs => exact Bool.noConfusion h
  | str s => exact Bool.noConfusion h

theorem fieldMatches_newtypeBody (n : Str) (v : Value)
    (h : fieldMatches (RequestField.newtypeBody n) v = true) : ∃ s, v = Value.str s := by
  cases v with
  | str s => exact ⟨s, rfl⟩
  | optStr o => exact Bool.noConfusion h
  | bytes bs => exact Bool.noConfusion h
  | pairs kvs => exact Bool.noConfusion h

theorem fieldMatches_newtypeRawBody (n : Str) (v : Value)
    (h : fieldMatches (RequestField.newtypeRawBody n) v = true) : ∃ bs, v = Value.bytes bs := by
  cases v with
  | bytes bs => exact ⟨bs, rfl⟩
  | optStr o => exact Bool.noConfusion h
  | str s => exact Bool.noConfusion h
  | pairs kvs => exact Bool.noConfusion h

/-- Serialized JSON bodies are never the empty byte string. -/
theorem utf8Encode_jBodyPrint_ne_nil (j : JBody) : utf8Encode (jBodyPrint j) ≠ [] := by
  cases j with
  | obj ms => exact utf8Encode_ne_nil '{' _
  | str v => exact utf8Encode_ne_nil '"' _

/-- Parsing the encoded printed JSON body recovers it. -/
theorem jParseBytes_print (j : JBody) :
    jParseBytes (utf8Encode (jBodyPrint j)) = some j := by
  unfold jParseBytes
  rw [utf8Decode_utf8Encode]
  show jParse (jBodyPrint j) = some j
  exact jParse_jBodyPrint j

/-- The value of a path field of a valid request has string shape. -/
theorem getField_path_shape (E : Endpoint) (R : Req)
    (hnd : (E.fields.map fieldName).Nodup)
    (hlen : R.length = E.fields.length)
    (hvals : ∀ p ∈ E.fields.zip R, fieldMatches p.1 p.2 = true ∧ headerSafeValue p.1 p.2 = true)
    (m : Str) (hm : m ∈ path_field_names E) :
    Value.str ((getField E R m).asStr) = getField E R m := by
  have hm' : m ∈ (E.fields.filter RequestField.isPath).map fieldName := hm
  obtain ⟨f, hf, hfn⟩ := List.mem_map.mp hm'
  have hmemf : f ∈ E.fields := List.mem_of_mem_filter hf
  have hpf : f.isPath = true := List.of_mem_filter hf
  obtain ⟨n, rfl⟩ := isPath_shape f hpf
  obtain ⟨v, hv⟩ := mem_zip_of_mem_left E.fields R _ hmemf hlen
  obtain ⟨s, rfl⟩ := fieldMatches_path n v (hvals _ hv).1
  have hval : getField E R (fieldName (RequestField.path n)) = Value.str s :=
    fieldValue_self E.fields R hnd _ _ hv
  rw [← hfn, hval]
  rfl

/-! ## Per-part decode specifications -/

/-- Decoding the query string produced by encoding recovers every query
and query-map field's value. -/
theorem query_part_spec (E : Endpoint) (R : Req)
    (hnd : (E.fields.map fieldName).Nodup)
    (hlen : R.length = E.fields.length)
    (hvals : ∀ p ∈ E.fields.zip R, fieldMatches p.1 p.2 = true ∧ headerSafeValue p.1 p.2 = true)
    (hqmu : ∀ g ∈ E.fields, g.isQueryMap = true → query_map_field E = some g)
    (hqmq : ¬((query_map_field E).isSome ∧ has_query_fields E = true))
    (w : WireRequest) (hwq : w.query = build_query_string E R) :
    ∃ A, parse_request_query E w = .ok A
      ∧ (∀ p ∈ A, p.2 = getField E R p.1)
      ∧ (∀ f ∈ E.fields, (f.isQuery || f.isQueryMap) = true → fieldName f ∈ A.map Prod.fst) := by
  have hmapfst : (E.fields.zip R).map Prod.fst = E.fields :=
    List.map_fst_zip E.fields R (by omega)
  cases hqm : query_map_field E with
  | some f =>
    have hfmem : f ∈ E.fields := List.mem_of_find?_eq_some hqm
    have hfq : f.isQueryMap = true := List.find?_some hqm
    obtain ⟨n, rfl⟩ := isQueryMap_shape f hfq
    obtain ⟨v, hv⟩ := mem_zip_of_mem_left E.fields R _ hfmem hlen
    obtain ⟨kvs, rfl⟩ := fieldMatches_queryMap n v (hvals _ hv).1
    have hget : getField E R n = Value.pairs kvs := fieldValue_self E.fields R hnd _ _ hv
    have hwq2 : w.query = some (formEncodePairs kvs) := by
      rw [hwq]
      unfold build_query_string
      rw [hqm]
      show some (formEncodePairs ((getField E R n).asPairs)) = _
      rw [hget]
      rfl
    refine ⟨[(n, Value.pairs kvs)], ?_, ?_, ?_⟩
    · unfold parse_request_query
      rw [hqm, hwq2]
      show (resOfForm (formDecodePairs (formEncodePairs kvs))).map _ = _
      rw [formDecodePairs_formEncodePairs]
      rfl
    · intro p hp
      rcases List.mem_cons.mp hp with rfl | h0
      · exact hget.symm
      · exact absurd h0 (List.not_mem_nil _)
    · intro f' hf' hk
      cases f' with
      | queryMap n2 =>
        have := hqmu _ hf' rfl
        rw [hqm] at this
        injection this with this
        injection this with hnn
        subst hnn
        simp [fieldName]
      | query n2 o2 =>
        have hhq : has_query_fields E = true :=
          List.any_eq_true.mpr ⟨RequestField.query n2 o2, hf', rfl⟩
        exact absurd ⟨by rw [hqm]; rfl, hhq⟩ hqmq
      | body n2 o2 => exact Bool.noConfusion hk
      | header n2 h2 o2 => exact Bool.noConfusion hk
      | newtypeBody n2 => exact Bool.noConfusion hk
      | newtypeRawBody n2 => exact Bool.noConfusion hk
      | path n2 => exact Bool.noConfusion hk
  | none =>
    by_cases hq : has_query_fields E = true
    · have hwq2 : w.query = some (formEncodePairs (queryPairsOf (E.fields.zip R))) := by
        rw [hwq]
        unfold build_query_string
        rw [hqm, if_pos hq]
      have hnamesz : (E.fields.zip R).map (fun p => fieldName p.1) = E.fields.map fieldName := by
        conv_rhs => rw [← hmapfst, List.map_map]
        rfl
      have hndq : (queryNamesZ (E.fields.zip R)).Nodup :=
        List.Sublist.nodup (hnamesz ▸ queryNamesZ_sublist (E.fields.zip R)) hnd
      refine ⟨queryAssignsZ (E.fields.zip R), ?_, ?_, ?_⟩
      · unfold parse_request_query
        rw [hqm, if_pos hq, hwq2]
        show (resOfForm (formDecodePairs (formEncodePairs _))).bind _ = _
        rw [formDecodePairs_formEncodePairs]
        show queryStructAssigns E.fields (queryPairsOf (E.fields.zip R)) = _
        nth_rewrite 1 [← hmapfst]
        exact queryStructAssigns_spec (E.fields.zip R) []
          (fun p hp => (hvals p hp).1) hndq (fun m _ => rfl)
      · intro p hp
        obtain ⟨k, v⟩ := p
        obtain ⟨f, hfv, hfn, _⟩ := mem_queryAssignsZ (E.fields.zip R) k v hp
        show v = getField E R k
        rw [← hfn]
        exact (fieldValue_self E.fields R hnd _ _ hfv).symm
      · intro f' hf' hk
        cases f' with
        | query n2 o2 =>
          obtain ⟨v, hv⟩ := mem_zip_of_mem_left E.fields R _ hf' hlen
          exact queryAssignsZ_key_of_mem (E.fields.zip R) n2 o2 v hv
        | queryMap n2 =>
          have := hqmu _ hf' rfl
          rw [hqm] at this
          exact Option.noConfusion this
        | body n2 o2 => exact Bool.noConfusion hk
        | header n2 h2 o2 => exact Bool.noConfusion hk
        | newtypeBody n2 => exact Bool.noConfusion hk
        | newtypeRawBody n2 => exact Bool.noConfusion hk
        | path n2 => exact Bool.noConfusion hk
    · refine ⟨[], ?_, ?_, ?_⟩
      · unfold parse_request_query
        rw [hqm, if_neg hq]
      · intro p hp
        exact absurd hp (List.not_mem_nil _)
      · intro f' hf' hk
        cases f' with
        | query n2 o2 =>
          exact absurd (List.any_eq_true.mpr ⟨RequestField.query n2 o2, hf', rfl⟩) hq
        | queryMap n2 =>
          have := hqmu _ hf' rfl
          rw [hqm] at this
          exact Option.noConfusion this
        | body n2 o2 => exact Bool.noConfusion hk
        | header n2 h2 o2 => exact Bool.noConfusion hk
        | newtypeBody n2 => exact Bool.noConfusion hk
        | newtypeRawBody n2 => exact Bool.noConfusion hk
        | path n2 => exact Bool.noConfusion hk

/-- Decoding the body produced by encoding recovers every body and
newtype-body field's value. -/
theorem body_part_spec (E : Endpoint) (R : Req)
    (hnd : (E.fields.map fieldName).Nodup)
    (hlen : R.length = E.fields.length)
    (hvals : ∀ p ∈ E.fields.zip R, fieldMatches p.1 p.2 = true ∧ headerSafeValue p.1 p.2 = true)
    (hnbu : ∀ g ∈ E.fields, g.isNewtypeBody = true → newtype_body_field E = some g)
    (hnbr : ¬((newtype_body_field E).isSome ∧ (newtype_raw_body_field E).isSome))
    (hrb : ¬((newtype_raw_body_field E).isSome ∧ has_body_fields E = true))
    (hnbb : ¬((newtype_body_field E).isSome ∧ has_body_fields E = true)) :
    ∃ A, extract_request_body E (request_body E R) = .ok A
      ∧ (∀ p ∈ A, p.2 = getField E R p.1)
      ∧ (∀ f ∈ E.fields, (f.isBody || f.isNewtypeBody) = true → fieldName f ∈ A.map Prod.fst) := by
  have hmapfst : (E.fields.zip R).map Prod.fst = E.fields :=
    List.map_fst_zip E.fields R (by omega)
  cases hraw : newtype_raw_body_field E with
  | some fr =>
    have hguard : ¬((has_body_fields E || (newtype_body_field E).isSome) = true) := by
      intro hcc
      rcases Bool.or_eq_true_iff.mp hcc with hb | hn
      · exact hrb ⟨by rw [hraw]; rfl, hb⟩
      · exact hnbr ⟨hn, by rw [hraw]; rfl⟩
    refine ⟨[], ?_, ?_, ?_⟩
    · unfold extract_request_body
      rw [if_neg hguard]
    · intro p hp
      exact absurd hp (List.not_mem_nil _)
    · intro f' hf' hk
      rcases Bool.or_eq_true_iff.mp hk with hb | hn
      · exact absurd ⟨by rw [hraw]; rfl, List.any_eq_true.mpr ⟨f', hf', hb⟩⟩ hrb
      · have := hnbu _ hf' hn
        exact absurd ⟨by rw [this]; rfl, by rw [hraw]; rfl⟩ hnbr
  | none =>
    cases hnb : newtype_body_field E with
    | some fb =>
      have hfmem : fb ∈ E.fields := List.mem_of_find?_eq_some hnb
      have hfnb : fb.isNewtypeBody = true := List.find?_some hnb
      obtain ⟨n, rfl⟩ := isNewtypeBody_shape fb hfnb
      obtain ⟨v, hv⟩ := mem_zip_of_mem_left E.fields R _ hfmem hlen
      obtain ⟨s, rfl⟩ := fieldMatches_newtypeBody n v (hvals _ hv).1
      have hget : getField E R n = Value.str s := fieldValue_self E.fields R hnd _ _ hv
      have hbody : request_body E R = utf8Encode (jBodyPrint (JBody.str s)) := by
        unfold request_body
        rw [hraw, hnb]
        show (if has_body_fields E || true = true then _ else _) = _
        rw [if_pos (by simp)]
        show utf8Encode (jBodyPrint (JBody.str ((getField E R n).asStr))) = _
        rw [hget]
        rfl
      have hguard : (has_body_fields E || (newtype_body_field E).isSome) = true := by
        rw [hnb]
        simp
      refine ⟨[(n, Value.str s)], ?_, ?_, ?_⟩
      · unfold extract_request_body
        rw [if_pos hguard, hbody,
          if_neg (utf8Encode_jBodyPrint_ne_nil (JBody.str s)), jParseBytes_print, hnb]
        rfl
      · intro p hp
        rcases List.mem_cons.mp hp with rfl | h0
        · exact hget.symm
        · exact absurd h0 (List.not_mem_nil _)
      · intro f' hf' hk
        rcases Bool.or_eq_true_iff.mp hk with hb | hn
        · exact absurd ⟨by rw [hnb]; rfl, List.any_eq_true.mpr ⟨f', hf', hb⟩⟩ hnbb
        · have := hnbu _ hf' hn
          rw [hnb] at this
          injection this with this
          rw [← this]
          obtain ⟨n2, rfl⟩ := isNewtypeBody_shape f' hn
          simp [fieldName]
    | none =>
      by_cases hb : has_body_fields E = true
      · have hbody : request_body E R
            = utf8Encode (jBodyPrint (JBody.obj (bodyMembers (E.fields.zip R)))) := by
          unfold request_body
          rw [hraw, hnb]
          show (if has_body_fields E || false = true then _ else _) = _
          rw [if_pos (by simp [hb])]
        have hguard : (has_body_fields E || (newtype_body_field E).isSome) = true := by
          rw [hnb, hb]
          rfl
        have hnamesz : (E.fields.zip R).map (fun p => fieldName p.1) = E.fields.map fieldName := by
          conv_rhs => rw [← hmapfst, List.map_map]
          rfl
        have hndb : (bodyNamesZ (E.fields.zip R)).Nodup :=
          List.Sublist.nodup (hnamesz ▸ bodyNamesZ_sublist (E.fields.zip R)) hnd
        refine ⟨bodyAssignsZ (E.fields.zip R), ?_, ?_, ?_⟩
        · unfold extract_request_body
          rw [if_pos hguard, hbody,
            if_neg (utf8Encode_jBodyPrint_ne_nil (JBody.obj (bodyMembers (E.fields.zip R)))),
            jParseBytes_print, hnb]
          show (bodyObjOf (JBody.obj (bodyMembers (E.fields.zip R)))).bind _ = _
          show bodyFieldsAssigns E.fields (bodyMembers (E.fields.zip R)) = _
          nth_rewrite 1 [← hmapfst]
          exact bodyFieldsAssigns_spec (E.fields.zip R) []
            (fun p hp => (hvals p hp).1) hndb (fun m _ => rfl)
        · intro p hp
          obtain ⟨k, v⟩ := p
          obtain ⟨f, hfv, hfn, _⟩ := mem_bodyAssignsZ (E.fields.zip R) k v hp
          show v = getField E R k
          rw [← hfn]
          exact (fieldValue_self E.fields R hnd _ _ hfv).symm
        · intro f' hf' hk
          rcases Bool.or_eq_true_iff.mp hk with hbb | hn
          · obtain ⟨n2, o2, rfl⟩ := isBody_shape f' hbb
            obtain ⟨v, hv⟩ := mem_zip_of_mem_left E.fields R _ hf' hlen
            exact bodyAssignsZ_key_of_mem (E.fields.zip R) n2 o2 v hv
          · have := hnbu _ hf' hn
            rw [hnb] at this
            exact Option.noConfusion this
      · have hguard : ¬((has_body_fields E || (newtype_body_field E).isSome) = true) := by
          rw [hnb]
          intro hcc
          rcases Bool.or_eq_true_iff.mp hcc with hcc | hcc
          · exact hb hcc
          · exact Bool.noConfusion hcc
        refine ⟨[], ?_, ?_, ?_⟩
        · unfold extract_request_body
          rw [if_neg hguard]
        · intro p hp
          exact absurd hp (List.not_mem_nil _)
        · intro f' hf' hk
          rcases Bool.or_eq_true_iff.mp hk with hbb | hn
          · exact absurd (List.any_eq_true.mpr ⟨f', hf', hbb⟩) hb
          · have := hnbu _ hf' hn
            rw [hnb] at this
            exact Option.noConfusion this

/-- Decoding the path produced by encoding recovers every path field's
value. -/
theorem path_part_spec (E : Endpoint) (R : Req) (w : WireRequest)
    (hnd : (E.fields.map fieldName).Nodup)
    (hlen : R.length = E.fields.length)
    (hvals : ∀ p ∈ E.fields.zip R, fieldMatches p.1 p.2 = true ∧ headerSafeValue p.1 p.2 = true)
    (hperm : (placeholders E).Perm (path_field_names E))
    (hwpath : w.path = request_path_string E R) :
    ∃ A, parse_request_path E w = .ok A
      ∧ (∀ p ∈ A, p.2 = getField E R p.1)
      ∧ (∀ f ∈ E.fields, f.isPath = true → fieldName f ∈ A.map Prod.fst) := by
  by_cases hpf : has_path_fields E = true
  · refine ⟨(tplSegments E.path).filterMap fun seg =>
        if seg.head? = some ':' then
          some (seg.drop 1, Value.str ((getField E R (seg.drop 1)).asStr))
        else none, parse_request_path_spec E R w hpf hwpath, ?_, ?_⟩
    · intro p hp
      obtain ⟨seg, hseg, hsome⟩ := List.mem_filterMap.mp hp
      by_cases hph : seg.head? = some ':'
      · rw [if_pos hph] at hsome
        injection hsome with hsome
        rw [← hsome]
        show Value.str ((getField E R (seg.drop 1)).asStr) = getField E R (seg.drop 1)
        apply getField_path_shape E R hnd hlen hvals
        apply hperm.mem_iff.mp
        exact List.mem_filterMap.mpr ⟨seg, hseg, by rw [if_pos hph]⟩
      · rw [if_neg hph] at hsome
        exact Option.noConfusion hsome
    · intro f' hf' hk
      obtain ⟨n, rfl⟩ := isPath_shape f' hk
      rw [pathAssign_keys]
      apply hperm.mem_iff.mpr
      show fieldName (RequestField.path n) ∈ (E.fields.filter RequestField.isPath).map fieldName
      exact List.mem_map_of_mem fieldName (List.mem_filter.mpr ⟨hf', hk⟩)
  · refine ⟨[], ?_, ?_, ?_⟩
    · unfold parse_request_path
      rw [if_neg hpf]
    · intro p hp
      exact absurd hp (List.not_mem_nil _)
    · intro f' hf' hk
      exact absurd (List.any_eq_true.mpr ⟨f', hf', hk⟩) hpf

/-- Decoding headers that carry each header field's encoded value
recovers every header field's value. -/
theorem header_part_spec (E : Endpoint) (R : Req) (hs : List (Str × List Nat))
    (hnd : (E.fields.map fieldName).Nodup)
    (hlen : R.length = E.fields.length)
    (hvals : ∀ p ∈ E.fields.zip R, fieldMatches p.1 p.2 = true ∧ headerSafeValue p.1 p.2 = true)
    (hget : ∀ n hname opt v, (RequestField.header n hname opt, v) ∈ E.fields.zip R →
        getHeader hs hname = encHV opt v) :
    ∃ A, parse_request_headers E.fields hs = .ok A
      ∧ (∀ p ∈ A, p.2 = getField E R p.1)
      ∧ (∀ f ∈ E.fields, f.isHeader = true → fieldName f ∈ A.map Prod.fst) := by
  have hmapfst : (E.fields.zip R).map Prod.fst = E.fields :=
    List.map_fst_zip E.fields R (by omega)
  refine ⟨headerAssignsZ (E.fields.zip R), ?_, ?_, ?_⟩
  · nth_rewrite 1 [← hmapfst]
    exact parse_request_headers_spec (E.fields.zip R) hs hvals hget
  · intro p hp
    obtain ⟨k, v⟩ := p
    obtain ⟨f, hfv, hfn, _⟩ := mem_headerAssignsZ (E.fields.zip R) k v hp
    show v = getField E R k
    rw [← hfn]
    exact (fieldValue_self E.fields R hnd _ _ hfv).symm
  · intro f' hf' hk
    obtain ⟨n, hname, opt, rfl⟩ := isHeader_shape f' hk
    obtain ⟨v, hv⟩ := mem_zip_of_mem_left E.fields R _ hf' hlen
    exact headerAssignsZ_key_of_mem (E.fields.zip R) n hname opt v hv

/-- The raw-body assignment reads back the raw field's value. -/
theorem raw_part_spec (E : Endpoint) (R : Req)
    (hnd : (E.fields.map fieldName).Nodup)
    (hlen : R.length = E.fields.length)
    (hvals : ∀ p ∈ E.fields.zip R, fieldMatches p.1 p.2 = true ∧ headerSafeValue p.1 p.2 = true)
    (hrbu : ∀ g ∈ E.fields, g.isNewtypeRawBody = true → newtype_raw_body_field E = some g)
    (w : WireRequest) (hwb : w.body = request_body E R) :
    (∀ p ∈ parse_request_body_raw E w, p.2 = getField E R p.1)
    ∧ (∀ f ∈ E.fields, f.isNewtypeRawBody = true →
        fieldName f ∈ (parse_request_body_raw E w).map Prod.fst) := by
  cases hraw : newtype_raw_body_field E with
  | some fr =>
    have hfmem : fr ∈ E.fields := List.mem_of_find?_eq_some hraw
    have hfr : fr.isNewtypeRawBody = true := List.find?_some hraw
    obtain ⟨n, rfl⟩ := isNewtypeRawBody_shape fr hfr
    obtain ⟨v, hv⟩ := mem_zip_of_mem_left E.fields R _ hfmem hlen
    obtain ⟨bs, rfl⟩ := fieldMatches_newtypeRawBody n v (hvals _ hv).1
    have hget : getField E R n = Value.bytes bs := fieldValue_self E.fields R hnd _ _ hv
    have hbody : w.body = bs := by
      rw [hwb]
      unfold request_body
      rw [hraw]
      show (getField E R n).asBytes = _
      rw [hget]
      rfl
    have hA : parse_request_body_raw E w = [(n, Value.bytes bs)] := by
      unfold parse_request_body_raw
      rw [hraw, hbody]
      rfl
    rw [hA]
    constructor
    · intro p hp
      rcases List.mem_cons.mp hp with rfl | h0
      · exact hget.symm
      · exact absurd h0 (List.not_mem_nil _)
    · intro f' hf' hk
      have := hrbu _ hf' hk
      rw [hraw] at this
      injection this with this
      rw [← this]
      obtain ⟨n2, rfl⟩ := isNewtypeRawBody_shape f' hk
      simp [fieldName]
  | none =>
    have hA : parse_request_body_raw E w = [] := by
      unfold parse_request_body_raw
      rw [hraw]
    rw [hA]
    constructor
    · intro p hp
      exact absurd hp (List.not_mem_nil _)
    · intro f' hf' hk
      have := hrbu _ hf' hk
      rw [hraw] at this
      exact Option.noConfusion this

/-! ## The request round-trip -/

/-- Decoding the wire request produced by encoding a valid request of a
well-formed endpoint recovers the request. -/
theorem roundtrip_main (E : Endpoint) (R : Req) (tok : Option Str) (w : WireRequest)
    (hwf : wfEndpoint E) (hval : validReq E R)
    (henc : try_into_http_request E R tok = .ok w) :
    try_from_http_request E w = .ok R := by
  obtain ⟨hnd, hndh, hct, hauthz, hasserts, hperm, hnbu, hrbu, hnbr, hrb, hnbb, hqmu, hqmq⟩ := hwf
  obtain ⟨hlen, hvals⟩ := hval
  have hmapfst : (E.fields.zip R).map Prod.fst = E.fields :=
    List.map_fst_zip E.fields R (by omega)
  have hndh' : (headerNamesOf ((E.fields.zip R).map Prod.fst)).Nodup := by
    rw [hmapfst]
    exact hndh
  obtain ⟨hs1, hok1, huntouched, hfieldget⟩ := header_kvs_fields_spec (E.fields.zip R)
    (appendHeader [] "content-type".data (utf8Encode "application/json".data)) hvals hndh'
  have henc1 : (header_kvs_auth E tok hs1).bind (fun hs2 =>
      Res.ok (WireRequest.mk E.method (request_path_string E R) (build_query_string E R)
        hs2 (request_body E R))) = .ok w := by
    unfold try_into_http_request at henc
    rw [hok1] at henc
    exact henc
  cases hauth : header_kvs_auth E tok hs1 with
  | err e =>
    rw [hauth] at henc1
    exact Res.noConfusion henc1
  | ok hs2 =>
    rw [hauth] at henc1
    have h3 : WireRequest.mk E.method (request_path_string E R) (build_query_string E R)
        hs2 (request_body E R) = w := by
      have h2 : Res.ok (WireRequest.mk E.method (request_path_string E R)
          (build_query_string E R) hs2 (request_body E R)) = Res.ok w := henc1
      injection h2
    have hwm : w.method = E.method := by rw [← h3]
    have hwp : w.path = request_path_string E R := by rw [← h3]
    have hwq : w.query = build_query_string E R := by rw [← h3]
    have hwh : w.headers = hs2 := by rw [← h3]
    have hwb : w.body = request_body E R := by rw [← h3]
    have hs2get : ∀ n hname opt v, (RequestField.header n hname opt, v) ∈ E.fields.zip R →
        getHeader hs2 hname = encHV opt v := by
      intro n hname opt v hmem
      have hmemname : hname ∈ header_names E :=
        mem_headerNamesOf E.fields n hname opt (List.of_mem_zip hmem).1
      have h0 : getHeader (appendHeader [] "content-type".data
          (utf8Encode "application/json".data)) hname = none := by
        have hne : "content-type".data ≠ hname := fun hcc => hct (hcc ▸ hmemname)
        show (if "content-type".data = hname then some (utf8Encode "application/json".data)
          else getHeader [] hname) = none
        rw [if_neg hne]
        rfl
      have h1 : getHeader hs1 hname = encHV opt v := by
        rw [hfieldget n hname opt v hmem, h0]
        exact orElseO_none _
      unfold header_kvs_auth at hauth
      by_cases hac : E.authentication = "AccessToken".data
      · rw [if_pos hac] at hauth
        cases tok with
        | none => exact Res.noConfusion hauth
        | some t =>
          have hauth2 : (resOfHv (headerValueFromStr ("Bearer ".data ++ t))).map
              (insertHeader hs1 "authorization".data) = Res.ok hs2 := hauth
          cases hfs : headerValueFromStr ("Bearer ".data ++ t) with
          | none =>
            rw [hfs] at hauth2
            exact Res.noConfusion hauth2
          | some bts =>
            rw [hfs] at hauth2
            have h2 : Res.ok (insertHeader hs1 "authorization".data bts) = Res.ok hs2 := hauth2
            injection h2 with h2
            rw [← h2]
            have hne : hname ≠ "authorization".data :=
              fun hcc => (hauthz hac) (hcc ▸ hmemname)
            rw [getHeader_insertHeader_other hs1 "authorization".data hname _ hne]
            exact h1
      · rw [if_neg hac] at hauth
        injection hauth with h2
        rw [← h2]
        exact h1
    obtain ⟨QA, hqok, hqdet, hqcov⟩ := query_part_spec E R hnd hlen hvals hqmu hqmq w hwq
    obtain ⟨BA, hbok, hbdet, hbcov⟩ := body_part_spec E R hnd hlen hvals hnbu hnbr hrb hnbb
    obtain ⟨PA, hpok, hpdet, hpcov⟩ := path_part_spec E R w hnd hlen hvals hperm hwp
    obtain ⟨HA, hhok, hhdet, hhcov⟩ := header_part_spec E R hs2 hnd hlen hvals hs2get
    obtain ⟨hrdet, hrcov⟩ := raw_part_spec E R hnd hlen hvals hrbu w hwb
    have hdet : ∀ p ∈ PA ++ QA ++ HA ++ BA ++ parse_request_body_raw E w,
        p.2 = getField E R p.1 := by
      intro p hp
      rcases List.mem_append.mp hp with hp4 | hp5
      · rcases List.mem_append.mp hp4 with hp3 | hp4
        · rcases List.mem_append.mp hp3 with hp2 | hp3
          · rcases List.mem_append.mp hp2 with hp1 | hp2
            · exact hpdet p hp1
            · exact hqdet p hp2
          · exact hhdet p hp3
        · exact hbdet p hp4
      · exact hrdet p hp5
    have hcov : ∀ f ∈ E.fields,
        fieldName f ∈ (PA ++ QA ++ HA ++ BA ++ parse_request_body_raw E w).map Prod.fst := by
      intro f hf
      simp only [List.map_append, List.mem_append]
      cases f with
      | path n => exact Or.inl (Or.inl (Or.inl (Or.inl (hpcov _ hf rfl))))
      | query n o => exact Or.inl (Or.inl (Or.inl (Or.inr (hqcov _ hf rfl))))
      | queryMap n => exact Or.inl (Or.inl (Or.inl (Or.inr (hqcov _ hf rfl))))
      | header n hn o => exact Or.inl (Or.inl (Or.inr (hhcov _ hf rfl)))
      | body n o => exact Or.inl (Or.inr (hbcov _ hf rfl))
      | newtypeBody n => exact Or.inl (Or.inr (hbcov _ hf rfl))
      | newtypeRawBody n => exact Or.inr (hrcov _ hf rfl)
    have hassemble : assembleReq E (PA ++ QA ++ HA ++ BA ++ parse_request_body_raw E w) = R := by
      unfold assembleReq
      have hpoint : ∀ f ∈ E.fields,
          (lookupV (PA ++ QA ++ HA ++ BA ++ parse_request_body_raw E w)
            (fieldName f)).getD (Value.str [])
          = getField E R (fieldName f) := by
        intro f hf
        rw [lookupV_determined _ (getField E R) hdet (fieldName f) (hcov f hf)]
        rfl
      calc E.fields.map (fun f =>
            (lookupV (PA ++ QA ++ HA ++ BA ++ parse_request_body_raw E w)
              (fieldName f)).getD (Value.str []))
          = E.fields.map (fun f => getField E R (fieldName f)) := List.map_congr_left hpoint
        _ = R := map_getField_self E.fields R hnd hlen
    unfold try_from_http_request
    rw [hwm, if_neg (show ¬(E.method ≠ E.method) from fun hcc => hcc rfl), hqok]
    show (extract_request_body E w.body).bind _ = _
    rw [hwb, hbok]
    show (parse_request_path E w).bind _ = _
    rw [hpok]
    show (parse_request_headers E.fields w.headers).bind _ = _
    rw [hwh, hhok]
    show Res.ok (assembleReq E (PA ++ QA ++ HA ++ BA ++ parse_request_body_raw E w)) = Res.ok R
    rw [hassemble]

/-! ## Decidability of the validity envelope -/

instance (E : Endpoint) : Decidable (wfEndpoint E) := by
  unfold wfEndpoint
  infer_instance

instance (E : Endpoint) (R : Req) : Decidable (validReq E R) := by
  unfold validReq
  infer_instance

/-! ## Further support lemmas for the individual claims -/

/-- `header_kvs_fields` never touches header names outside the declared
header fields (no validity assumptions). -/
theorem header_kvs_fields_untouched (zl : List (RequestField × Value)) :
    ∀ hs hs', header_kvs_fields zl hs = .ok hs' →
      ∀ m, m ∉ headerNamesOf (zl.map Prod.fst) → getHeader hs' m = getHeader hs m := by
  induction zl with
  | nil =>
    intro hs hs' hok m _
    injection hok with h
    rw [h]
  | cons p rest ih =>
    obtain ⟨f, v⟩ := p
    intro hs hs' hok m hm
    cases f with
    | header n hname opt =>
      have hm2 : m ∉ headerNamesOf (rest.map Prod.fst) := by
        intro hcc
        exact hm (by
          show m ∈ hname :: headerNamesOf (rest.map Prod.fst)
          exact List.mem_cons_of_mem _ hcc)
      have hmh : hname ≠ m := by
        intro hcc
        exact hm (by
          show m ∈ hname :: headerNamesOf (rest.map Prod.fst)
          rw [hcc]
          exact List.mem_cons_self _ _)
      have hok2 : (match headerInsertion opt v with
          | .err e => Res.err e
          | .ok none => header_kvs_fields rest hs
          | .ok (some bs) => header_kvs_fields rest (insertHeader hs hname bs)) = .ok hs' := hok
      cases hins : headerInsertion opt v with
      | err e =>
        rw [hins] at hok2
        exact Res.noConfusion hok2
      | ok o =>
        cases o with
        | none =>
          rw [hins] at hok2
          exact ih hs hs' hok2 m hm2
        | some bs =>
          rw [hins] at hok2
          rw [ih _ hs' hok2 m hm2]
          exact getHeader_insertHeader_other hs hname m bs (fun hcc => hmh hcc.symm)
    | body n2 o2 => exact ih hs hs' hok m hm
    | newtypeBody n2 => exact ih hs hs' hok m hm
    | newtypeRawBody n2 => exact ih hs hs' hok m hm
    | path n2 => exact ih hs hs' hok m hm
    | query n2 o2 => exact ih hs hs' hok m hm
    | queryMap n2 => exact ih hs hs' hok m hm

/-- The decode-side path assignments are keyed by the placeholder's
name. -/
theorem pathAssigns_name_keyed (segs : List Str) :
    ∀ (tpl : List Str) (k : Nat) (A : List (Str × Value)),
      pathAssignsLoop segs (List.enumFrom k tpl) = .ok A →
      ∀ j seg, tpl.get? j = some seg → seg.head? = some ':' →
        ∃ v, (seg.drop 1, v) ∈ A := by
  intro tpl
  induction tpl with
  | nil =>
    intro k A _ j seg hj
    rw [List.get?_nil] at hj
    exact absurd hj (by simp)
  | cons seg0 tpl' ih =>
    intro k A hok j seg hj hph
    have hok2 : (if seg0.head? = some ':' then
        (resOfSeg (segs.get? k)).bind fun s =>
        (decodePathSeg s).bind fun v =>
        (pathAssignsLoop segs (List.enumFrom (k + 1) tpl')).map
          fun as => (seg0.drop 1, Value.str v) :: as
      else pathAssignsLoop segs (List.enumFrom (k + 1) tpl')) = .ok A := hok
    cases j with
    | zero =>
      rw [List.get?_cons_zero] at hj
      injection hj with hj
      subst hj
      rw [if_pos hph] at hok2
      cases hseg : resOfSeg (segs.get? k) with
      | err e =>
        rw [hseg] at hok2
        exact Res.noConfusion hok2
      | ok s =>
        rw [hseg] at hok2
        have hok3 : (decodePathSeg s).bind (fun v =>
            (pathAssignsLoop segs (List.enumFrom (k + 1) tpl')).map
              fun as => (seg0.drop 1, Value.str v) :: as) = .ok A := hok2
        cases hdec : decodePathSeg s with
        | err e =>
          rw [hdec] at hok3
          exact Res.noConfusion hok3
        | ok v =>
          rw [hdec] at hok3
          cases hrest : pathAssignsLoop segs (List.enumFrom (k + 1) tpl') with
          | err e =>
            rw [hrest] at hok3
            exact Res.noConfusion hok3
          | ok as =>
            rw [hrest] at hok3
            have : Res.ok ((seg0.drop 1, Value.str v) :: as) = Res.ok A := hok3
            injection this with h
            exact ⟨Value.str v, by rw [← h]; exact List.mem_cons_self _ _⟩
    | succ j' =>
      rw [List.get?_cons_succ] at hj
      by_cases hph0 : seg0.head? = some ':'
      · rw [if_pos hph0] at hok2
        cases hseg : resOfSeg (segs.get? k) with
        | err e =>
          rw [hseg] at hok2
          exact Res.noConfusion hok2
        | ok s =>
          rw [hseg] at hok2
          have hok3 : (decodePathSeg s).bind (fun v =>
              (pathAssignsLoop segs (List.enumFrom (k + 1) tpl')).map
                fun as => (seg0.drop 1, Value.str v) :: as) = .ok A := hok2
          cases hdec : decodePathSeg s with
          | err e =>
            rw [hdec] at hok3
            exact Res.noConfusion hok3
          | ok v =>
            rw [hdec] at hok3
            cases hrest : pathAssignsLoop segs (List.enumFrom (k + 1) tpl') with
            | err e =>
              rw [hrest] at hok3
              exact Res.noConfusion hok3
            | ok as =>
              rw [hrest] at hok3
              have h4 : Res.ok ((seg0.drop 1, Value.str v) :: as) = Res.ok A := hok3
              injection h4 with h4
              obtain ⟨v2, hv2⟩ := ih (k + 1) as hrest j' seg hj hph
              exact ⟨v2, by rw [← h4]; exact List.mem_cons_of_mem _ hv2⟩
      · rw [if_neg hph0] at hok2
        exact ih (k + 1) A hok2 j' seg hj hph

/-- Deserializing the body struct cannot fail when no required body field
is declared. -/
theorem bodyFieldsAssigns_no_required (fs : List RequestField)
    (hopt : ∀ n, RequestField.body n false ∉ fs) :
    ∀ ms, ∃ A, bodyFieldsAssigns fs ms = .ok A := by
  induction fs with
  | nil => exact fun ms => ⟨[], rfl⟩
  | cons f rest ih =>
    have hopt2 : ∀ n, RequestField.body n false ∉ rest :=
      fun n hcc => hopt n (List.mem_cons_of_mem _ hcc)
    intro ms
    cases f with
    | body n opt =>
      cases opt with
      | false => exact absurd (List.mem_cons_self _ _) (hopt n)
      | true =>
        obtain ⟨A, hA⟩ := ih hopt2 ms
        refine ⟨(n, Value.optStr (optOfJ (lookupJ ms n))) :: A, ?_⟩
        show (bodyFieldsAssigns rest ms).map _ = _
        rw [hA]
        rfl
    | header n2 h2 o2 => exact ih hopt2 ms
    | newtypeBody n2 => exact ih hopt2 ms
    | newtypeRawBody n2 => exact ih hopt2 ms
    | path n2 => exact ih hopt2 ms
    | query n2 o2 => exact ih hopt2 ms
    | queryMap n2 => exact ih hopt2 ms

/-- Header bytes that are not valid UTF-8 never pass `to_str`. -/
theorem headerValueToStr_none_of_utf8 (bs : List Nat) (h : utf8Decode bs = none) :
    headerValueToStr bs = none := by
  unfold headerValueToStr
  have hnall : ¬(bs.all isVisibleAsciiByte = true) := by
    intro hall
    have hlt : ∀ b ∈ bs, b < 0x80 := by
      intro b hb
      have hvb := List.all_eq_true.mp hall b hb
      unfold isVisibleAsciiByte at hvb
      rcases Bool.or_eq_true_iff.mp hvb with h1 | h2
      · have h3 := (Bool.and_eq_true_iff.mp h1).2
        have h4 := of_decide_eq_true h3
        omega
      · have h4 : b = 9 := by
          have h5 := h2
          simp only [beq_iff_eq] at h5
          exact h5
        omega
    rw [utf8Decode_ascii bs hlt] at h
    exact Option.noConfusion h
  rw [if_neg hnall]

/-! ## Concrete endpoints and requests used by the claims -/

/-- Modelled from the spec's words (§4.2), for comparison only: the Nth
placeholder in the template binds to the Nth Path field in source order
(positional binding).  The code's `request_path_string` binds by the
placeholder's name instead. -/
def renderPathPositionalSpec (E : Endpoint) (R : Req) : Str :=
  '/' :: joinSep '/' ((tplSegments E.path).enum.map fun p =>
    if p.2.head? = some ':' then
      (percentEncode (utf8Encode
        (((((E.fields.zip R).filter fun q => q.1.isPath).map fun q => q.2.asStr).get?
          (((tplSegments E.path).take p.1).countP fun s => s.head? = some ':')).getD []))).map
        Char.ofNat
    else p.2)

/-- A required (non-`Option`) body field. -/
def isRequiredBody : RequestField → Bool
  | .body _ false => true
  | _ => false

/-- A mixed endpoint: one path, query, header and body field each, with
access-token authentication. -/
def Ew : Endpoint :=
  { method := "POST".data, path := "/r/:x".data,
    authentication := "AccessToken".data,
    fields := [RequestField.path "x".data, RequestField.query "q".data false,
      RequestField.header "h".data "x-h".data false, RequestField.body "b".data false] }

def Rw : Req := [Value.str "v 1".data, Value.str "qv".data,
  Value.str "hv".data, Value.str "bv".data]

/-- The wire request `try_into_http_request Ew Rw (some "tkn")` produces. -/
def Ww : WireRequest :=
  { method := "POST".data, path := "/r/v%201".data, query := some "q=qv".data,
    headers := [("content-type".data, utf8Encode "application/json".data),
                ("x-h".data, utf8Encode "hv".data),
                ("authorization".data, utf8Encode "Bearer tkn".data)],
    body := utf8Encode "\x7b\"b\":\"bv\"\x7d".data }

/-- An endpoint declaring an optional header field under the name
`content-type` — the name the encoder also sets itself. -/
def Ec1 : Endpoint :=
  { method := "GET".data, path := "/p".data,
    authentication := "None".data,
    fields := [RequestField.header "ct".data "content-type".data true] }

def Rc1 : Req := [Value.optStr none]

/-- The wire request `try_into_http_request Ec1 Rc1 none` produces. -/
def Wc1 : WireRequest :=
  { method := "GET".data, path := "/p".data, query := none,
    headers := [("content-type".data, utf8Encode "application/json".data)],
    body := [] }

/-- Template `/a/:x/b/:y` with the Path fields declared in the *reverse*
order `y`, `x` — well-formed, since binding is by name. -/
def E2 : Endpoint :=
  { method := "GET".data, path := "/a/:x/b/:y".data,
    authentication := "None".data,
    fields := [RequestField.path "y".data, RequestField.path "x".data] }

def R2 : Req := [Value.str "1".data, Value.str "2".data]

/-- The wire request `try_into_http_request E2 R2 none` produces. -/
def W2e : WireRequest :=
  { method := "GET".data, path := "/a/2/b/1".data, query := none,
    headers := [("content-type".data, utf8Encode "application/json".data)],
    body := [] }

/-- The spec's §8 example: template `/a/:x/b/:y` with `x`, `y` declared
in template order. -/
def E7 : Endpoint :=
  { method := "GET".data, path := "/a/:x/b/:y".data,
    authentication := "None".data,
    fields := [RequestField.path "x".data, RequestField.path "y".data] }

def R7 : Req := [Value.str "foo bar".data, Value.str "42".data]

/-- The wire request `try_into_http_request E7 R7 none` produces. -/
def W7 : WireRequest :=
  { method := "GET".data, path := "/a/foo%20bar/b/42".data, query := none,
    headers := [("content-type".data, utf8Encode "application/json".data)],
    body := [] }

/-- A template with a placeholder but zero declared Path fields. -/
def E8 : Endpoint :=
  { method := "GET".data, path := "/a/:x".data,
    authentication := "None".data, fields := [] }

/-- An endpoint declaring a *required* header field under the name
`content-type`. -/
def Ec9 : Endpoint :=
  { method := "GET".data, path := "/p".data,
    authentication := "None".data,
    fields := [RequestField.header "ct".data "content-type".data false] }

def Rc9 : Req := [Value.str "text/plain".data]

/-- The wire request `try_into_http_request Ec9 Rc9 none` produces. -/
def Wc9 : WireRequest :=
  { method := "GET".data, path := "/p".data, query := none,
    headers := [("content-type".data, utf8Encode "text/plain".data)],
    body := [] }

/-- An endpoint with one raw-body field. -/
def E10 : Endpoint :=
  { method := "PUT".data, path := "/m".data,
    authentication := "None".data,
    fields := [RequestField.newtypeRawBody "rb".data] }

/-- A body-less wire request for `E10`. -/
def W10 : WireRequest :=
  { method := "PUT".data, path := "/m".data, query := none,
    headers := [], body := [] }

/-- An endpoint whose only body field is optional. -/
def E3 : Endpoint :=
  { method := "POST".data, path := "/o".data,
    authentication := "None".data,
    fields := [RequestField.body "ob".data true] }

/-! ## The claims -/

/-- Claim C1 (corrected): for every well-formed endpoint and valid typed
request, decoding the wire message produced by encoding returns the
request.  The well-formedness envelope must additionally require that no
declared header field uses the names the encoder synthesizes itself
(`content-type`, and `authorization` under access-token authentication);
without that restriction the round trip fails
(`claim_C1_counterexample`). -/
theorem claim_C1_roundtrip_wf (E : Endpoint) (R : Req) (tok : Option Str)
    (w : WireRequest) (hwf : wfEndpoint E) (hval : validReq E R)
    (henc : try_into_http_request E R tok = .ok w) :
    try_from_http_request E w = .ok R :=
  roundtrip_main E R tok w hwf hval henc

/-- Witness for C1: a mixed endpoint (path, query, header and body field,
bearer authentication) round-trips. -/
theorem claim_C1_witness :
    wfEndpoint Ew ∧ validReq Ew Rw
    ∧ try_into_http_request Ew Rw (some "tkn".data) = .ok Ww
    ∧ try_from_http_request Ew Ww = .ok Rw :=
  ⟨by decide, by decide, by decide,
    claim_C1_roundtrip_wf Ew Rw (some "tkn".data) Ww (by decide) (by decide) (by decide)⟩

/-- Counterexample for C1 as stated: an endpoint declaring an optional
header field named `content-type` (legal in the source) encodes the
absent value, yet decoding returns the synthesized
`application/json` — not the original request. -/
theorem claim_C1_counterexample :
    validReq Ec1 Rc1
    ∧ try_into_http_request Ec1 Rc1 none = .ok Wc1
    ∧ try_from_http_request Ec1 Wc1
        = .ok [Value.optStr (some "application/json".data)]
    ∧ ¬([Value.optStr (some "application/json".data)] = Rc1) := by
  refine ⟨by decide, by decide, by decide, by decide⟩

/-- Claim C2 (corrected): a placeholder is bound to the Path field *named
by the placeholder* — not positionally.  Encoding renders the `i`-th
template placeholder `:name` from the field named `name`, and decoding
keys the `i`-th placeholder's assignment by `name`; the positional
reading of the spec disagrees with the code on a reordered declaration
(`claim_C2_counterexample`). -/
theorem claim_C2_name_keyed_binding (E : Endpoint) (R : Req) (i : Nat) (seg : Str)
    (hseg : (tplSegments E.path).get? i = some seg) (hph : seg.head? = some ':')
    (w : WireRequest) (A : List (Str × Value))
    (hA : parse_request_path E w = .ok A) (hpf : has_path_fields E = true) :
    ((tplSegments E.path).map (renderPathSeg E R)).get? i
      = some ((percentEncode (utf8Encode ((getField E R (seg.drop 1)).asStr))).map Char.ofNat)
    ∧ ∃ v, (seg.drop 1, v) ∈ A := by
  constructor
  · rw [List.get?_map, hseg]
    show some (renderPathSeg E R seg) = _
    unfold renderPathSeg
    rw [if_pos hph]
  · unfold parse_request_path at hA
    rw [if_pos hpf] at hA
    exact pathAssigns_name_keyed (extract_path_segments w) (tplSegments E.path) 0 A
      hA i seg hseg hph

/-- Witness for C2: on `E2` (template `/a/:x/b/:y`, fields declared `y`
then `x`), the second segment `:x` renders from the field named `x` and
decodes into an assignment keyed `x`. -/
theorem claim_C2_witness :
    ((tplSegments E2.path).get? 1 = some ":x".data
      ∧ ":x".data.head? = some ':'
      ∧ parse_request_path E2 W2e
          = .ok [("x".data, Value.str "2".data), ("y".data, Value.str "1".data)]
      ∧ has_path_fields E2 = true)
    ∧ (((tplSegments E2.path).map (renderPathSeg E2 R2)).get? 1
        = some ((percentEncode (utf8Encode
            ((getField E2 R2 (":x".data.drop 1)).asStr))).map Char.ofNat)
      ∧ ∃ v, (":x".data.drop 1, v)
          ∈ [("x".data, Value.str "2".data), ("y".data, Value.str "1".data)]) :=
  ⟨⟨by decide, by decide, by decide, by decide⟩,
    claim_C2_name_keyed_binding E2 R2 1 ":x".data (by decide) (by decide) W2e
      [("x".data, Value.str "2".data), ("y".data, Value.str "1".data)]
      (by decide) (by decide)⟩

/-- Counterexample for C2 as stated: with the Path fields declared in
reverse order, the positional rendering the spec prescribes and the
code's name-keyed rendering produce different wire paths. -/
theorem claim_C2_counterexample :
    wfEndpoint E2
    ∧ renderPathPositionalSpec E2 R2 = "/a/1/b/2".data
    ∧ request_path_string E2 R2 = "/a/2/b/1".data
    ∧ ¬(renderPathPositionalSpec E2 R2 = request_path_string E2 R2)
    ∧ try_into_http_request E2 R2 none = .ok W2e
    ∧ ¬(W2e.path = renderPathPositionalSpec E2 R2) := by
  refine ⟨by decide, by decide, by decide, by decide, by decide, by decide⟩

/-- Claim C3 (confirmed): for every endpoint, decoding a zero-length body
and decoding the body `{}` yield identical results (the substitution is
applied before JSON parsing), and an endpoint without required body
fields and without a newtype body succeeds on a body-less wire
request. -/
theorem claim_C3_empty_body_as_braces (E : Endpoint) :
    extract_request_body E [] = extract_request_body E (utf8Encode ['{', '}'])
    ∧ ((∀ f ∈ E.fields, isRequiredBody f = false) →
       (∀ f ∈ E.fields, f.isNewtypeBody = false) →
        ∃ A, extract_request_body E [] = .ok A) := by
  constructor
  · unfold extract_request_body
    by_cases hg : (has_body_fields E || (newtype_body_field E).isSome) = true
    · rw [if_pos hg, if_pos hg, if_pos rfl, if_neg (utf8Encode_ne_nil '{' ['}'])]
    · rw [if_neg hg, if_neg hg]
  · intro hopt hnb
    by_cases hg : (has_body_fields E || (newtype_body_field E).isSome) = true
    · have hnbnone : newtype_body_field E = none := by
        apply List.find?_eq_none.mpr
        intro f hf
        rw [hnb f hf]
        exact Bool.noConfusion
      have hopt2 : ∀ n, RequestField.body n false ∉ E.fields := by
        intro n hmem
        have := hopt _ hmem
        exact Bool.noConfusion this
      obtain ⟨A, hA⟩ := bodyFieldsAssigns_no_required E.fields hopt2 []
      refine ⟨A, ?_⟩
      unfold extract_request_body
      rw [if_pos hg, if_pos rfl]
      have hp : jParseBytes (utf8Encode ['{', '}']) = some (JBody.obj []) :=
        jParseBytes_print (JBody.obj [])
      rw [hp, hnbnone]
      show (bodyObjOf (JBody.obj [])).bind (fun ms => bodyFieldsAssigns E.fields ms) = _
      show bodyFieldsAssigns E.fields [] = _
      exact hA
    · unfold extract_request_body
      rw [if_neg hg]
      exact ⟨[], rfl⟩

/-- Witness for C3: the optional-body endpoint `E3` decodes a zero-length
body like `\x7b\x7d`, successfully. -/
theorem claim_C3_witness :
    (extract_request_body E3 [] = extract_request_body E3 (utf8Encode ['{', '}'])
      ∧ ∃ A, extract_request_body E3 [] = .ok A)
    ∧ (∀ f ∈ E3.fields, isRequiredBody f = false)
    ∧ (∀ f ∈ E3.fields, f.isNewtypeBody = false)
    ∧ extract_request_body E3 [] = .ok [("ob".data, Value.optStr none)] :=
  ⟨⟨(claim_C3_empty_body_as_braces E3).1,
      (claim_C3_empty_body_as_braces E3).2 (by decide) (by decide)⟩,
    by decide, by decide, by decide⟩

/-- Claim C4 (confirmed): decoding a wire request whose method differs
from the endpoint's fails immediately with a method-mismatch error
carrying the expected and the received method, whatever the rest of the
wire request holds. -/
theorem claim_C4_method_mismatch (E : Endpoint) (w : WireRequest)
    (hne : w.method ≠ E.method) :
    try_from_http_request E w = .err (.methodMismatch E.method w.method) := by
  unfold try_from_http_request
  rw [if_pos hne]

/-- Witness for C4: a `POST` against the `GET` endpoint `E2` (with an
otherwise undecodable path) is rejected with both methods. -/
theorem claim_C4_witness :
    ("POST".data ≠ E2.method : Prop)
    ∧ try_from_http_request E2
        { method := "POST".data, path := "/nonsense".data, query := none,
          headers := [], body := [] }
      = .err (.methodMismatch "GET".data "POST".data) :=
  ⟨by decide,
    claim_C4_method_mismatch E2
      { method := "POST".data, path := "/nonsense".data, query := none,
        headers := [], body := [] } (by decide)⟩

/-- Claim C5 (confirmed): at decode time a missing header is the absent
value for an optional field and a `MissingHeader` error naming the header
for a required one, and header bytes that are not valid UTF-8 fail
`to_str` and produce a deserialization error. -/
theorem claim_C5_header_decode (headers : List (Str × List Nat)) (hname : Str) :
    (getHeader headers hname = none →
      parse_header_field headers hname true = .ok (Value.optStr none)
      ∧ parse_header_field headers hname false
          = .err (.deserialization (.missingHeader hname)))
    ∧ (∀ bs opt, getHeader headers hname = some bs → utf8Decode bs = none →
        parse_header_field headers hname opt
          = .err (.deserialization DeserializationError.headerToStr)) := by
  constructor
  · intro hmiss
    constructor
    · unfold parse_header_field
      rw [hmiss]
      rfl
    · unfold parse_header_field
      rw [hmiss]
      rfl
  · intro bs opt hsome hbad
    unfold parse_header_field
    rw [hsome]
    show (resOfToStr (headerValueToStr bs)).map _ = _
    rw [headerValueToStr_none_of_utf8 bs hbad]
    rfl

/-- Witness for C5: with the single header `x-b: 0xFF`, the optional
field `x-a` reads as absent, the required field `x-a` errors naming
`x-a`, and the non-UTF-8 value of `x-b` errors. -/
theorem claim_C5_witness :
    (getHeader [("x-b".data, [255])] "x-a".data = none
      ∧ getHeader [("x-b".data, [255])] "x-b".data = some [255]
      ∧ utf8Decode [255] = none)
    ∧ parse_header_field [("x-b".data, [255])] "x-a".data true = .ok (Value.optStr none)
    ∧ parse_header_field [("x-b".data, [255])] "x-a".data false
        = .err (.deserialization (.missingHeader "x-a".data))
    ∧ parse_header_field [("x-b".data, [255])] "x-b".data false
        = .err (.deserialization DeserializationError.headerToStr) :=
  ⟨⟨by decide, by decide, by decide⟩,
    ((claim_C5_header_decode [("x-b".data, [255])] "x-a".data).1 (by decide)).1,
    ((claim_C5_header_decode [("x-b".data, [255])] "x-a".data).1 (by decide)).2,
    (claim_C5_header_decode [("x-b".data, [255])] "x-b".data).2 [255] false
      (by decide) (by decide)⟩

/-- `header_kvs_auth` under access-token authentication with no token:
the hard error. -/
theorem header_kvs_auth_missing (E : Endpoint)
    (hacc : E.authentication = "AccessToken".data) (hs : List (Str × List Nat)) :
    header_kvs_auth E none hs = .err IntoHttpError.needsAuthentication := by
  unfold header_kvs_auth
  rw [if_pos hacc]

/-- `header_kvs_auth` under access-token authentication with a token that
survives `HeaderValue::from_str`: `Authorization: Bearer <token>`. -/
theorem header_kvs_auth_token (E : Endpoint)
    (hacc : E.authentication = "AccessToken".data) (hs : List (Str × List Nat))
    (t : Str) (hsafe : headerSafeStr ("Bearer ".data ++ t) = true) :
    header_kvs_auth E (some t) hs
      = .ok (insertHeader hs "authorization".data (utf8Encode ("Bearer ".data ++ t))) := by
  unfold header_kvs_auth
  rw [if_pos hacc]
  show (resOfHv (headerValueFromStr ("Bearer ".data ++ t))).map _ = _
  rw [headerSafe_fromStr _ hsafe]
  rfl

/-- Claim C6 (confirmed): for an endpoint requiring an access token,
encoding with no token fails hard with `NeedsAuthentication`, and
encoding with a (header-legal) token produces a wire request carrying
`Authorization: Bearer <token>`. -/
theorem claim_C6_bearer_auth (E : Endpoint) (R : Req)
    (hacc : E.authentication = "AccessToken".data)
    (hndh : (header_names E).Nodup) (hval : validReq E R) :
    try_into_http_request E R none = .err IntoHttpError.needsAuthentication
    ∧ ∀ t, headerSafeStr t = true →
        ∃ w, try_into_http_request E R (some t) = .ok w
          ∧ getHeader w.headers "authorization".data
              = some (utf8Encode ("Bearer ".data ++ t)) := by
  obtain ⟨hlen, hvals⟩ := hval
  have hmapfst : (E.fields.zip R).map Prod.fst = E.fields :=
    List.map_fst_zip E.fields R (by omega)
  have hndh' : (headerNamesOf ((E.fields.zip R).map Prod.fst)).Nodup := by
    rw [hmapfst]
    exact hndh
  obtain ⟨hs1, hok1, _, _⟩ := header_kvs_fields_spec (E.fields.zip R)
    (appendHeader [] "content-type".data (utf8Encode "application/json".data)) hvals hndh'
  constructor
  · unfold try_into_http_request
    rw [hok1]
    show (header_kvs_auth E none hs1).bind _ = _
    rw [header_kvs_auth_missing E hacc hs1]
    rfl
  · intro t ht
    have h2 : t.all (fun c => (32 ≤ c.toNat && c.toNat < 127) || c.toNat == 9) = true := ht
    have hsafe : headerSafeStr ("Bearer ".data ++ t) = true := by
      unfold headerSafeStr
      rw [List.all_append, h2, Bool.and_true]
      decide
    refine ⟨WireRequest.mk E.method (request_path_string E R) (build_query_string E R)
      (insertHeader hs1 "authorization".data (utf8Encode ("Bearer ".data ++ t)))
      (request_body E R), ?_, ?_⟩
    · unfold try_into_http_request
      rw [hok1]
      show (header_kvs_auth E (some t) hs1).bind _ = _
      rw [header_kvs_auth_token E hacc hs1 t hsafe]
      rfl
    · exact getHeader_insertHeader_self hs1 "authorization".data _

/-- Witness for C6: the access-token endpoint `Ew` rejects a missing
token and emits the bearer header for token `tkn`. -/
theorem claim_C6_witness :
    (Ew.authentication = "AccessToken".data ∧ (header_names Ew).Nodup ∧ validReq Ew Rw)
    ∧ try_into_http_request Ew Rw none = .err IntoHttpError.needsAuthentication
    ∧ ∃ w, try_into_http_request Ew Rw (some "tkn".data) = .ok w
        ∧ getHeader w.headers "authorization".data
            = some (utf8Encode ("Bearer ".data ++ "tkn".data)) := by
  have h := claim_C6_bearer_auth Ew Rw (by decide) (by decide) (by decide)
  exact ⟨⟨by decide, by decide, by decide⟩, h.1, h.2 "tkn".data (by decide)⟩

/-- Claim C7 (confirmed): the spec's example — template `/a/:x/b/:y` with
`x = "foo bar"`, `y = "42"` encodes to `/a/foo%20bar/b/42` (placeholders
percent-encoded outside `[A-Za-z0-9]`, static segments untouched), and
decoding that path restores both values. -/
theorem claim_C7_path_example :
    try_into_http_request E7 R7 none = .ok W7
    ∧ W7.path = "/a/foo%20bar/b/42".data
    ∧ try_from_http_request E7 W7 = .ok R7 := by
  refine ⟨by decide, by decide, by decide⟩

/-- Claim C8 (corrected): the macro's definition-time asserts do enforce
that the placeholder count equals the Path field count — but only when at
least one Path field is declared; with zero Path fields and a placeholder
in the template nothing is checked (`claim_C8_counterexample`). -/
theorem claim_C8_path_count_assert (E : Endpoint)
    (hpf : has_path_fields E = true)
    (hok : path_string_and_parse_asserts E = true) :
    placeholderCount E = path_field_count E := by
  unfold path_string_and_parse_asserts at hok
  rw [if_pos hpf] at hok
  rcases Bool.and_eq_true_iff.mp hok with ⟨h1, _⟩
  rcases Bool.and_eq_true_iff.mp h1 with ⟨_, h2⟩
  exact of_decide_eq_true h2

/-- Witness for C8: on `E2` the asserts hold and the counts agree. -/
theorem claim_C8_witness :
    (has_path_fields E2 = true ∧ path_string_and_parse_asserts E2 = true)
    ∧ placeholderCount E2 = path_field_count E2 :=
  ⟨⟨by decide, by decide⟩, claim_C8_path_count_assert E2 (by decide) (by decide)⟩

/-- Counterexample for C8 as stated: `E8` declares zero Path fields while
its template `/a/:x` has one placeholder, yet every definition-time
assert passes. -/
theorem claim_C8_counterexample :
    path_string_and_parse_asserts E8 = true
    ∧ placeholderCount E8 = 1
    ∧ path_field_count E8 = 0 := by
  refine ⟨by decide, by decide, by decide⟩

/-- Claim C9 (corrected): the encoder always *starts* from
`Content-Type: application/json`, and the wire request carries it for
every endpoint that declares no header field named `content-type`; a
declared `content-type` header field *replaces* it, so the attachment is
not unconditional (`claim_C9_counterexample`). -/
theorem claim_C9_content_type (E : Endpoint) (R : Req) (tok : Option Str)
    (w : WireRequest)
    (hct : "content-type".data ∉ header_names E)
    (hlen : R.length = E.fields.length)
    (henc : try_into_http_request E R tok = .ok w) :
    getHeader w.headers "content-type".data = some (utf8Encode "application/json".data) := by
  have hmapfst : (E.fields.zip R).map Prod.fst = E.fields :=
    List.map_fst_zip E.fields R (by omega)
  unfold try_into_http_request at henc
  cases hok1 : header_kvs_fields (E.fields.zip R)
      (appendHeader [] "content-type".data (utf8Encode "application/json".data)) with
  | err e =>
    rw [hok1] at henc
    exact Res.noConfusion henc
  | ok hs1 =>
    rw [hok1] at henc
    have hct1 : getHeader hs1 "content-type".data
        = some (utf8Encode "application/json".data) := by
      rw [header_kvs_fields_untouched (E.fields.zip R) _ hs1 hok1 "content-type".data
        (by rw [hmapfst]; exact hct)]
      show (if "content-type".data = "content-type".data then
        some (utf8Encode "application/json".data)
        else getHeader [] "content-type".data) = _
      rw [if_pos rfl]
    have henc2 : (header_kvs_auth E tok hs1).bind (fun hs2 =>
        Res.ok (WireRequest.mk E.method (request_path_string E R)
          (build_query_string E R) hs2 (request_body E R))) = .ok w := henc
    unfold header_kvs_auth at henc2
    by_cases hac : E.authentication = "AccessToken".data
    · rw [if_pos hac] at henc2
      cases tok with
      | none => exact Res.noConfusion henc2
      | some t =>
        have henc3 : ((resOfHv (headerValueFromStr ("Bearer ".data ++ t))).map
            (insertHeader hs1 "authorization".data)).bind (fun hs2 =>
              Res.ok (WireRequest.mk E.method (request_path_string E R)
                (build_query_string E R) hs2 (request_body E R))) = .ok w := henc2
        cases hfs : headerValueFromStr ("Bearer ".data ++ t) with
        | none =>
          rw [hfs] at henc3
          exact Res.noConfusion henc3
        | some bts =>
          rw [hfs] at henc3
          have h4 : Res.ok (WireRequest.mk E.method (request_path_string E R)
              (build_query_string E R) (insertHeader hs1 "authorization".data bts)
              (request_body E R)) = Res.ok w := henc3
          injection h4 with h4
          have hwh : w.headers = insertHeader hs1 "authorization".data bts := by
            rw [← h4]
          rw [hwh, getHeader_insertHeader_other hs1 "authorization".data
            "content-type".data bts (by decide)]
          exact hct1
    · rw [if_neg hac] at henc2
      have h4 : Res.ok (WireRequest.mk E.method (request_path_string E R)
          (build_query_string E R) hs1 (request_body E R)) = Res.ok w := henc2
      injection h4 with h4
      have hwh : w.headers = hs1 := by rw [← h4]
      rw [hwh]
      exact hct1

/-- Witness for C9: the body-less, header-field-less endpoint `E2` still
sends `Content-Type: application/json`. -/
theorem claim_C9_witness :
    ("content-type".data ∉ header_names E2
      ∧ R2.length = E2.fields.length
      ∧ try_into_http_request E2 R2 none = .ok W2e)
    ∧ getHeader W2e.headers "content-type".data
        = some (utf8Encode "application/json".data) :=
  ⟨⟨by decide, by decide, by decide⟩,
    claim_C9_content_type E2 R2 none W2e (by decide) (by decide) (by decide)⟩

/-- Counterexample for C9 as stated: a declared required header field
named `content-type` with value `text/plain` replaces the synthesized
header, so the wire request does not carry `application/json`. -/
theorem claim_C9_counterexample :
    validReq Ec9 Rc9
    ∧ (∃ w, try_into_http_request Ec9 Rc9 none = .ok w
        ∧ getHeader w.headers "content-type".data = some (utf8Encode "text/plain".data)
        ∧ ¬(getHeader w.headers "content-type".data
            = some (utf8Encode "application/json".data))) := by
  refine ⟨by decide, ⟨Wc9, by decide, by decide, by decide⟩⟩

/-- Claim C10 (confirmed): with a raw-body field (and hence no body or
newtype-body fields), body extraction contributes nothing — no JSON
parsing and no `\x7b\x7d` substitution — and the raw field receives the
wire body bytes verbatim; a zero-length body yields the empty byte
value. -/
theorem claim_C10_raw_body_verbatim (E : Endpoint) (f : RequestField)
    (hraw : newtype_raw_body_field E = some f)
    (hnbr : ¬((newtype_body_field E).isSome ∧ (newtype_raw_body_field E).isSome))
    (hrb : ¬((newtype_raw_body_field E).isSome ∧ has_body_fields E = true))
    (w : WireRequest) :
    extract_request_body E w.body = .ok []
    ∧ parse_request_body_raw E w = [(fieldName f, Value.bytes w.body)] := by
  constructor
  · have hguard : ¬((has_body_fields E || (newtype_body_field E).isSome) = true) := by
      intro hcc
      rcases Bool.or_eq_true_iff.mp hcc with hb | hn
      · exact hrb ⟨by rw [hraw]; rfl, hb⟩
      · exact hnbr ⟨hn, by rw [hraw]; rfl⟩
    unfold extract_request_body
    rw [if_neg hguard]
  · unfold parse_request_body_raw
    rw [hraw]

/-- Witness for C10: the raw-body endpoint `E10` on a body-less wire
request assigns the empty byte string, with no body extraction. -/
theorem claim_C10_witness :
    (newtype_raw_body_field E10 = some (RequestField.newtypeRawBody "rb".data)
      ∧ ¬((newtype_body_field E10).isSome ∧ (newtype_raw_body_field E10).isSome)
      ∧ ¬((newtype_raw_body_field E10).isSome ∧ has_body_fields E10 = true))
    ∧ extract_request_body E10 W10.body = .ok []
    ∧ parse_request_body_raw E10 W10
        = [(fieldName (RequestField.newtypeRawBody "rb".data), Value.bytes W10.body)] :=
  ⟨⟨by decide, by decide, by decide⟩,
    (claim_C10_raw_body_verbatim E10 (RequestField.newtypeRawBody "rb".data)
      (by decide) (by decide) (by decide) W10).1,
    (claim_C10_raw_body_verbatim E10 (RequestField.newtypeRawBody "rb".data)
      (by decide) (by decide) (by decide) W10).2⟩
